import Mathlib

/-!
# Route-planning engine: `src/server/index.js`

A shallow embedding of the graph core of the server (the binary min-heap
`MinHeap`, the graph builder `buildAdjacencyListFromMatrix` and the
instrumented search `dijkstra`) together with the properties proved about it.

Numbers.  JavaScript numbers are modelled by an arbitrary linearly ordered
additive commutative group `α` (for instance `ℤ`, `ℚ` or `ℝ`) for the finite
values, and by `Option α` where the source may hold `Infinity`
(`none` is `Infinity`).  Rounding of floating-point arithmetic is not modelled.

Arrays.  JavaScript arrays are modelled by lists; `a[i]` is `a[i]?`, where
`none` is the `undefined` the source would read out of range.
-/

namespace RouteEngine

/-! ## `MinHeap` (index.js, lines 27-81) -/

/-- An entry of the heap: the object `{ node, dist }`. -/
structure HeapItem (κ : Type) where
  node : Nat
  dist : κ
deriving DecidableEq

/-- The class `MinHeap`: its only field is the array `heap`. -/
structure MinHeap (κ : Type) where
  heap : List (HeapItem κ)
deriving DecidableEq

section Heap

variable {κ : Type} [LinearOrder κ]

/-- The destructuring swap `[heap[i], heap[j]] = [heap[j], heap[i]]`. Both
indices are in range wherever the source executes it. -/
def swapAt (heap : List (HeapItem κ)) (i j : Nat) : List (HeapItem κ) :=
  match heap[i]?, heap[j]? with
  | some a, some b => (heap.set i b).set j a
  | _, _ => heap

/-- The loop of `_bubbleUp(index)`, one iteration per unit of fuel. The index
strictly decreases, so `index` units of fuel are enough
(`bubbleUpLoop_fuel`). -/
def bubbleUpLoop : Nat → List (HeapItem κ) → Nat → List (HeapItem κ)
  | 0, heap, _ => heap
  | fuel + 1, heap, index =>
    if 0 < index then
      let parentIndex := (index - 1) / 2
      match heap[parentIndex]?, heap[index]? with
      | some p, some c =>
        if p.dist ≤ c.dist then heap
        else bubbleUpLoop fuel (swapAt heap parentIndex index) parentIndex
      | _, _ => heap
    else heap

/-- `MinHeap._bubbleUp(index)` on the underlying array. -/
def bubbleUp (heap : List (HeapItem κ)) (index : Nat) : List (HeapItem κ) :=
  bubbleUpLoop index heap index

/-- The choice of `smallest` in one iteration of `_sinkDown`: the two `if`s on
`left` and `right`. -/
def smallestOf (heap : List (HeapItem κ)) (index : Nat) : Nat :=
  let left := index * 2 + 1
  let right := index * 2 + 2
  let smallest := index
  let smallest :=
    match heap[left]?, heap[smallest]? with
    | some l, some s => if l.dist < s.dist then left else smallest
    | _, _ => smallest
  let smallest :=
    match heap[right]?, heap[smallest]? with
    | some r, some s => if r.dist < s.dist then right else smallest
    | _, _ => smallest
  smallest

/-- The loop of `_sinkDown(index)`, one iteration per unit of fuel. The index
strictly increases and stays below the length, so `heap.length` units of fuel
are enough (`sinkDownLoop_fuel`). -/
def sinkDownLoop : Nat → List (HeapItem κ) → Nat → List (HeapItem κ)
  | 0, heap, _ => heap
  | fuel + 1, heap, index =>
    let smallest := smallestOf heap index
    if smallest = index then heap
    else sinkDownLoop fuel (swapAt heap smallest index) smallest

/-- `MinHeap._sinkDown(index)` on the underlying array. -/
def sinkDown (heap : List (HeapItem κ)) (index : Nat) : List (HeapItem κ) :=
  sinkDownLoop heap.length heap index

/-- `new MinHeap()`. -/
def MinHeap.empty : MinHeap κ := ⟨[]⟩

/-- `MinHeap.isEmpty()`. -/
def MinHeap.isEmpty (h : MinHeap κ) : Bool := h.heap.length == 0

/-- `MinHeap.push(item)`. -/
def MinHeap.push (h : MinHeap κ) (item : HeapItem κ) : MinHeap κ :=
  let heap := h.heap ++ [item]
  ⟨bubbleUp heap (heap.length - 1)⟩

/-- `MinHeap.pop()`: the returned value (`none` is `null`) and the heap
afterwards. -/
def MinHeap.pop (h : MinHeap κ) : Option (HeapItem κ) × MinHeap κ :=
  if h.isEmpty then (none, h)
  else
    match h.heap.head?, h.heap.getLast? with
    | some min, some last =>
      let heap := h.heap.dropLast
      if heap.length == 0 then (some min, ⟨heap⟩)
      else (some min, ⟨sinkDown (heap.set 0 last) 0⟩)
    | _, _ => (none, h)

end Heap

/-! ## `buildAdjacencyListFromMatrix` (index.js, lines 96-134) -/

/-- An entry of an adjacency list: the object `{ node, weight }`. -/
structure Edge (α : Type) where
  node : Nat
  weight : α
deriving DecidableEq

/-- An entry of the array `distances` of the k-nearest-neighbour branch: the
object `{ node, dist }`. -/
structure NodeDist (α : Type) where
  node : Nat
  dist : α
deriving DecidableEq

/-- The argument `graphType`: the branch `graphType === "knn"` or the other one. -/
inductive GraphType where
  | knn
  | full
deriving DecidableEq

/-- A distance matrix: rows of entries, `none` standing for a value that
`Number.isFinite` rejects (the `Infinity` written for an unreachable pair). -/
abbrev Matrix (α : Type) := List (List (Option α))

/-- An adjacency list: for each node index the array of its edges. -/
abbrev Adjacency (α : Type) := List (List (Edge α))

section Builder

variable {α : Type} [LinearOrderedAddCommGroup α]

/-- The value `distanceMatrix[i][j]` as seen through `Number.isFinite`: `some d`
for a finite number `d`, `none` otherwise (also for a missing column). -/
def matrixEntry (distanceMatrix : Matrix α) (i j : Nat) : Option α :=
  match distanceMatrix[i]? with
  | some row =>
    match row[j]? with
    | some entry => entry
    | none => none
  | none => none

/-- The statement `adjacencyList[i].push(e)`. -/
def pushEdge (adjacencyList : Adjacency α) (i : Nat) (e : Edge α) : Adjacency α :=
  match adjacencyList[i]? with
  | some edges => adjacencyList.set i (edges ++ [e])
  | none => adjacencyList

/-- The expression `k || 3`: `none` is an absent `k`, and `0` is falsy. -/
def kOrDefault (k : Option Int) : Int :=
  match k with
  | none => 3
  | some v => if v = 0 then 3 else v

/-- The constant `neighbors = Math.max(1, Math.min(k || 3, n - 1))`. -/
def knnNeighbors (k : Option Int) (n : Nat) : Int :=
  max 1 (min (kOrDefault k) ((n : Int) - 1))

/-- The array `distances` built for node `i`: every `j ≠ i` with a finite
`distanceMatrix[i][j]`, in ascending order of `j`. -/
def knnCandidates (distanceMatrix : Matrix α) (n i : Nat) : List (NodeDist α) :=
  (List.range n).filterMap fun j =>
    if i ≠ j then (matrixEntry distanceMatrix i j).map fun dist => ⟨j, dist⟩ else none

/-- Insertion of one element into a sorted array, behind the elements that the
comparator does not place after it. -/
def sortInsert {β : Type} (cmp : β → β → α) (a : β) : List β → List β
  | [] => [a]
  | b :: l => if 0 < cmp a b then b :: sortInsert cmp a l else a :: b :: l

/-- `Array.prototype.sort(cmp)`: a stable sort, `a` before `b` when
`cmp(a, b) < 0`, the original order kept when `cmp(a, b) = 0`. -/
def jsSort {β : Type} (cmp : β → β → α) : List β → List β
  | [] => []
  | a :: l => sortInsert cmp a (jsSort cmp l)

/-- The inner loop `for (idx = 0; idx < neighbors; idx += 1)` of the
k-nearest-neighbour branch for node `i`. Destructuring `distances[idx]` when it
is `undefined` throws a `TypeError`: the result is then `none`. -/
def knnConnect (i : Nat) (distances : List (NodeDist α)) (neighbors : Nat)
    (adjacencyList : Adjacency α) : Option (Adjacency α) :=
  (List.range neighbors).foldlM
    (fun adj idx =>
      match distances[idx]? with
      | some nd => some (pushEdge (pushEdge adj i ⟨nd.node, nd.dist⟩) nd.node ⟨i, nd.dist⟩)
      | none => none)
    adjacencyList

/-- The k-nearest-neighbour branch (lines 100-121). -/
def buildKnn (distanceMatrix : Matrix α) (k : Option Int) : Option (Adjacency α) :=
  let n := distanceMatrix.length
  let neighbors := knnNeighbors k n
  (List.range n).foldlM
    (fun adj i =>
      let distances := jsSort (fun a b => a.dist - b.dist) (knnCandidates distanceMatrix n i)
      knnConnect i distances neighbors.toNat adj)
    (List.replicate n [])

/-- The inner loop `for (j = i + 1; j < n; j += 1)` of the full branch. -/
def fullRow (distanceMatrix : Matrix α) (n i : Nat) (adjacencyList : Adjacency α) :
    Adjacency α :=
  (List.range' (i + 1) (n - (i + 1))).foldl
    (fun adj j =>
      match matrixEntry distanceMatrix i j with
      | some dist => pushEdge (pushEdge adj i ⟨j, dist⟩) j ⟨i, dist⟩
      | none => adj)
    adjacencyList

/-- The full branch (lines 123-133). -/
def buildFull (distanceMatrix : Matrix α) : Adjacency α :=
  let n := distanceMatrix.length
  (List.range n).foldl (fun adj i => fullRow distanceMatrix n i adj) (List.replicate n [])

/-- `buildAdjacencyListFromMatrix(distanceMatrix, graphType, k).adjacencyList`;
`none` when the call throws a `TypeError`. -/
def buildAdjacencyListFromMatrix (distanceMatrix : Matrix α) (graphType : GraphType)
    (k : Option Int) : Option (Adjacency α) :=
  match graphType with
  | GraphType.knn => buildKnn distanceMatrix k
  | GraphType.full => some (buildFull distanceMatrix)

end Builder

/-! ## `dijkstra` (index.js, lines 524-652) -/

/-- An entry of `relaxations`. `oldDistance` is `none` for `'Infinity'`;
`improvement` is `none` for `'New'` and otherwise `oldDistance - alt`
(the source formats it with two decimals). -/
structure Relaxation (α : Type) where
  neighbor : Nat
  oldDistance : Option α
  newDistance : α
  improvement : Option α
deriving DecidableEq

/-- An entry of `steps` (the text `action` is determined by `currentNode`). -/
structure TraceStep (α : Type) where
  currentNode : Nat
  currentDistance : α
  visited : List Nat
  heapSize : Nat
  relaxations : List (Relaxation α)
deriving DecidableEq

/-- The counters of the record `metrics`; the remaining fields of the source
are formatted quotients of these and of the adjacency list. -/
structure Metrics where
  nodesExplored : Nat
  totalNodes : Nat
  edgesConsidered : Nat
  heapOperations : Nat
  pathLength : Nat
  edgesInPath : Nat
deriving DecidableEq

/-- The value returned by `dijkstra`. `distance = none` is `Infinity`,
`metrics = none` is `null`. -/
structure DijkstraResult (α : Type) where
  distance : Option α
  path : List Nat
  steps : List (TraceStep α)
  metrics : Option Metrics
deriving DecidableEq

/-- The local variables of `dijkstra` that the main loop reads and writes.
In `distances`, `none` is `Infinity`; in `previous`, `none` is `null`;
`visited` lists the set in insertion order. -/
structure SearchState (α : Type) where
  distances : List (Option α)
  previous : List (Option Nat)
  heap : MinHeap α
  visited : List Nat
  steps : List (TraceStep α)
  heapOperations : Nat
  nodesExplored : Nat
  edgesConsidered : Nat
deriving DecidableEq

/-- How a computation of the source ends: with a value, with a thrown
`TypeError`, or not within the iterations allowed to its loop. -/
inductive Outcome (σ : Type) where
  | done (value : σ)
  | typeError
  | diverges
deriving DecidableEq

section Search

variable {α : Type} [LinearOrderedAddCommGroup α]

/-- The test `alt < distances[neighbor.node]` for the value read from the
array: `Infinity` is above every finite number. -/
def altImproves (alt : α) (old : Option α) : Bool :=
  match old with
  | none => true
  | some d => alt < d

/-- The body of `for (const neighbor of adjacencyList[node])` (lines 556-576):
the state and the `relaxations` array after one neighbour. Reading
`distances[neighbor.node]` out of range gives `undefined`, and the comparison
with it is false. -/
def relaxEdge (node : Nat) (dist : α) (acc : SearchState α × List (Relaxation α))
    (neighbor : Edge α) : SearchState α × List (Relaxation α) :=
  let st := { acc.1 with edgesConsidered := acc.1.edgesConsidered + 1 }
  let alt := dist + neighbor.weight
  match st.distances[neighbor.node]? with
  | none => (st, acc.2)
  | some oldDistance =>
    if altImproves alt oldDistance then
      ({ st with
          distances := st.distances.set neighbor.node (some alt)
          previous := st.previous.set neighbor.node (some node)
          heap := st.heap.push ⟨neighbor.node, alt⟩
          heapOperations := st.heapOperations + 1 },
        acc.2 ++ [{ neighbor := neighbor.node
                    oldDistance := oldDistance
                    newDistance := alt
                    improvement := oldDistance.map fun old => old - alt }])
    else (st, acc.2)

/-- The test `dist > distances[node]` for the value read from the array
(`undefined` and `Infinity` both make it false). -/
def isStale (dist : α) (current : Option (Option α)) : Bool :=
  match current with
  | some (some d) => d < dist
  | _ => false

/-- The main loop `while (!heap.isEmpty())` (lines 541-589), one iteration per
unit of fuel. -/
def searchLoop (adjacencyList : Adjacency α) (endIndex : Nat) :
    Nat → SearchState α → Outcome (SearchState α)
  | 0, st => if st.heap.isEmpty then Outcome.done st else Outcome.diverges
  | fuel + 1, st =>
    if st.heap.isEmpty then Outcome.done st
    else
      match st.heap.pop with
      | (none, heap) =>
        Outcome.done { st with heap := heap, heapOperations := st.heapOperations + 1 }
      | (some current, heap) =>
        let st := { st with heap := heap, heapOperations := st.heapOperations + 1 }
        let node := current.node
        let dist := current.dist
        if isStale dist st.distances[node]? then searchLoop adjacencyList endIndex fuel st
        else if node ∈ st.visited then searchLoop adjacencyList endIndex fuel st
        else
          let st := { st with
            visited := st.visited ++ [node]
            nodesExplored := st.nodesExplored + 1 }
          match adjacencyList[node]? with
          | none => Outcome.typeError
          | some neighbors =>
            let (st, relaxations) := neighbors.foldl (relaxEdge node dist) (st, [])
            let st := { st with
              steps := st.steps ++ [{ currentNode := node
                                      currentDistance := dist
                                      visited := st.visited
                                      heapSize := st.heap.heap.length
                                      relaxations := relaxations }] }
            if node = endIndex then Outcome.done st
            else searchLoop adjacencyList endIndex fuel st

/-- The loop `while (current !== null)` (lines 593-598), one iteration per unit
of fuel. Reading `previous[current]` out of range gives `undefined`, which is
not `null`: the loop of the source then never ends. -/
def walkBack (previous : List (Option Nat)) : Nat → Option Nat → List Nat → Outcome (List Nat)
  | _, none, path => Outcome.done path
  | 0, some _, _ => Outcome.diverges
  | fuel + 1, some current, path =>
    match previous[current]? with
    | some next => walkBack previous fuel next (current :: path)
    | none => Outcome.diverges

/-- The number of entries of the adjacency list, `Σ neighbors.length`. -/
def totalEntries (adjacencyList : Adjacency α) : Nat :=
  (adjacencyList.map List.length).sum

/-- The state before the main loop (lines 525-539). -/
def initialState (adjacencyList : Adjacency α) (startIndex : Nat) : SearchState α :=
  let n := adjacencyList.length
  { distances := (List.replicate n none).set startIndex (some 0)
    previous := List.replicate n none
    heap := MinHeap.empty.push ⟨startIndex, 0⟩
    visited := []
    steps := []
    heapOperations := 1
    nodesExplored := 0
    edgesConsidered := 0 }

/-- The value read by `distances[endIndex]` in the returned record. -/
def readDistance (distances : List (Option α)) (endIndex : Nat) : Option α :=
  match distances[endIndex]? with
  | some d => d
  | none => none

/-- The part of `dijkstra` after the main loop (lines 593-651). The backward
walk is allowed `n` iterations (`walkBack_terminates` shows they are enough). -/
def finish (adjacencyList : Adjacency α) (startIndex endIndex : Nat) (st : SearchState α) :
    Outcome (DijkstraResult α) :=
  let n := adjacencyList.length
  match walkBack st.previous n (some endIndex) [] with
  | Outcome.done path =>
    if path.head? ≠ some startIndex then
      Outcome.done { distance := none, path := [], steps := [], metrics := none }
    else
      let pathLength := path.length
      Outcome.done
        { distance := readDistance st.distances endIndex
          path := path
          steps := st.steps
          metrics := some
            { nodesExplored := st.nodesExplored
              totalNodes := n
              edgesConsidered := st.edgesConsidered
              heapOperations := st.heapOperations
              pathLength := pathLength
              edgesInPath := max 0 (pathLength - 1) } }
  | Outcome.typeError => Outcome.typeError
  | Outcome.diverges => Outcome.diverges

/-- `dijkstra(adjacencyList, startIndex, endIndex)`. The main loop is allowed
`1 + totalEntries adjacencyList` iterations (`searchLoop_terminates` shows they
are enough). -/
def dijkstra (adjacencyList : Adjacency α) (startIndex endIndex : Nat) :
    Outcome (DijkstraResult α) :=
  match searchLoop adjacencyList endIndex (1 + totalEntries adjacencyList)
      (initialState adjacencyList startIndex) with
  | Outcome.done st => finish adjacencyList startIndex endIndex st
  | Outcome.typeError => Outcome.typeError
  | Outcome.diverges => Outcome.diverges

end Search


/-! ## Specification vocabulary -/

section HeapSpec

variable {κ : Type} [LinearOrder κ]

/-- The order condition on the pair formed by index `j` and its parent
`floor((j - 1) / 2)`. -/
def OrdAt (l : List (HeapItem κ)) (j : Nat) : Prop :=
  ∀ c p, l[j]? = some c → l[(j - 1) / 2]? = some p → p.dist ≤ c.dist

/-- The binary min-heap order invariant of the array: for every index `i > 0`,
`heap[floor((i - 1) / 2)].dist ≤ heap[i].dist`. -/
def HeapOrdered (l : List (HeapItem κ)) : Prop :=
  ∀ i (h : i < l.length), 0 < i → (l[(i - 1) / 2]).dist ≤ (l[i]).dist

instance instDecidableHeapOrdered (l : List (HeapItem κ)) : Decidable (HeapOrdered l) := by
  unfold HeapOrdered; infer_instance

/-- An operation of the heap's interface. -/
inductive HeapOp (κ : Type) where
  | push (item : HeapItem κ)
  | pop

/-- The heap after a sequence of operations. -/
def runOps (h : MinHeap κ) : List (HeapOp κ) → MinHeap κ
  | [] => h
  | HeapOp.push item :: ops => runOps (h.push item) ops
  | HeapOp.pop :: ops => runOps h.pop.2 ops

end HeapSpec

section BuilderSpec

variable {α : Type} [LinearOrderedAddCommGroup α]

/-- A sequence of statements `adjacencyList[i].push(e)`, given as pairs `(i, e)`,
executed in order. -/
def pushAll (adjacencyList : Adjacency α) (ops : List (Nat × Edge α)) : Adjacency α :=
  ops.foldl (fun adj op => pushEdge adj op.1 op.2) adjacencyList

/-- The pushes of one iteration of the inner loop of the full branch. -/
def fullOps (distanceMatrix : Matrix α) (i j : Nat) : List (Nat × Edge α) :=
  match matrixEntry distanceMatrix i j with
  | some dist => [(i, ⟨j, dist⟩), (j, ⟨i, dist⟩)]
  | none => []

/-- The pushes of one iteration of the inner loop of the k-nearest-neighbour
branch. -/
def knnOps (i : Nat) (nd : NodeDist α) : List (Nat × Edge α) :=
  [(i, ⟨nd.node, nd.dist⟩), (nd.node, ⟨i, nd.dist⟩)]

/-- The order "ascending by distance, ties broken by ascending neighbour index". -/
def NearerOrEq (a b : NodeDist α) : Prop :=
  a.dist < b.dist ∨ (a.dist = b.dist ∧ a.node ≤ b.node)

instance instDecidableNearerOrEq : DecidableRel (NearerOrEq (α := α)) := by
  intro a b; unfold NearerOrEq; infer_instance

/-- The nodes `j ≠ i` with a finite `distanceMatrix[i][j]`, in the order ascending
by distance with ties broken by ascending neighbour index. -/
def nearestOrder (distanceMatrix : Matrix α) (i : Nat) : List (NodeDist α) :=
  (knnCandidates distanceMatrix distanceMatrix.length i).insertionSort NearerOrEq

/-- The adjacency list holds an edge from `i` to `j` of weight `w`. -/
def HasEdge (adjacencyList : Adjacency α) (i j : Nat) (w : α) : Prop :=
  ∃ edges, adjacencyList[i]? = some edges ∧ (⟨j, w⟩ : Edge α) ∈ edges

/-- The entries of `adjacencyList[i]` that point to `j`. -/
def edgesTo (adjacencyList : Adjacency α) (i j : Nat) : List (Edge α) :=
  match adjacencyList[i]? with
  | some edges => edges.filter fun e => e.node = j
  | none => []

/-- The clamp of `k` to the interval from `lo` to `hi`. -/
def clamp (k lo hi : Int) : Int := max lo (min k hi)

end BuilderSpec

section SearchSpec

variable {α : Type} [LinearOrderedAddCommGroup α]

/-- The edges listed for node `u` (none when `u` is out of range). -/
def edgesOf (adjacencyList : Adjacency α) (u : Nat) : List (Edge α) :=
  match adjacencyList[u]? with
  | some edges => edges
  | none => []

/-- `IsWalk adj u es v`: starting at `u` and following the edges `es` one after
the other, each taken from the adjacency list of the node reached so far, one
arrives at `v`. -/
def IsWalk (adjacencyList : Adjacency α) : Nat → List (Edge α) → Nat → Prop
  | u, [], v => u = v
  | u, e :: es, v => e ∈ edgesOf adjacencyList u ∧ IsWalk adjacencyList e.node es v

instance instDecidableIsWalk (adjacencyList : Adjacency α) :
    ∀ u es v, Decidable (IsWalk adjacencyList u es v)
  | u, [], v => inferInstanceAs (Decidable (u = v))
  | _, e :: es, v =>
    @instDecidableAnd _ _ _ (instDecidableIsWalk adjacencyList e.node es v)

/-- The sum of the weights of the edges of a walk. -/
def walkWeight (es : List (Edge α)) : α := (es.map Edge.weight).sum

/-- Every weight of the adjacency list is non-negative. -/
def NonNegative (adjacencyList : Adjacency α) : Prop :=
  ∀ edges ∈ adjacencyList, ∀ e ∈ edges, 0 ≤ e.weight

instance instDecidableNonNegative (adjacencyList : Adjacency α) :
    Decidable (NonNegative adjacencyList) := by
  unfold NonNegative; infer_instance

/-- The value read by `previous[v]`, `none` for `null` (and out of range). -/
def readPrevious (previous : List (Option Nat)) (v : Nat) : Option Nat :=
  match previous[v]? with
  | some p => p
  | none => none

/-- The result returned when no path is found. -/
def noPath : DijkstraResult α :=
  { distance := none, path := [], steps := [], metrics := none }

/-- The number of adjacency entries of the nodes not yet settled. -/
def pending (adjacencyList : Adjacency α) (V : List Nat) : Nat :=
  (((List.range adjacencyList.length).filter fun v => v ∉ V).map
    fun v => (edgesOf adjacencyList v).length).sum

/-- The edges `es` of a settled node `y` have been relaxed: the distance of
every target in range is at most the distance of `y` plus the weight. -/
def Relaxed (adjacencyList : Adjacency α) (D : List (Option α)) (y : Nat)
    (es : List (Edge α)) : Prop :=
  ∀ e ∈ es, e.node < adjacencyList.length → ∀ dy, readDistance D y = some dy →
    ∃ dx, readDistance D e.node = some dx ∧ dx ≤ dy + e.weight

/-- The part of the loop invariant of `dijkstra` that holds at every point of
the main loop, on the arrays `distances` (`D`), `previous` (`P`), the heap
array (`H`) and the settled nodes in the order of their settling (`V`). -/
structure CoreInv (adjacencyList : Adjacency α) (s : Nat) (D : List (Option α))
    (P : List (Option Nat)) (H : List (HeapItem α)) (V : List Nat) : Prop where
  lenD : D.length = adjacencyList.length
  lenP : P.length = adjacencyList.length
  startLt : s < adjacencyList.length
  startD : readDistance D s = some 0
  startP : readPrevious P s = none
  heapOrd : HeapOrdered H
  visLt : ∀ v ∈ V, v < adjacencyList.length
  visNodup : V.Nodup
  visReached : ∀ v ∈ V, ∃ d, readDistance D v = some d
  inHeap : ∀ v d, readDistance D v = some d → v ∉ V → (⟨v, d⟩ : HeapItem α) ∈ H
  heapDist : ∀ it ∈ H, ∃ d, readDistance D it.node = some d ∧ d ≤ it.dist
  prevInv : ∀ v p, readPrevious P v = some p →
    p ∈ V ∧ v ≠ s ∧ (v ∈ V → V.indexOf p < V.indexOf v) ∧
    ∃ e ∈ edgesOf adjacencyList p, e.node = v ∧
      ∃ dp, readDistance D p = some dp ∧ readDistance D v = some (dp + e.weight)
  prevNone : ∀ v, v ≠ s → readPrevious P v = none → readDistance D v = none
  firstPred : ∀ v p, readPrevious P v = some p → ∀ q ∈ V, V.indexOf q < V.indexOf p →
    ∀ e ∈ edgesOf adjacencyList q, e.node = v → ∀ dq dv, readDistance D q = some dq →
      readDistance D v = some dv → dv < dq + e.weight

/-- The invariant of the trace and of the counter of settled nodes. -/
structure TraceInv (D : List (Option α)) (V : List Nat) (steps : List (TraceStep α))
    (nodesExplored : Nat) : Prop where
  nodes : steps.map TraceStep.currentNode = V
  count : nodesExplored = V.length
  settled : ∀ stp ∈ steps, readDistance D stp.currentNode = some stp.currentDistance
  mono : steps.Pairwise fun a b => a.currentDistance ≤ b.currentDistance

/-- The invariant of the main loop of `dijkstra`, at the head of the loop. -/
structure LoopInv (adjacencyList : Adjacency α) (s : Nat) (st : SearchState α) : Prop where
  core : CoreInv adjacencyList s st.distances st.previous st.heap.heap st.visited
  heapGe : ∀ v ∈ st.visited, ∀ d, readDistance st.distances v = some d →
    ∀ it ∈ st.heap.heap, d ≤ it.dist
  relaxed : ∀ y ∈ st.visited, Relaxed adjacencyList st.distances y (edgesOf adjacencyList y)
  startFirst : (st.visited = [] ∧ st.heap.heap = [⟨s, 0⟩]) ∨ st.visited.head? = some s
  trace : TraceInv st.distances st.visited st.steps st.nodesExplored

/-- The invariant of the loop over the neighbours of the node `u` settled at
distance `d`, after the edges `done` have been handled. -/
structure RelaxInv (adjacencyList : Adjacency α) (s u : Nat) (d : α)
    (done : List (Edge α)) (st : SearchState α) : Prop where
  core : CoreInv adjacencyList s st.distances st.previous st.heap.heap st.visited
  curMem : u ∈ st.visited
  curDist : readDistance st.distances u = some d
  visLe : ∀ v ∈ st.visited, ∀ dv, readDistance st.distances v = some dv → dv ≤ d
  heapLe : ∀ it ∈ st.heap.heap, d ≤ it.dist
  relaxedOld : ∀ y ∈ st.visited, y ≠ u →
    Relaxed adjacencyList st.distances y (edgesOf adjacencyList y)
  relaxedCur : Relaxed adjacencyList st.distances u done
  headStart : st.visited.head? = some s

/-- The state after `heap.pop()` and `heapOperations++` (lines 542-543). -/
def afterPop (st : SearchState α) (heap : MinHeap α) : SearchState α :=
  { st with heap := heap, heapOperations := st.heapOperations + 1 }

/-- The state after `visited.add(node)` and `nodesExplored++` (lines 550-551). -/
def afterSettle (st : SearchState α) (node : Nat) : SearchState α :=
  { st with visited := st.visited ++ [node], nodesExplored := st.nodesExplored + 1 }

/-- The state after `steps.push(...)` (lines 579-586), from the result of the
loop over the neighbours. -/
def afterTrace (r : SearchState α × List (Relaxation α)) (node : Nat) (dist : α) :
    SearchState α :=
  { r.1 with
    steps := r.1.steps ++ [{ currentNode := node
                             currentDistance := dist
                             visited := r.1.visited
                             heapSize := r.1.heap.heap.length
                             relaxations := r.2 }] }

/-- The number formatted as `pruningRate` (line 624):
`((n - nodesExplored) / n) * 100`. -/
def pruningRate (m : Metrics) : ℚ :=
  (((m.totalNodes : ℚ) - (m.nodesExplored : ℚ)) / (m.totalNodes : ℚ)) * 100

/-- The number stored as `totalEdges` (lines 610-614): the sum of the sizes of
the adjacency arrays, divided by 2. -/
def totalEdges (adjacencyList : Adjacency α) : ℚ :=
  (totalEntries adjacencyList : ℚ) / 2

/-- The number formatted as `graphDensity` (line 643):
`(totalEdges / ((n * (n - 1)) / 2)) * 100`. -/
def graphDensity (adjacencyList : Adjacency α) : ℚ :=
  (totalEdges adjacencyList
    / (((adjacencyList.length : ℚ) * ((adjacencyList.length : ℚ) - 1)) / 2)) * 100

/-- The unordered pairs `(i, j)`, `i < j`, of nodes joined by an edge in one
direction or the other. -/
def joinedPairs (adjacencyList : Adjacency α) : List (Nat × Nat) :=
  (List.range adjacencyList.length).flatMap fun i =>
    ((List.range adjacencyList.length).filter fun j =>
      i < j ∧ ((edgesOf adjacencyList i).any (fun e => e.node == j) ∨
        (edgesOf adjacencyList j).any (fun e => e.node == i))).map fun j => (i, j)

end SearchSpec

/-! ## The request handler `app.post("/api/shortest-path")` (index.js, lines 696-897) -/

section Handler

variable {α : Type} [LinearOrderedAddCommGroup α]

/-- The loop `totalDistance += distanceMatrix[from][to]` over the consecutive
nodes of the path (lines 738-742), from the value `acc` of `totalDistance`;
`none` is a sum that is no longer finite. -/
def totalDistanceLoop (distanceMatrix : Matrix α) : Option α → List Nat → Option α
  | acc, a :: b :: rest =>
    totalDistanceLoop distanceMatrix
      (match acc, matrixEntry distanceMatrix a b with
        | some t, some w => some (t + w)
        | _, _ => none)
      (b :: rest)
  | acc, _ => acc

/-- The value of `totalDistance` after lines 737-742. -/
def totalDistance (distanceMatrix : Matrix α) (path : List Nat) : Option α :=
  totalDistanceLoop distanceMatrix (some 0) path

end Handler

/-! ## Alternative routes of the request handler (index.js, lines 757-871) -/

section Alternatives

variable {α : Type} [LinearOrderedAddCommGroup α]

/-- An entry of `alternativePaths` pushed by the multi-waypoint branch
(lines 859-863). `waypoints` holds the node indices `altPathIndices`; the source
stores their names and the coordinates looked up from them. -/
structure Alternative (α : Type) where
  distance : α
  waypoints : List Nat
deriving DecidableEq

/-- The array `candidateWaypoints` (lines 816-818): the indices of `locations`
other than `startIndex` and `endIndex`, in ascending order. -/
def candidateWaypoints (numLocations startIndex endIndex : Nat) : List Nat :=
  (List.range numLocations).filter fun idx => idx ≠ startIndex ∧ idx ≠ endIndex

/-- The body of the loop over the candidates (lines 824-866) for the candidate
`waypointIdx`. `toFixed3` is `x => Number(x.toFixed(3))`; comparing the
`JSON.stringify` of two arrays of indices is comparing the arrays. -/
def alternativeStep (adjacencyList : Adjacency α) (toFixed3 : α → α) (resultPath : List Nat)
    (startIndex endIndex : Nat) (alternativePaths : List (Alternative α)) (waypointIdx : Nat) :
    Outcome (List (Alternative α)) :=
  match dijkstra adjacencyList startIndex waypointIdx with
  | Outcome.done toWaypoint =>
    match dijkstra adjacencyList waypointIdx endIndex with
    | Outcome.done fromWaypoint =>
      if toWaypoint.path ≠ [] ∧ fromWaypoint.path ≠ [] then
        match toWaypoint.distance, fromWaypoint.distance with
        | some d1, some d2 =>
          let altPathIndices := toWaypoint.path ++ fromWaypoint.path.drop 1
          let altDistance := d1 + d2
          if altPathIndices ≠ resultPath then
            Outcome.done (alternativePaths ++ [⟨toFixed3 altDistance, altPathIndices⟩])
          else Outcome.done alternativePaths
        | _, _ => Outcome.done alternativePaths
      else Outcome.done alternativePaths
    | Outcome.typeError => Outcome.typeError
    | Outcome.diverges => Outcome.diverges
  | Outcome.typeError => Outcome.typeError
  | Outcome.diverges => Outcome.diverges

/-- The loop `for (i = 0; i < maxAlternatives; i++)` (line 823) over the
candidates `candidateWaypoints[0], ..., candidateWaypoints[maxAlternatives - 1]`. -/
def alternativesLoop (adjacencyList : Adjacency α) (toFixed3 : α → α) (resultPath : List Nat)
    (startIndex endIndex : Nat) :
    List Nat → List (Alternative α) → Outcome (List (Alternative α))
  | [], alternativePaths => Outcome.done alternativePaths
  | waypointIdx :: rest, alternativePaths =>
    match alternativeStep adjacencyList toFixed3 resultPath startIndex endIndex
        alternativePaths waypointIdx with
    | Outcome.done next =>
      alternativesLoop adjacencyList toFixed3 resultPath startIndex endIndex rest next
    | Outcome.typeError => Outcome.typeError
    | Outcome.diverges => Outcome.diverges

/-- The multi-waypoint branch (lines 815-871): the list `alternatives` of the
response. `maxAlternatives` is at most the number of candidates, so the loop
reads the first `maxAlternatives` candidates. -/
def multiWaypointAlternatives (adjacencyList : Adjacency α) (toFixed3 : α → α)
    (numLocations : Nat) (resultPath : List Nat) (startIndex endIndex : Nat) :
    Outcome (List (Alternative α)) :=
  let candidates := candidateWaypoints numLocations startIndex endIndex
  let maxAlternatives := min 3 candidates.length
  match alternativesLoop adjacencyList toFixed3 resultPath startIndex endIndex
      (candidates.take maxAlternatives) [] with
  | Outcome.done alternativePaths =>
    Outcome.done (jsSort (fun a b => a.distance - b.distance) alternativePaths)
  | Outcome.typeError => Outcome.typeError
  | Outcome.diverges => Outcome.diverges

/-- The two branches of the generation of alternatives (line 763). -/
inductive Strategy where
  | directTrip
  | multiWaypoint
deriving DecidableEq

/-- The test `if (roadMode && isDirectPath)` (lines 760-763), where
`isDirectPath = result.path.length === 2` and `roadMode` is
`req.body.roadMode === true`. -/
def selectStrategy (roadMode : Bool) (path : List Nat) : Strategy :=
  let isDirectPath := path.length == 2
  if roadMode && isDirectPath then Strategy.directTrip else Strategy.multiWaypoint

/-- A route of `allRoutes` (lines 395-403). The fields `path`, `duration`,
`durationText` and `warnings` are carried along unchanged and left out. -/
structure Route (α : Type) where
  distance : α
  summary : String

/-- The end of `fetchDirectionsWithAlternatives` (lines 452-459): the routes
sorted by distance, the first as `optimal` (`undefined`, here `none`, when there
is no route) and `allRoutes.slice(1, maxAlternatives + 1)` as `alternatives`. -/
def selectRoutes (allRoutes : List (Route α)) (maxAlternatives : Nat) :
    Option (Route α) × List (Route α) :=
  let sorted := jsSort (fun a b => a.distance - b.distance) allRoutes
  (sorted.head?, (sorted.drop 1).take maxAlternatives)

/-- The entries of the matrix of `n` collinear equally spaced points,
`matrix[i][j] = |i - j|`. -/
def chainMatrix (n : Nat) : Matrix Int :=
  (List.range n).map fun (i : Nat) =>
    (List.range n).map fun (j : Nat) => some |(i : Int) - (j : Int)|

/-- The nearest neighbour of a node of the chain: node 1 for node 0, and the
node before it for every other node, at distance 1. -/
def chainNearest (i : Nat) : NodeDist Int :=
  ⟨if i = 0 then 1 else i - 1, 1⟩

end Alternatives

section DirectTrip

variable {α : Type} [LinearOrderedField α]

/-- The list `filteredAlternatives` of the direct-trip branch (lines 776-779)
for the value `routesData` returned by `fetchDirectionsWithAlternatives`.
Reading `routesData.optimal.path` when `optimal` is `undefined` throws a
`TypeError`: the result is then `none`. -/
def filteredAlternatives (routesData : Option (Route α) × List (Route α)) :
    Option (List (Route α)) :=
  match routesData.1 with
  | some optimal =>
    let totalDistance := optimal.distance
    let maxAcceptableDistance := totalDistance * (115 / 100)
    some (routesData.2.filter fun alt => alt.distance ≤ maxAcceptableDistance)
  | none => none

/-- The alternatives as the specification describes them: the routes sorted
ascending, the first as optimal, the rest filtered to those within 15% of the
optimal distance, then truncated to the maximum count. -/
def specAlternatives (allRoutes : List (Route α)) (maxAlternatives : Nat) :
    Option (List (Route α)) :=
  match jsSort (fun a b => a.distance - b.distance) allRoutes with
  | optimal :: rest =>
    some ((rest.filter fun alt => alt.distance ≤ optimal.distance * (115 / 100)).take
      maxAlternatives)
  | [] => none

end DirectTrip

/-! ## Segment geometry: `buildSegmentCoords` and `fetchDetailedPolyline`
(index.js, lines 462-522) -/

/-- A coordinate `{ lat, lng }`. -/
structure Coord (α : Type) where
  lat : α
  lng : α
deriving DecidableEq

section Geometry

variable {α : Type} [LinearOrderedField α] [FloorRing α]

/-- `buildSegmentCoords(from, to, spacingKm, maxPoints)` (lines 462-486).
`haversineKm` is the great-circle distance of the source, taken as a parameter;
`maxPoints` is an integer (the source passes 3). -/
def buildSegmentCoords (haversineKm : Coord α → Coord α → α) (fromCoord toCoord : Coord α)
    (spacingKm : α) (maxPoints : Int) : List (Coord α) :=
  if spacingKm = 0 ∨ spacingKm ≤ 0 then [fromCoord, toCoord]
  else
    let distance := haversineKm fromCoord toCoord
    let rawCount := ⌊distance / spacingKm⌋ - 1
    let count := max 0 (min maxPoints rawCount)
    if count = 0 then [fromCoord, toCoord]
    else
      let points := (List.range' 1 count.toNat).foldl
        (fun points (i : Nat) =>
          let t := (i : α) / ((count : α) + 1)
          points ++ [⟨fromCoord.lat + (toCoord.lat - fromCoord.lat) * t,
            fromCoord.lng + (toCoord.lng - fromCoord.lng) * t⟩])
        [fromCoord]
      points ++ [toCoord]

/-- The loop `for (i = 0; i < pathCoords.length - 1; i += 1)` of
`fetchDetailedPolyline` (lines 501-519) over the consecutive pairs of
`pathCoords`. `fetchDirectionsPolyline` is the geometry given by the provider
for a list of coordinates, taken as a parameter. -/
def segmentLoop (fetchDirectionsPolyline : List (Coord α) → List (Coord α))
    (haversineKm : Coord α → Coord α → α) (waypointSpacingKm : α) :
    List (Coord α) → List (Coord α) → List (Coord α)
  | fromCoord :: toCoord :: rest, combined =>
    let segmentCoords := buildSegmentCoords haversineKm fromCoord toCoord waypointSpacingKm 3
    let segmentPolyline := fetchDirectionsPolyline segmentCoords
    if segmentPolyline.length = 0 then
      segmentLoop fetchDirectionsPolyline haversineKm waypointSpacingKm (toCoord :: rest) combined
    else
      segmentLoop fetchDirectionsPolyline haversineKm waypointSpacingKm (toCoord :: rest)
        (combined ++ if combined.length > 0 then segmentPolyline.drop 1 else segmentPolyline)
  | _, combined => combined

/-- `fetchDetailedPolyline(pathCoords, mode, detailMode, waypointSpacingKm)`
(lines 488-522); `segmentMode` is `detailMode === "segment"`. -/
def fetchDetailedPolyline (fetchDirectionsPolyline : List (Coord α) → List (Coord α))
    (haversineKm : Coord α → Coord α → α) (pathCoords : List (Coord α)) (segmentMode : Bool)
    (waypointSpacingKm : α) : List (Coord α) :=
  if ¬ segmentMode then fetchDirectionsPolyline pathCoords
  else
    let combined :=
      segmentLoop fetchDirectionsPolyline haversineKm waypointSpacingKm pathCoords []
    if combined.length ≠ 0 then combined else pathCoords

/-- The number of intermediate points the specification gives for a segment of
length `d`: none for a zero or negative spacing, and otherwise
`max(0, min(maxPoints, floor(d / s) - 1))`. -/
def specCount (d s : α) (maxPoints : Int) : Int :=
  if s ≤ 0 then 0 else max 0 (min maxPoints (⌊d / s⌋ - 1))

/-- The `i`-th point of the linear interpolation with `count` intermediate
points: `from + (to - from) * i / (count + 1)` in latitude and longitude. -/
def specPoint (fromCoord toCoord : Coord α) (count : Int) (i : Nat) : Coord α :=
  ⟨fromCoord.lat + (toCoord.lat - fromCoord.lat) * ((i : α) / ((count : α) + 1)),
    fromCoord.lng + (toCoord.lng - fromCoord.lng) * ((i : α) / ((count : α) + 1))⟩

/-- The geometries `g(seg_0), g(seg_1), ...` of the segments of `pathCoords`, in
segment order. -/
def segmentGeometries (fetchDirectionsPolyline : List (Coord α) → List (Coord α))
    (haversineKm : Coord α → Coord α → α) (waypointSpacingKm : α)
    (pathCoords : List (Coord α)) : List (List (Coord α)) :=
  (pathCoords.zip pathCoords.tail).map fun seg =>
    fetchDirectionsPolyline (buildSegmentCoords haversineKm seg.1 seg.2 waypointSpacingKm 3)

end Geometry

/-- The concatenation the specification describes: the geometries in order,
the empty ones skipped, the first coordinate of every geometry after the first
contributing one dropped. -/
def specStitch {γ : Type} (geometries : List (List γ)) : List γ :=
  match geometries.filter (fun g => !g.isEmpty) with
  | [] => []
  | first :: later => first ++ (later.map (List.drop 1)).flatten

/-! ## `validateRequest` (index.js, lines 654-694) -/

/-- A JavaScript number: a finite value, `NaN`, `Infinity` or `-Infinity`. -/
inductive JsNumber where
  | finite (value : ℚ)
  | nan
  | posInfinity
  | negInfinity

/-- A JavaScript value as it can appear in a parsed request body. An object is
the list of its properties. -/
inductive JsValue where
  | undefined
  | null
  | boolean (b : Bool)
  | number (x : JsNumber)
  | string (s : String)
  | array (items : List JsValue)
  | object (fields : List (String × JsValue))

/-- The truthiness of a value, as tested by `!value`. -/
def JsValue.truthy : JsValue → Bool
  | JsValue.undefined => false
  | JsValue.null => false
  | JsValue.boolean b => b
  | JsValue.number (JsNumber.finite q) => q ≠ 0
  | JsValue.number JsNumber.nan => false
  | JsValue.number _ => true
  | JsValue.string s => s ≠ ""
  | JsValue.array _ => true
  | JsValue.object _ => true

/-- The property access `value.key` for the keys read by `validateRequest`
(`locations`, `startIndex`, `endIndex`, `lat`, `lng`): the property of an
object, and `undefined` for an object without it and for every other value
(the source reads a property of `null` or `undefined` nowhere: `!body` and
`!location` are tested first). -/
def JsValue.getField (value : JsValue) (key : String) : JsValue :=
  match value with
  | JsValue.object fields =>
    match fields.lookup key with
    | some v => v
    | none => JsValue.undefined
  | _ => JsValue.undefined

/-- `Array.isArray(value)`. -/
def isArray (value : JsValue) : Bool :=
  match value with
  | JsValue.array _ => true
  | _ => false

/-- `Number.isInteger(value)` (line 668). -/
def isValidIndex (value : JsValue) : Bool :=
  match value with
  | JsValue.number (JsNumber.finite q) => q.isInt
  | _ => false

/-- The test `value < 0 || value >= length` (lines 674-677) for a value that
passed `Number.isInteger`. -/
def outOfRange (value : JsValue) (length : Nat) : Bool :=
  match value with
  | JsValue.number (JsNumber.finite q) => decide (q < 0) || decide ((length : ℚ) ≤ q)
  | _ => false

/-- `typeof value === "number"`. -/
def isNumber (value : JsValue) : Bool :=
  match value with
  | JsValue.number _ => true
  | _ => false

/-- `Number.isFinite(value)`. -/
def isFiniteNumber (value : JsValue) : Bool :=
  match value with
  | JsValue.number (JsNumber.finite _) => true
  | _ => false

/-- The condition of the `if` inside the loop over the locations
(lines 682-688). -/
def invalidLocation (location : JsValue) : Bool :=
  !location.truthy ||
  !isNumber (location.getField "lat") ||
  !isNumber (location.getField "lng") ||
  !isFiniteNumber (location.getField "lat") ||
  !isFiniteNumber (location.getField "lng")

/-- `validateRequest(body)`: `none` for `null`, and otherwise the message. -/
def validateRequest (body : JsValue) : Option String :=
  if !body.truthy then some "locations must be an array"
  else
    match body.getField "locations" with
    | JsValue.array locations =>
      if locations.length < 2 then some "at least two locations are required"
      else if locations.length > 50 then some "maximum of 50 locations allowed"
      else if !isValidIndex (body.getField "startIndex")
          || !isValidIndex (body.getField "endIndex") then
        some "startIndex and endIndex must be integers"
      else if outOfRange (body.getField "startIndex") locations.length
          || outOfRange (body.getField "endIndex") locations.length then
        some "startIndex and endIndex must be within locations range"
      else if locations.any invalidLocation then
        some "each location must have valid lat and lng numbers"
      else none
    | _ => some "locations must be an array"

/-- The entries of `body.locations` when it is an array, and no entry otherwise. -/
def locationsOf (body : JsValue) : List JsValue :=
  match body.getField "locations" with
  | JsValue.array locations => locations
  | _ => []

/-- The value is an integer `i` with `0 ≤ i < length`. -/
def IsIndexBelow (value : JsValue) (length : Nat) : Prop :=
  ∃ i : Nat, value = JsValue.number (JsNumber.finite (i : ℚ)) ∧ i < length

/-- The location has `lat` and `lng` that are finite numbers. -/
def HasFiniteCoords (location : JsValue) : Prop :=
  (∃ q, location.getField "lat" = JsValue.number (JsNumber.finite q)) ∧
  (∃ q, location.getField "lng" = JsValue.number (JsNumber.finite q))

/-- The request the specification accepts: `locations` is an array of between 2
and 50 entries, `startIndex` and `endIndex` are integers in
`[0, locations.length)`, and every location has finite `lat` and `lng`. -/
def Acceptable (body : JsValue) : Prop :=
  ∃ locations, body.getField "locations" = JsValue.array locations ∧
    2 ≤ locations.length ∧ locations.length ≤ 50 ∧
    IsIndexBelow (body.getField "startIndex") locations.length ∧
    IsIndexBelow (body.getField "endIndex") locations.length ∧
    ∀ location ∈ locations, HasFiniteCoords location

/-- The checks in the order of the specification, each with its message: not an
array, fewer than 2, more than 50, non-integer index, index out of range,
invalid coordinate. `true` means that the check passes. -/
def specChecks (body : JsValue) : List (Bool × String) :=
  [(isArray (body.getField "locations"), "locations must be an array"),
   (decide (2 ≤ (locationsOf body).length), "at least two locations are required"),
   (decide ((locationsOf body).length ≤ 50), "maximum of 50 locations allowed"),
   (isValidIndex (body.getField "startIndex") && isValidIndex (body.getField "endIndex"),
     "startIndex and endIndex must be integers"),
   (!outOfRange (body.getField "startIndex") (locationsOf body).length
      && !outOfRange (body.getField "endIndex") (locationsOf body).length,
     "startIndex and endIndex must be within locations range"),
   ((locationsOf body).all fun location =>
      isFiniteNumber (location.getField "lat") && isFiniteNumber (location.getField "lng"),
     "each location must have valid lat and lng numbers")]

/-- The message of the first failing check, and `none` when every check passes. -/
def firstFailure (body : JsValue) : Option String :=
  ((specChecks body).find? fun check => !check.1).map Prod.snd

/-! ## `decodePolyline` (index.js, lines 203-241) -/

/-- The conversion `ToInt32` applied to the operands and to the result of the
bitwise operators. -/
def toInt32 (x : Int) : Int :=
  (x + 2147483648) % 4294967296 - 2147483648

/-- The operator `a & b`. -/
def jsAnd (a b : Int) : Int :=
  Int.land (toInt32 a) (toInt32 b)

/-- The operator `a | b`. -/
def jsOr (a b : Int) : Int :=
  Int.lor (toInt32 a) (toInt32 b)

/-- The operator `a ^ b`. -/
def jsXor (a b : Int) : Int :=
  Int.xor (toInt32 a) (toInt32 b)

/-- The operator `a << shift`: the shift count is taken modulo 32. -/
def jsShl (a : Int) (shift : Nat) : Int :=
  toInt32 (toInt32 a * 2 ^ (shift % 32))

/-- The operator `a >> shift` (sign-propagating): the shift count is taken
modulo 32. -/
def jsSar (a : Int) (shift : Nat) : Int :=
  toInt32 a >>> (shift % 32)

/-- The operator `~a`. -/
def jsNot (a : Int) : Int :=
  Int.not (toInt32 a)

/-- One `do ... while (byte >= 0x20)` loop (lines 214-219, 227-232), reading
the code units of `encoded` from `index` on: the argument is the rest of the
string from `index`, and the rest after the loop is returned with `result`.
Past the end `charCodeAt` gives `NaN`: `byte & 0x1f` is then 0 and the loop
ends. -/
def readValue : List Nat → Nat → Int → Int × List Nat
  | [], shift, result => (jsOr result (jsShl 0 shift), [])
  | code :: rest, shift, result =>
    let byte : Int := (code : Int) - 63
    let next := jsOr result (jsShl (jsAnd byte 31) shift)
    if byte ≥ 32 then readValue rest (shift + 5) next else (next, rest)

/-- The expression `result & 1 ? ~(result >> 1) : result >> 1`
(lines 221, 234). -/
def decodeDelta (result : Int) : Int :=
  if jsAnd result 1 ≠ 0 then jsNot (jsSar result 1) else jsSar result 1

/-- The loop `while (index < encoded.length)` (lines 209-238), one iteration
per unit of fuel, on the rest of the string from `index`. `lat` and `lng` are
integers, and `lat / 1e5` is the exact quotient. -/
def decodeLoop : Nat → List Nat → Int → Int → List (Coord ℚ) → Outcome (List (Coord ℚ))
  | _, [], _, _, coordinates => Outcome.done coordinates
  | 0, _ :: _, _, _, _ => Outcome.diverges
  | fuel + 1, code :: rest, lat, lng, coordinates =>
    let first := readValue (code :: rest) 0 0
    let deltaLat := decodeDelta first.1
    let second := readValue first.2 0 0
    let deltaLng := decodeDelta second.1
    decodeLoop fuel second.2 (lat + deltaLat) (lng + deltaLng)
      (coordinates ++ [⟨((lat + deltaLat : Int) : ℚ) / 100000,
        ((lng + deltaLng : Int) : ℚ) / 100000⟩])

/-- `decodePolyline(encoded)` for the string with the code units `encoded`.
The loop is allowed one iteration per code unit. -/
def decodePolyline (encoded : List Nat) : Outcome (List (Coord ℚ)) :=
  decodeLoop encoded.length encoded 0 0 []

/-- The zig-zag encoding `(d << 1) xor (d >> 31)` of a delta. -/
def zigzag (d : Int) : Int :=
  jsXor (jsShl d 1) (jsSar d 31)

/-- The 5-bit groups of `v`, least significant first, each group but the last
with `0x20` set, plus 63. -/
def encodeGroups (v : Nat) : List Nat :=
  if h : v < 32 then [v + 63]
  else ((v % 32 ||| 32) + 63) :: encodeGroups (v / 32)
termination_by v
decreasing_by exact Nat.div_lt_self (by omega) (by decide)

/-- The encoding of one delta. -/
def encodeDelta (d : Int) : List Nat :=
  encodeGroups (zigzag d).toNat

/-- The encoded polyline of a list of coordinates given as integer pairs in
units of `1e-5` degrees, each as its delta from the coordinate before (`prev`,
which is `(0, 0)` for the first). -/
def encodeFrom : Int × Int → List (Int × Int) → List Nat
  | _, [] => []
  | prev, p :: rest =>
    encodeDelta (p.1 - prev.1) ++ encodeDelta (p.2 - prev.2) ++ encodeFrom p rest

/-- The standard encoded-polyline format of a list of coordinates. -/
def encodePolyline (coords : List (Int × Int)) : List Nat :=
  encodeFrom (0, 0) coords

/-- The successive deltas of the coordinates have magnitude at most `bound`. -/
def DeltasWithin (bound : Int) : Int × Int → List (Int × Int) → Prop
  | _, [] => True
  | prev, p :: rest =>
    |p.1 - prev.1| ≤ bound ∧ |p.2 - prev.2| ≤ bound ∧ DeltasWithin bound p rest

instance instDecidableDeltasWithin (bound : Int) :
    ∀ prev coords, Decidable (DeltasWithin bound prev coords)
  | _, [] => isTrue trivial
  | _, p :: rest =>
    @instDecidableAnd _ _ _
      (@instDecidableAnd _ _ _ (instDecidableDeltasWithin bound p rest))

/-! ## Deduplication of the road-avoidance variants (index.js, lines 437-444)

The distances compared at line 438 are double-precision numbers, and the
difference is rounded before it is compared with 1. -/

/-- A finite double-precision number, `mantissa * 2 ^ exponent`, in the normal
range (the distances are numbers of kilometres with 3 decimals). Several pairs
stand for the same number. -/
structure Double where
  mantissa : Int
  exponent : Int
deriving DecidableEq

/-- The number a double stands for. -/
def Double.toRat (x : Double) : ℚ :=
  (x.mantissa : ℚ) * (2 : ℚ) ^ x.exponent

/-- The integer nearest to `n / 2 ^ k`, the even one of the two when `n / 2 ^ k`
is halfway between them. -/
def roundHalfEven (n : Int) (k : Nat) : Int :=
  let q := n / 2 ^ k
  let r := n % 2 ^ k
  if 2 * r < 2 ^ k then q
  else if 2 * r > 2 ^ k then q + 1
  else if q % 2 = 0 then q else q + 1

/-- The number of halvings that take `n` to 0, at most `fuel` of them. -/
def bitLengthLoop : Nat → Nat → Nat
  | 0, _ => 0
  | fuel + 1, n => if n = 0 then 0 else bitLengthLoop fuel (n / 2) + 1

/-- The number of bits of `n`: the least `b` with `n < 2 ^ b`. -/
def bitLength (n : Nat) : Nat :=
  bitLengthLoop n n

/-- The rounding of the exact result `mantissa * 2 ^ exponent` of an arithmetic
operation to a double: 53 significant bits, to the nearest, ties to even. -/
def roundToDouble (mantissa exponent : Int) : Double :=
  let bits := bitLength mantissa.natAbs
  let k := bits - 53
  ⟨roundHalfEven mantissa k, exponent + (k : Int)⟩

/-- The operator `a - b` on numbers: the exact difference, rounded. -/
def jsSub (a b : Double) : Double :=
  let e := min a.exponent b.exponent
  roundToDouble
    (a.mantissa * 2 ^ (a.exponent - e).toNat - b.mantissa * 2 ^ (b.exponent - e).toNat) e

/-- `Math.abs(x)`. -/
def mathAbs (x : Double) : Double :=
  ⟨|x.mantissa|, x.exponent⟩

/-- The operator `a < b` on numbers. -/
def jsLt (a b : Double) : Bool :=
  let e := min a.exponent b.exponent
  decide (a.mantissa * 2 ^ (a.exponent - e).toNat < b.mantissa * 2 ^ (b.exponent - e).toNat)

/-- The double nearest to the fraction `num / den` (`den > 0`): the quotient is
taken with more than 60 bits and one more bit that records a non-zero
remainder, then rounded. -/
def doubleOfFraction (num den : Nat) : Double :=
  let shift := 64 + bitLength den
  let q := num * 2 ^ shift / den
  let sticky := if num * 2 ^ shift % den = 0 then 0 else 1
  roundToDouble ((2 * q + sticky : Nat) : Int) (-(shift : Int) - 1)

/-- The number `Number(x.toFixed(3))` when the text `x.toFixed(3)` is the
decimal `thousandths / 1000` (lines 397, 428). -/
def numberOfFixed3 (thousandths : Nat) : Double :=
  doubleOfFraction thousandths 1000

/-- The test `isDuplicate` (lines 437-439). -/
def isDuplicate (allRoutes : List (Route Double)) (newRoute : Route Double) : Bool :=
  allRoutes.any fun r => jsLt (mathAbs (jsSub r.distance newRoute.distance)) ⟨1, 0⟩

/-- The statement `if (!isDuplicate) allRoutes.push(newRoute)` (lines 441-443). -/
def addAvoidRoute (allRoutes : List (Route Double)) (newRoute : Route Double) :
    List (Route Double) :=
  if isDuplicate allRoutes newRoute then allRoutes else allRoutes ++ [newRoute]

section SwapLemmas
variable {κ : Type}

theorem length_swapAt (l : List (HeapItem κ)) (i j : Nat) : (swapAt l i j).length = l.length := by
  unfold swapAt
  split <;> simp

theorem getElem?_swapAt (l : List (HeapItem κ)) {i j : Nat} (hi : i < l.length)
    (hj : j < l.length) (k : Nat) :
    (swapAt l i j)[k]? = if k = j then l[i]? else if k = i then l[j]? else l[k]? := by
  unfold swapAt
  rw [List.getElem?_eq_getElem hi, List.getElem?_eq_getElem hj]
  simp only [List.getElem?_set, List.length_set]
  by_cases h1 : k = j
  · subst h1; simp [hj]
  · by_cases h2 : k = i
    · subst h2; simp [hi, h1, Ne.symm h1]
    · simp [h1, h2, Ne.symm h1, Ne.symm h2]

theorem perm_swapAt [DecidableEq κ] (l : List (HeapItem κ)) (i j : Nat) :
    (swapAt l i j).Perm l := by
  unfold swapAt
  split
  · rename_i a b ha hb
    obtain ⟨hi, rfl⟩ := List.getElem?_eq_some_iff.mp ha
    obtain ⟨hj, rfl⟩ := List.getElem?_eq_some_iff.mp hb
    rw [List.perm_iff_count]
    intro x
    rw [List.count_set _ _ _ _ (by simpa using hj), List.count_set _ _ _ _ hi]
    simp only [List.getElem_set]
    have h1 := List.count_pos_iff.mpr (List.getElem_mem hi)
    have h2 := List.count_pos_iff.mpr (List.getElem_mem hj)
    by_cases hij : i = j
    · subst hij
      simp
      by_cases hx : l[i] = x
      · subst hx; simp
      · simp [hx]
    · simp [hij]
      by_cases hx : l[i] = x <;> by_cases hy : l[j] = x <;> simp [hx, hy] <;>
        (rw [hx] at h1; omega)
  · exact List.Perm.refl _

end SwapLemmas

section HeapLemmas
variable {κ : Type} [LinearOrder κ]

theorem smallestOf_cases (l : List (HeapItem κ)) (i : Nat) (x : HeapItem κ)
    (hx : l[i]? = some x) :
    (smallestOf l i = i ∧
      ∀ j c, (j = i * 2 + 1 ∨ j = i * 2 + 2) → l[j]? = some c → x.dist ≤ c.dist) ∨
    (smallestOf l i ≠ i ∧ (smallestOf l i = i * 2 + 1 ∨ smallestOf l i = i * 2 + 2) ∧
      ∃ y, l[smallestOf l i]? = some y ∧ y.dist < x.dist ∧
        ∀ j c, (j = i * 2 + 1 ∨ j = i * 2 + 2) → l[j]? = some c → y.dist ≤ c.dist) := by
  cases hl : l[i * 2 + 1]? with
  | none =>
    have hr : l[i * 2 + 2]? = none := by
      rw [List.getElem?_eq_none_iff] at hl ⊢; omega
    have hs : smallestOf l i = i := by simp [smallestOf, hl, hr, hx]
    left
    refine ⟨hs, ?_⟩
    rintro j c (rfl | rfl) hc <;> simp_all
  | some a =>
    by_cases h1 : a.dist < x.dist
    · cases hr : l[i * 2 + 2]? with
      | none =>
        have hs : smallestOf l i = i * 2 + 1 := by simp [smallestOf, hl, hr, hx, h1]
        right
        rw [hs]
        refine ⟨by omega, by simp, a, hl, h1, ?_⟩
        rintro j c (rfl | rfl) hc
        · rw [hl] at hc; cases hc; exact le_refl _
        · rw [hr] at hc; cases hc
      | some b =>
        by_cases h2 : b.dist < a.dist
        · have hs : smallestOf l i = i * 2 + 2 := by simp [smallestOf, hl, hr, hx, h1, h2]
          right
          rw [hs]
          refine ⟨by omega, by simp, b, hr, lt_trans h2 h1, ?_⟩
          rintro j c (rfl | rfl) hc
          · rw [hl] at hc; cases hc; exact le_of_lt h2
          · rw [hr] at hc; cases hc; exact le_refl _
        · have hs : smallestOf l i = i * 2 + 1 := by simp [smallestOf, hl, hr, hx, h1, h2]
          right
          rw [hs]
          refine ⟨by omega, by simp, a, hl, h1, ?_⟩
          rintro j c (rfl | rfl) hc
          · rw [hl] at hc; cases hc; exact le_refl _
          · rw [hr] at hc; cases hc; exact not_lt.mp h2
    · cases hr : l[i * 2 + 2]? with
      | none =>
        have hs : smallestOf l i = i := by simp [smallestOf, hl, hr, hx, h1]
        left
        refine ⟨hs, ?_⟩
        rintro j c (rfl | rfl) hc
        · rw [hl] at hc; cases hc; exact not_lt.mp h1
        · rw [hr] at hc; cases hc
      | some b =>
        by_cases h2 : b.dist < x.dist
        · have hs : smallestOf l i = i * 2 + 2 := by simp [smallestOf, hl, hr, hx, h1, h2]
          right
          rw [hs]
          refine ⟨by omega, by simp, b, hr, h2, ?_⟩
          rintro j c (rfl | rfl) hc
          · rw [hl] at hc; cases hc; exact le_trans (le_of_lt h2) (not_lt.mp h1)
          · rw [hr] at hc; cases hc; exact le_refl _
        · have hs : smallestOf l i = i := by simp [smallestOf, hl, hr, hx, h1, h2]
          left
          refine ⟨hs, ?_⟩
          rintro j c (rfl | rfl) hc
          · rw [hl] at hc; cases hc; exact not_lt.mp h1
          · rw [hr] at hc; cases hc; exact not_lt.mp h2


theorem perm_bubbleUpLoop (fuel : Nat) (l : List (HeapItem κ)) (i : Nat) :
    (bubbleUpLoop fuel l i).Perm l := by
  induction fuel generalizing l i with
  | zero => exact List.Perm.refl _
  | succ fuel ih =>
    unfold bubbleUpLoop
    simp only
    split
    · split
      · split
        · exact List.Perm.refl _
        · exact (ih _ _).trans (perm_swapAt _ _ _)
      · exact List.Perm.refl _
    · exact List.Perm.refl _

theorem perm_sinkDownLoop (fuel : Nat) (l : List (HeapItem κ)) (i : Nat) :
    (sinkDownLoop fuel l i).Perm l := by
  induction fuel generalizing l i with
  | zero => exact List.Perm.refl _
  | succ fuel ih =>
    unfold sinkDownLoop
    simp only
    split
    · exact List.Perm.refl _
    · exact (ih _ _).trans (perm_swapAt _ _ _)

theorem ordered_bubbleUpLoop (fuel : Nat) (l : List (HeapItem κ)) (i : Nat)
    (hfuel : i ≤ fuel) (hi : i < l.length)
    (hA : ∀ j, 0 < j → j ≠ i → OrdAt l j)
    (hB : ∀ j, 0 < j → (j - 1) / 2 = i → 0 < i →
      ∀ c g, l[j]? = some c → l[(i - 1) / 2]? = some g → g.dist ≤ c.dist) :
    ∀ j, 0 < j → OrdAt (bubbleUpLoop fuel l i) j := by
  induction fuel generalizing l i with
  | zero =>
    intro j hj
    exact hA j hj (by omega)
  | succ fuel ih =>
    unfold bubbleUpLoop
    by_cases h0 : 0 < i
    · simp only [h0, if_true]
      have hp : (i - 1) / 2 < l.length := by omega
      rw [List.getElem?_eq_getElem hp, List.getElem?_eq_getElem hi]
      simp only
      by_cases hle : (l[(i - 1) / 2]).dist ≤ (l[i]).dist
      · simp only [hle, if_true]
        intro j hj
        by_cases hji : j = i
        · subst hji
          intro c p hc hp'
          rw [List.getElem?_eq_getElem hi] at hc
          rw [List.getElem?_eq_getElem hp] at hp'
          cases hc; cases hp'; exact hle
        · exact hA j hj hji
      · simp only [hle, if_false]
        have hlt : (l[i]).dist < (l[(i - 1) / 2]).dist := not_le.mp hle
        have hsw := getElem?_swapAt l hp hi
        apply ih
        · omega
        · rw [length_swapAt]; exact hp
        · intro j hj hjp c p hc hp'
          rw [hsw] at hc hp'
          by_cases hji : j = i
          · subst hji
            simp only [if_true] at hc
            rw [if_neg (by omega), if_pos rfl] at hp'
            rw [List.getElem?_eq_getElem hp] at hc
            rw [List.getElem?_eq_getElem hi] at hp'
            cases hc; cases hp'; exact le_of_lt hlt
          · rw [if_neg hji, if_neg hjp] at hc
            by_cases hpi : (j - 1) / 2 = i
            · rw [if_pos hpi, List.getElem?_eq_getElem hp] at hp'
              cases hp'
              exact hB j hj hpi h0 c _ hc (List.getElem?_eq_getElem hp)
            · rw [if_neg hpi] at hp'
              by_cases hpp : (j - 1) / 2 = (i - 1) / 2
              · rw [if_pos hpp, List.getElem?_eq_getElem hi] at hp'
                cases hp'
                have := hA j hj hji c _ hc (by rw [hpp]; exact List.getElem?_eq_getElem hp)
                exact le_trans (le_of_lt hlt) this
              · rw [if_neg hpp] at hp'
                exact hA j hj hji c p hc hp'
        · intro j hj hjp hp0 c g hc hg
          rw [hsw] at hc hg
          rw [if_neg (by omega), if_neg (by omega)] at hg
          have h1 := hA ((i - 1) / 2) hp0 (by omega) _ g (List.getElem?_eq_getElem hp) hg
          by_cases hji : j = i
          · subst hji
            rw [if_pos rfl, List.getElem?_eq_getElem hp] at hc
            cases hc; exact h1
          · rw [if_neg hji, if_neg (by omega)] at hc
            have h2 := hA j hj hji c _ hc (by rw [hjp]; exact List.getElem?_eq_getElem hp)
            exact le_trans h1 h2
    · simp only [h0, if_false]
      intro j hj
      exact hA j hj (by omega)

theorem ordered_sinkDownLoop (fuel : Nat) (l : List (HeapItem κ)) (i : Nat)
    (hfuel : l.length ≤ fuel + i)
    (hA : ∀ j, 0 < j → (j - 1) / 2 ≠ i → OrdAt l j)
    (hB : ∀ j, 0 < j → (j - 1) / 2 = i → 0 < i →
      ∀ c g, l[j]? = some c → l[(i - 1) / 2]? = some g → g.dist ≤ c.dist) :
    ∀ j, 0 < j → OrdAt (sinkDownLoop fuel l i) j := by
  induction fuel generalizing l i with
  | zero =>
    intro j hj
    show OrdAt l j
    by_cases hji : (j - 1) / 2 = i
    · intro c p hc _
      have := (List.getElem?_eq_some_iff.mp hc).1
      omega
    · exact hA j hj hji
  | succ fuel ih =>
    unfold sinkDownLoop
    simp only
    by_cases hi : i < l.length
    · rcases smallestOf_cases l i l[i] (List.getElem?_eq_getElem hi) with
        ⟨hs, hch⟩ | ⟨hs, hsc, y, hy, hyx, hch⟩
      · simp only [hs, if_true]
        intro j hj
        by_cases hji : (j - 1) / 2 = i
        · intro c p hc hp
          rw [hji, List.getElem?_eq_getElem hi] at hp
          cases hp
          exact hch j c (by omega) hc
        · exact hA j hj hji
      · simp only [hs, if_false]
        generalize smallestOf l i = s at *
        have hsl : s < l.length := (List.getElem?_eq_some_iff.mp hy).1
        have hsw := getElem?_swapAt l hsl hi
        have hps : (s - 1) / 2 = i := by omega
        apply ih
        · rw [length_swapAt]; omega
        · intro j hj hjp c p hc hp
          rw [hsw] at hc hp
          by_cases hjs : j = s
          · subst hjs
            rw [if_neg (by omega), if_pos rfl, List.getElem?_eq_getElem hi] at hc
            rw [if_pos hps, hy] at hp
            cases hc; cases hp; exact le_of_lt hyx
          · by_cases hji : j = i
            · subst hji
              rw [if_pos rfl, hy] at hc
              rw [if_neg (by omega), if_neg hjp] at hp
              cases hc
              exact hB s (by omega) hps hj _ p hy hp
            · rw [if_neg hji, if_neg hjs] at hc
              by_cases hpi : (j - 1) / 2 = i
              · rw [if_pos hpi, hy] at hp
                cases hp
                exact hch j c (by omega) hc
              · rw [if_neg hpi, if_neg hjp] at hp
                exact hA j hj hpi c p hc hp
        · intro j hj hjp hs0 c g hc hg
          rw [hsw] at hc hg
          rw [if_pos hps, hy] at hg
          rw [if_neg (by omega), if_neg (by omega)] at hc
          cases hg
          exact hA j hj (by omega) c _ hc (by rw [hjp]; exact hy)
    · have hs : smallestOf l i = i := by
        have h1 : l[i]? = none := List.getElem?_eq_none_iff.mpr (by omega)
        simp [smallestOf, h1]
      simp only [hs, if_true]
      intro j hj
      by_cases hji : (j - 1) / 2 = i
      · intro c p hc _
        have := (List.getElem?_eq_some_iff.mp hc).1
        omega
      · exact hA j hj hji

theorem heapOrdered_iff (l : List (HeapItem κ)) :
    HeapOrdered l ↔ ∀ j, 0 < j → OrdAt l j := by
  constructor
  · intro h j hj c p hc hp
    obtain ⟨h1, rfl⟩ := List.getElem?_eq_some_iff.mp hc
    obtain ⟨h2, rfl⟩ := List.getElem?_eq_some_iff.mp hp
    exact h j h1 hj
  · intro h i hi h0
    exact h i h0 _ _ (List.getElem?_eq_getElem hi) (List.getElem?_eq_getElem (by omega))

theorem bubbleUpLoop_zero_index (fuel : Nat) (l : List (HeapItem κ)) :
    bubbleUpLoop fuel l 0 = l := by
  cases fuel <;> simp [bubbleUpLoop]

/-- The fuel of `bubbleUpLoop` never cuts the loop short: any two amounts of at
least `index` give the same array. -/
theorem bubbleUpLoop_fuel (f1 f2 : Nat) (l : List (HeapItem κ)) (i : Nat)
    (h1 : i ≤ f1) (h2 : i ≤ f2) : bubbleUpLoop f1 l i = bubbleUpLoop f2 l i := by
  induction f1 generalizing f2 l i with
  | zero =>
    have : i = 0 := by omega
    subst this
    rw [bubbleUpLoop_zero_index, bubbleUpLoop_zero_index]
  | succ f1 ih =>
    cases f2 with
    | zero =>
      have : i = 0 := by omega
      subst this
      rw [bubbleUpLoop_zero_index, bubbleUpLoop_zero_index]
    | succ f2 =>
      rw [bubbleUpLoop, bubbleUpLoop]
      by_cases h0 : 0 < i
      · simp only [h0, if_true]
        split
        · split
          · rfl
          · exact ih _ _ _ (by omega) (by omega)
        · rfl
      · simp only [h0, if_false]

theorem length_bubbleUpLoop (fuel : Nat) (l : List (HeapItem κ)) (i : Nat) :
    (bubbleUpLoop fuel l i).length = l.length :=
  (perm_bubbleUpLoop fuel l i).length_eq

theorem length_sinkDownLoop (fuel : Nat) (l : List (HeapItem κ)) (i : Nat) :
    (sinkDownLoop fuel l i).length = l.length :=
  (perm_sinkDownLoop fuel l i).length_eq

/-- The fuel of `sinkDownLoop` never cuts the loop short: any two amounts of at
least `length - index` give the same array. -/
theorem sinkDownLoop_fuel (f1 f2 : Nat) (l : List (HeapItem κ)) (i : Nat)
    (h1 : l.length ≤ f1 + i) (h2 : l.length ≤ f2 + i) :
    sinkDownLoop f1 l i = sinkDownLoop f2 l i := by
  have hout : ∀ (f : Nat) (l : List (HeapItem κ)) (i : Nat), l.length ≤ i →
      sinkDownLoop f l i = l := by
    intro f l i hi
    have h1 : l[i]? = none := List.getElem?_eq_none_iff.mpr (by omega)
    cases f <;> simp [sinkDownLoop, smallestOf, h1]
  induction f1 generalizing f2 l i with
  | zero => rw [hout _ _ _ (by omega), hout _ _ _ (by omega)]
  | succ f1 ih =>
    cases f2 with
    | zero => rw [hout _ _ _ (by omega), hout _ _ _ (by omega)]
    | succ f2 =>
      by_cases hi : i < l.length
      · rw [sinkDownLoop, sinkDownLoop]
        split
        · rfl
        · rename_i hs
          rcases smallestOf_cases l i l[i] (List.getElem?_eq_getElem hi) with
            ⟨hs', _⟩ | ⟨_, hsc, _⟩
          · exact absurd hs' hs
          · apply ih
            · rw [length_swapAt]; omega
            · rw [length_swapAt]; omega
      · rw [hout _ _ _ (by omega), hout _ _ _ (by omega)]

theorem push_perm (h : MinHeap κ) (item : HeapItem κ) :
    (h.push item).heap.Perm (item :: h.heap) := by
  unfold MinHeap.push bubbleUp
  exact (perm_bubbleUpLoop _ _ _).trans (List.perm_append_singleton _ _)

theorem push_length (h : MinHeap κ) (item : HeapItem κ) :
    (h.push item).heap.length = h.heap.length + 1 := by
  rw [(push_perm h item).length_eq]; rfl

theorem push_ordered (h : MinHeap κ) (item : HeapItem κ) (ho : HeapOrdered h.heap) :
    HeapOrdered (h.push item).heap := by
  rw [heapOrdered_iff] at ho ⊢
  unfold MinHeap.push bubbleUp
  simp only [List.length_append, List.length_singleton, Nat.add_sub_cancel]
  apply ordered_bubbleUpLoop
  · exact le_refl _
  · simp
  · intro j hj hne c p hc hp
    have hjl : j < h.heap.length := by
      have := (List.getElem?_eq_some_iff.mp hc).1
      simp at this; omega
    rw [List.getElem?_append_left hjl] at hc
    rw [List.getElem?_append_left (by omega)] at hp
    exact ho j hj c p hc hp
  · intro j hj hpj _ c g hc _
    have := (List.getElem?_eq_some_iff.mp hc).1
    simp at this; omega

/-- The root of an ordered heap is a minimum. -/
theorem head_le_of_ordered (l : List (HeapItem κ)) (ho : HeapOrdered l) (m : HeapItem κ)
    (hm : l[0]? = some m) : ∀ y ∈ l, m.dist ≤ y.dist := by
  have key : ∀ n i (hi : i < l.length), i ≤ n → m.dist ≤ (l[i]).dist := by
    intro n
    induction n with
    | zero =>
      intro i hi h0
      have : i = 0 := by omega
      subst this
      rw [List.getElem?_eq_getElem hi] at hm
      cases hm; exact le_refl _
    | succ n ih =>
      intro i hi hle
      by_cases h0 : 0 < i
      · exact le_trans (ih ((i - 1) / 2) (by omega) (by omega)) (ho i hi h0)
      · exact ih i hi (by omega)
  intro y hy
  obtain ⟨i, hi, rfl⟩ := List.getElem_of_mem hy
  exact key i i hi (le_refl _)

theorem pop_nil (h : MinHeap κ) (hn : h.heap = []) : h.pop = (none, h) := by
  unfold MinHeap.pop MinHeap.isEmpty
  simp [hn]

theorem pop_singleton (h : MinHeap κ) (m : HeapItem κ) (hc : h.heap = [m]) :
    h.pop = (some m, ⟨[]⟩) := by
  unfold MinHeap.pop MinHeap.isEmpty
  simp [hc]

theorem pop_cons_cons (h : MinHeap κ) (m a : HeapItem κ) (t : List (HeapItem κ))
    (hc : h.heap = m :: a :: t) :
    h.pop = (some m, ⟨sinkDown ((a :: t).getLast (by simp) :: (a :: t).dropLast) 0⟩) := by
  unfold MinHeap.pop MinHeap.isEmpty
  have h1 : (a :: t).getLast? = some ((a :: t).getLast (by simp)) :=
    List.getLast?_eq_getLast _ _
  simp only [hc, List.getLast?_cons_cons, h1, List.head?_cons, List.dropLast_cons₂]
  simp

theorem pop_fst (h : MinHeap κ) : h.pop.1 = h.heap.head? := by
  match hc : h.heap with
  | [] => rw [pop_nil h hc]; rfl
  | [m] => rw [pop_singleton h m hc]; rfl
  | m :: a :: t => rw [pop_cons_cons h m a t hc]; rfl

theorem pop_perm (h : MinHeap κ) (m : HeapItem κ) (t : List (HeapItem κ))
    (hc : h.heap = m :: t) : h.pop.2.heap.Perm t := by
  cases t with
  | nil => rw [pop_singleton h m hc]
  | cons a t =>
    rw [pop_cons_cons h m a t hc]
    unfold sinkDown
    refine (perm_sinkDownLoop _ _ _).trans ?_
    refine (List.perm_append_singleton _ _).symm.trans ?_
    rw [List.dropLast_append_getLast]

theorem pop_ordered (h : MinHeap κ) (ho : HeapOrdered h.heap) : HeapOrdered h.pop.2.heap := by
  match hc : h.heap with
  | [] => rw [pop_nil h hc, hc]; intro i hi; simp at hi
  | [m] => rw [pop_singleton h m hc]; intro i hi; simp at hi
  | m :: a :: t =>
    rw [pop_cons_cons h m a t hc]
    rw [hc] at ho
    rw [heapOrdered_iff] at ho ⊢
    unfold sinkDown
    apply ordered_sinkDownLoop
    · omega
    · intro j hj hpj c p hcj hp
      have hlen : j < (a :: t).dropLast.length + 1 := by
        have := (List.getElem?_eq_some_iff.mp hcj).1
        simpa using this
      have e1 : ∀ k, 0 < k → k < (a :: t).dropLast.length + 1 →
          ((a :: t).getLast (by simp) :: (a :: t).dropLast)[k]? = (m :: a :: t)[k]? := by
        intro k hk hkl
        obtain ⟨k, rfl⟩ : ∃ k', k = k' + 1 := ⟨k - 1, by omega⟩
        simp only [List.getElem?_cons_succ]
        rw [List.getElem?_dropLast, if_pos (by simp at hkl ⊢; omega)]
      rw [e1 j hj hlen] at hcj
      rw [e1 _ (by omega) (by omega)] at hp
      exact ho j hj c p hcj hp
    · intro j hj hpj h0
      exact absurd h0 (by omega)

end HeapLemmas

section HeapClaims
variable {κ : Type} [LinearOrder κ]

theorem empty_ordered : HeapOrdered (MinHeap.empty : MinHeap κ).heap := by
  intro i hi
  simp [MinHeap.empty] at hi

/-- Every heap obtained from an ordered heap by pushes and pops is ordered. -/
theorem runOps_ordered (ops : List (HeapOp κ)) (h : MinHeap κ) (ho : HeapOrdered h.heap) :
    HeapOrdered (runOps h ops).heap := by
  induction ops generalizing h with
  | nil => exact ho
  | cons op ops ih =>
    cases op with
    | push item => exact ih _ (push_ordered h item ho)
    | pop => exact ih _ (pop_ordered h ho)

/-- What `pop` does on an ordered heap: `null` on the empty heap, otherwise the
root, which is a minimum, the rest being kept as a multiset. -/
theorem pop_of_ordered (h : MinHeap κ) (ho : HeapOrdered h.heap) :
    (h.pop.1 = none ↔ h.heap = []) ∧
    (h.heap = [] → h.pop.2.heap = []) ∧
    (h.heap ≠ [] → ∃ x, h.pop.1 = some x ∧ x ∈ h.heap ∧
      (∀ y ∈ h.heap, x.dist ≤ y.dist) ∧ h.pop.2.heap.Perm (h.heap.erase x)) := by
  refine ⟨?_, ?_, ?_⟩
  · rw [pop_fst]; exact List.head?_eq_none_iff
  · intro hn; rw [pop_nil h hn]; exact hn
  · intro hne
    match hc : h.heap with
    | [] => exact absurd hc hne
    | m :: t =>
      refine ⟨m, ?_, List.mem_cons_self _ _, ?_, ?_⟩
      · rw [pop_fst, hc]; rfl
      · have := head_le_of_ordered h.heap ho m (by rw [hc]; simp)
        rw [hc] at this
        exact this
      · rw [List.erase_cons_head]
        exact pop_perm h m t hc

/-- C9. For every heap obtained from the empty heap by a sequence of pushes and
pops: `pop` returns `null` exactly when the heap is empty, and it then leaves
the heap empty; otherwise `pop` returns a stored item whose `dist` is at most
the `dist` of every stored item, and the items stored afterwards are those
stored before with one occurrence of the returned item removed. -/
theorem pop_after_any_operations (ops : List (HeapOp κ)) :
    ((runOps MinHeap.empty ops).pop.1 = none ↔ (runOps MinHeap.empty ops).heap = []) ∧
    ((runOps MinHeap.empty ops).heap = [] → (runOps MinHeap.empty ops).pop.2.heap = []) ∧
    ((runOps MinHeap.empty ops).heap ≠ [] →
      ∃ x, (runOps MinHeap.empty ops).pop.1 = some x ∧
        x ∈ (runOps MinHeap.empty ops).heap ∧
        (∀ y ∈ (runOps MinHeap.empty ops).heap, x.dist ≤ y.dist) ∧
        (runOps MinHeap.empty ops).pop.2.heap.Perm ((runOps MinHeap.empty ops).heap.erase x)) :=
  pop_of_ordered _ (runOps_ordered ops _ empty_ordered)

/-- C10. The heap order invariant holds for the empty heap and is preserved by
`push` and by `pop`; `push(item)` adds exactly `item` to the stored items, the
length growing by one. -/
theorem heap_order_invariant (h : MinHeap κ) (item : HeapItem κ) :
    HeapOrdered (MinHeap.empty : MinHeap κ).heap ∧
    (HeapOrdered h.heap → HeapOrdered (h.push item).heap) ∧
    (HeapOrdered h.heap → HeapOrdered h.pop.2.heap) ∧
    (h.push item).heap.Perm (item :: h.heap) ∧
    (h.push item).heap.length = h.heap.length + 1 :=
  ⟨empty_ordered, push_ordered h item, pop_ordered h, push_perm h item, push_length h item⟩

/-- The heap `[1, 3, 2]` (by `dist`) is ordered, and so are that heap after
pushing an item of `dist` 0 and that heap after a pop. -/
theorem heap_order_invariant_witness :
    HeapOrdered (⟨[⟨7, 1⟩, ⟨8, 3⟩, ⟨9, 2⟩]⟩ : MinHeap Int).heap ∧
    HeapOrdered ((⟨[⟨7, 1⟩, ⟨8, 3⟩, ⟨9, 2⟩]⟩ : MinHeap Int).push ⟨5, 0⟩).heap ∧
    HeapOrdered (⟨[⟨7, 1⟩, ⟨8, 3⟩, ⟨9, 2⟩]⟩ : MinHeap Int).pop.2.heap :=
  have ho : HeapOrdered (⟨[⟨7, 1⟩, ⟨8, 3⟩, ⟨9, 2⟩]⟩ : MinHeap Int).heap := by decide
  ⟨ho, (heap_order_invariant _ _).2.1 ho, (heap_order_invariant _ ⟨5, 0⟩).2.2.1 ho⟩

/-- After pushing items of `dist` 5, 3, 4 and popping once, the heap is not
empty and the next `pop` returns a minimum of the stored items. -/
theorem pop_after_any_operations_witness :
    ∃ x, (runOps (MinHeap.empty : MinHeap Int)
        [HeapOp.push ⟨0, 5⟩, HeapOp.push ⟨1, 3⟩, HeapOp.push ⟨2, 4⟩, HeapOp.pop]).pop.1
          = some x ∧
      x ∈ (runOps (MinHeap.empty : MinHeap Int)
        [HeapOp.push ⟨0, 5⟩, HeapOp.push ⟨1, 3⟩, HeapOp.push ⟨2, 4⟩, HeapOp.pop]).heap ∧
      (∀ y ∈ (runOps (MinHeap.empty : MinHeap Int)
        [HeapOp.push ⟨0, 5⟩, HeapOp.push ⟨1, 3⟩, HeapOp.push ⟨2, 4⟩, HeapOp.pop]).heap,
          x.dist ≤ y.dist) ∧
      (runOps (MinHeap.empty : MinHeap Int)
        [HeapOp.push ⟨0, 5⟩, HeapOp.push ⟨1, 3⟩, HeapOp.push ⟨2, 4⟩, HeapOp.pop]).pop.2.heap.Perm
        ((runOps (MinHeap.empty : MinHeap Int)
          [HeapOp.push ⟨0, 5⟩, HeapOp.push ⟨1, 3⟩, HeapOp.push ⟨2, 4⟩, HeapOp.pop]).heap.erase x) :=
  (pop_after_any_operations (κ := Int)
    [HeapOp.push ⟨0, 5⟩, HeapOp.push ⟨1, 3⟩, HeapOp.push ⟨2, 4⟩, HeapOp.pop]).2.2 (by decide)

end HeapClaims

section BuilderLemmas
variable {α : Type}

theorem length_pushEdge (adj : Adjacency α) (i : Nat) (e : Edge α) :
    (pushEdge adj i e).length = adj.length := by
  unfold pushEdge; split <;> simp

theorem getElem?_pushEdge (adj : Adjacency α) (i : Nat) (e : Edge α) (a : Nat) :
    (pushEdge adj i e)[a]? = (adj[a]?).map fun es => if i = a then es ++ [e] else es := by
  unfold pushEdge
  split
  · rename_i es hes
    rw [List.getElem?_set]
    by_cases h : i = a
    · subst h
      have := (List.getElem?_eq_some_iff.mp hes).1
      simp [this, hes]
    · simp [h]
  · rename_i hn
    by_cases h : i = a
    · subst h; simp [hn]
    · simp [h]

theorem length_pushAll (adj : Adjacency α) (ops : List (Nat × Edge α)) :
    (pushAll adj ops).length = adj.length := by
  induction ops generalizing adj with
  | nil => rfl
  | cons op ops ih =>
    simp only [pushAll, List.foldl_cons] at ih ⊢
    rw [ih, length_pushEdge]

theorem getElem?_pushAll (adj : Adjacency α) (ops : List (Nat × Edge α)) (a : Nat) :
    (pushAll adj ops)[a]? =
      (adj[a]?).map fun es => es ++ (ops.filter fun op => op.1 = a).map Prod.snd := by
  induction ops generalizing adj with
  | nil => simp [pushAll]
  | cons op ops ih =>
    simp only [pushAll, List.foldl_cons] at ih ⊢
    rw [ih, getElem?_pushEdge]
    cases adj[a]? with
    | none => rfl
    | some es =>
      by_cases h : op.1 = a
      · simp [h, List.filter_cons]
      · simp [h, List.filter_cons]

theorem pushAll_append (adj : Adjacency α) (ops ops' : List (Nat × Edge α)) :
    pushAll adj (ops ++ ops') = pushAll (pushAll adj ops) ops' := by
  simp [pushAll]

theorem foldl_pushAll {β : Type} (f : β → List (Nat × Edge α)) (xs : List β)
    (adj : Adjacency α) :
    xs.foldl (fun adj x => pushAll adj (f x)) adj = pushAll adj (xs.flatMap f) := by
  induction xs generalizing adj with
  | nil => rfl
  | cons x xs ih =>
    simp only [List.foldl_cons, List.flatMap_cons, pushAll_append]
    exact ih _

end BuilderLemmas

section FullLemmas
variable {α : Type}

theorem fullRow_eq (m : Matrix α) (n i : Nat) (adj : Adjacency α) :
    fullRow m n i adj = pushAll adj ((List.range' (i + 1) (n - (i + 1))).flatMap (fullOps m i)) := by
  unfold fullRow
  rw [← foldl_pushAll]
  congr 1
  funext adj j
  unfold fullOps
  cases matrixEntry m i j <;> rfl

/-- All pushes of the full branch, in execution order. -/
theorem buildFull_eq (m : Matrix α) :
    buildFull m = pushAll (List.replicate m.length [])
      ((List.range m.length).flatMap fun i =>
        (List.range' (i + 1) (m.length - (i + 1))).flatMap (fullOps m i)) := by
  unfold buildFull
  simp only [fullRow_eq]
  rw [foldl_pushAll]

theorem mem_fullOps (m : Matrix α) (i j : Nat) (op : Nat × Edge α) :
    op ∈ fullOps m i j ↔
      ∃ d, matrixEntry m i j = some d ∧ (op = (i, ⟨j, d⟩) ∨ op = (j, ⟨i, d⟩)) := by
  unfold fullOps
  cases matrixEntry m i j <;> simp

theorem mem_fullPushes (m : Matrix α) (op : Nat × Edge α) :
    (op ∈ (List.range m.length).flatMap fun i =>
        (List.range' (i + 1) (m.length - (i + 1))).flatMap (fullOps m i)) ↔
      ∃ i j d, i < j ∧ j < m.length ∧ matrixEntry m i j = some d ∧
        (op = (i, ⟨j, d⟩) ∨ op = (j, ⟨i, d⟩)) := by
  simp only [List.mem_flatMap, List.mem_range, List.mem_range'_1, mem_fullOps]
  constructor
  · rintro ⟨i, hi, j, ⟨h1, h2⟩, d, hd, hop⟩
    exact ⟨i, j, d, by omega, by omega, hd, hop⟩
  · rintro ⟨i, j, d, h1, h2, hd, hop⟩
    exact ⟨i, by omega, j, ⟨by omega, by omega⟩, d, hd, hop⟩

theorem pairwise_fullPushes (m : Matrix α) (a : Nat) :
    List.Pairwise (fun x y : Nat × Edge α => x.1 = a → y.1 = a → x.2.node < y.2.node)
      ((List.range m.length).flatMap fun i =>
        (List.range' (i + 1) (m.length - (i + 1))).flatMap (fullOps m i)) := by
  rw [List.pairwise_flatMap]
  constructor
  · intro i _
    rw [List.pairwise_flatMap]
    constructor
    · intro j hj
      have hij : i < j := by
        rw [List.mem_range'_1] at hj; omega
      unfold fullOps
      cases matrixEntry m i j with
      | none => simp
      | some d =>
        simp only [List.pairwise_cons, List.mem_singleton, List.not_mem_nil, forall_eq,
          IsEmpty.forall_iff, implies_true, List.Pairwise.nil, and_true]
        intro h1 h2
        omega
    · refine (List.pairwise_lt_range' (i + 1) (m.length - (i + 1))).imp_of_mem ?_
      intro j1 j2 hj1 hj2 hlt x hx y hy
      rw [List.mem_range'_1] at hj1 hj2
      rw [mem_fullOps] at hx hy
      obtain ⟨d1, -, rfl | rfl⟩ := hx <;> obtain ⟨d2, -, rfl | rfl⟩ := hy <;>
        simp only <;> intro h1 h2 <;> omega
  · refine (List.pairwise_lt_range m.length).imp ?_
    intro i1 i2 hlt x hx y hy
    simp only [List.mem_flatMap, List.mem_range'_1, mem_fullOps] at hx hy
    obtain ⟨j1, hj1, d1, -, rfl | rfl⟩ := hx <;> obtain ⟨j2, hj2, d2, -, rfl | rfl⟩ := hy <;>
      simp only <;> intro h1 h2 <;> omega

/-- The full branch, node by node: the adjacency list has one entry per row of
the matrix; the neighbours listed for `i` are distinct, differ from `i` and are
in range; and `j` is listed with weight `w` exactly when the entry of the
matrix above the diagonal for the pair is the finite number `w`. -/
theorem buildFull_spec (m : Matrix α) :
    (buildFull m).length = m.length ∧
    ∀ i, i < m.length → ∃ es, (buildFull m)[i]? = some es ∧
      (es.map Edge.node).Nodup ∧
      (∀ e ∈ es, e.node ≠ i ∧ e.node < m.length) ∧
      (∀ j w, i < j → j < m.length → (⟨j, w⟩ ∈ es ↔ matrixEntry m i j = some w)) ∧
      (∀ j w, j < i → (⟨j, w⟩ ∈ es ↔ matrixEntry m j i = some w)) := by
  rw [buildFull_eq]
  refine ⟨by rw [length_pushAll, List.length_replicate], ?_⟩
  intro i hi
  rw [getElem?_pushAll]
  have h0 : (List.replicate m.length ([] : List (Edge α)))[i]? = some [] := by
    rw [List.getElem?_replicate, if_pos hi]
  rw [h0]
  refine ⟨_, rfl, ?_, ?_, ?_, ?_⟩
  · apply List.Pairwise.nodup (r := (· < ·))
    simp only [List.nil_append, List.map_map]
    rw [List.pairwise_map]
    rw [List.pairwise_filter]
    refine (pairwise_fullPushes m i).imp ?_
    intro x y h hx hy
    exact h hx hy
  · intro e he
    simp only [List.nil_append, List.mem_map, List.mem_filter, decide_eq_true_eq,
      mem_fullPushes] at he
    obtain ⟨op, ⟨⟨i', j, d, h1, h2, -, rfl | rfl⟩, h3⟩, rfl⟩ := he <;>
      simp only at h3 ⊢ <;> omega
  · intro j w hij hj
    simp only [List.nil_append, List.mem_map, List.mem_filter, decide_eq_true_eq,
      mem_fullPushes]
    constructor
    · rintro ⟨op, ⟨⟨i', j', d, h1, h2, hd, rfl | rfl⟩, h3⟩, h4⟩
      · simp only at h3
        simp only [Edge.mk.injEq] at h4
        obtain ⟨rfl, rfl⟩ := h4
        subst h3
        exact hd
      · simp only at h3
        simp only [Edge.mk.injEq] at h4
        omega
    · intro hd
      exact ⟨(i, ⟨j, w⟩), ⟨⟨i, j, w, hij, hj, hd, Or.inl rfl⟩, rfl⟩, rfl⟩
  · intro j w hji
    simp only [List.nil_append, List.mem_map, List.mem_filter, decide_eq_true_eq,
      mem_fullPushes]
    constructor
    · rintro ⟨op, ⟨⟨i', j', d, h1, h2, hd, rfl | rfl⟩, h3⟩, h4⟩
      · simp only at h3
        simp only [Edge.mk.injEq] at h4
        omega
      · simp only at h3
        simp only [Edge.mk.injEq] at h4
        obtain ⟨rfl, rfl⟩ := h4
        subst h3
        exact hd
    · intro hd
      exact ⟨(i, ⟨j, w⟩), ⟨⟨j, i, w, hji, hi, hd, Or.inr rfl⟩, rfl⟩, rfl⟩

theorem filter_node_of_nodup (es : List (Edge α)) (j : Nat) (w : α)
    (hn : (es.map Edge.node).Nodup) (hm : (⟨j, w⟩ : Edge α) ∈ es) :
    (es.filter fun e => e.node = j) = [⟨j, w⟩] := by
  induction es with
  | nil => simp at hm
  | cons e es ih =>
    rw [List.map_cons, List.nodup_cons] at hn
    rw [List.mem_cons] at hm
    rcases hm with rfl | hm
    · have : ∀ x ∈ es, ¬ x.node = j := by
        intro x hx hxj
        exact hn.1 (List.mem_map.mpr ⟨x, hx, hxj⟩)
      rw [List.filter_cons]
      simp only [decide_True, if_true, List.cons.injEq, true_and]
      rw [List.filter_eq_nil_iff]
      intro x hx
      simpa using this x hx
    · have hne : e.node ≠ j := by
        intro h
        exact hn.1 (List.mem_map.mpr ⟨⟨j, w⟩, hm, h.symm⟩)
      rw [List.filter_cons]
      simp only [hne, decide_False, Bool.false_eq_true, if_false]
      exact ih hn.2 hm

end FullLemmas

section FullClaim
variable {α : Type} [LinearOrderedAddCommGroup α]

/-- C5. Under the full policy the builder returns, for every pair `i < j`, the
edge from `i` to `j` and the edge from `j` to `i`, both of weight `matrix[i][j]`
and each exactly once, exactly when `matrix[i][j]` is finite; it returns no other
edge (no self-loop, no neighbour out of range); hence an edge from `i` to `j` of
weight `w` exists if and only if an edge from `j` to `i` of weight `w` exists. -/
theorem full_policy_symmetric_edges (m : Matrix α) (k : Option Int) :
    ∃ adj, buildAdjacencyListFromMatrix m GraphType.full k = some adj ∧
      adj.length = m.length ∧
      (∀ i j, i < j → j < m.length →
        (∀ w, matrixEntry m i j = some w →
          edgesTo adj i j = [⟨j, w⟩] ∧ edgesTo adj j i = [⟨i, w⟩]) ∧
        (matrixEntry m i j = none → edgesTo adj i j = [] ∧ edgesTo adj j i = [])) ∧
      (∀ i j w, HasEdge adj i j w →
        i ≠ j ∧ i < m.length ∧ j < m.length ∧ matrixEntry m (min i j) (max i j) = some w) ∧
      (∀ i j w, HasEdge adj i j w ↔ HasEdge adj j i w) := by
  obtain ⟨hlen, hspec⟩ := buildFull_spec m
  have hedge : ∀ i j w, HasEdge (buildFull m) i j w →
      i ≠ j ∧ i < m.length ∧ j < m.length ∧ matrixEntry m (min i j) (max i j) = some w := by
    rintro i j w ⟨es, hes, hmem⟩
    have hi : i < m.length := by
      have := (List.getElem?_eq_some_iff.mp hes).1
      omega
    obtain ⟨es', hes', -, hr, hup, hdown⟩ := hspec i hi
    rw [hes] at hes'
    cases hes'
    have := hr _ hmem
    simp only at this
    refine ⟨fun h => this.1 h.symm, hi, this.2, ?_⟩
    rcases Nat.lt_or_gt_of_ne this.1 with h | h
    · rw [Nat.min_eq_right (le_of_lt h), Nat.max_eq_left (le_of_lt h)]
      exact (hdown j w h).mp hmem
    · rw [Nat.min_eq_left (le_of_lt h), Nat.max_eq_right (le_of_lt h)]
      exact (hup j w h this.2).mp hmem
  have hconv : ∀ i j w, i ≠ j → i < m.length → j < m.length →
      matrixEntry m (min i j) (max i j) = some w → HasEdge (buildFull m) i j w := by
    intro i j w hne hi hj hd
    obtain ⟨es, hes, -, -, hup, hdown⟩ := hspec i hi
    refine ⟨es, hes, ?_⟩
    rcases Nat.lt_or_gt_of_ne hne with h | h
    · rw [Nat.min_eq_left (le_of_lt h), Nat.max_eq_right (le_of_lt h)] at hd
      exact (hup j w h hj).mpr hd
    · rw [Nat.min_eq_right (le_of_lt h), Nat.max_eq_left (le_of_lt h)] at hd
      exact (hdown j w h).mpr hd
  refine ⟨buildFull m, rfl, hlen, ?_, hedge, ?_⟩
  · intro i j hij hj
    obtain ⟨esi, hesi, hni, -, hupi, -⟩ := hspec i (by omega)
    obtain ⟨esj, hesj, hnj, -, -, hdownj⟩ := hspec j hj
    constructor
    · intro w hw
      constructor
      · unfold edgesTo
        rw [hesi]
        exact filter_node_of_nodup esi j w hni ((hupi j w hij hj).mpr hw)
      · unfold edgesTo
        rw [hesj]
        exact filter_node_of_nodup esj i w hnj ((hdownj i w hij).mpr hw)
    · intro hnone
      constructor
      · unfold edgesTo
        rw [hesi]
        simp only
        rw [List.filter_eq_nil_iff]
        intro e he hej
        have hej' : e.node = j := by simpa using hej
        have : (⟨j, e.weight⟩ : Edge α) ∈ esi := by rw [← hej']; exact he
        rw [hupi j e.weight hij hj, hnone] at this
        cases this
      · unfold edgesTo
        rw [hesj]
        simp only
        rw [List.filter_eq_nil_iff]
        intro e he hej
        have hej' : e.node = i := by simpa using hej
        have : (⟨i, e.weight⟩ : Edge α) ∈ esj := by rw [← hej']; exact he
        rw [hdownj i e.weight hij, hnone] at this
        cases this
  · intro i j w
    constructor
    · intro h
      obtain ⟨h1, h2, h3, h4⟩ := hedge i j w h
      exact hconv j i w (Ne.symm h1) h3 h2 (by rw [Nat.min_comm, Nat.max_comm]; exact h4)
    · intro h
      obtain ⟨h1, h2, h3, h4⟩ := hedge j i w h
      exact hconv i j w (Ne.symm h1) h3 h2 (by rw [Nat.min_comm, Nat.max_comm]; exact h4)

end FullClaim

section KnnLemmas
variable {α : Type}

theorem foldlM_all_some {β γ : Type} (f : β → γ → Option β) (g : β → γ → β) (xs : List γ)
    (h : ∀ b, ∀ x ∈ xs, f b x = some (g b x)) (b : β) :
    xs.foldlM f b = some (xs.foldl g b) := by
  induction xs generalizing b with
  | nil => rfl
  | cons x xs ih =>
    rw [List.foldlM_cons, h b x (List.mem_cons_self _ _)]
    simp only [Option.bind_eq_bind, Option.some_bind, List.foldl_cons]
    exact ih (fun b y hy => h b y (List.mem_cons_of_mem _ hy)) _

theorem foldlM_one_none {β γ : Type} (f : β → γ → Option β) (xs : List γ)
    (h : ∃ x ∈ xs, ∀ b, f b x = none) (b : β) :
    xs.foldlM f b = none := by
  induction xs generalizing b with
  | nil => obtain ⟨x, hx, _⟩ := h; cases hx
  | cons x xs ih =>
    rw [List.foldlM_cons]
    cases hfx : f b x with
    | none => rfl
    | some b' =>
      simp only [Option.bind_eq_bind, Option.some_bind]
      apply ih
      obtain ⟨y, hy, hnone⟩ := h
      rcases List.mem_cons.mp hy with rfl | hy'
      · rw [hnone b] at hfx; cases hfx
      · exact ⟨y, hy', hnone⟩

theorem flatMap_range_take {β : Type} (l : List (NodeDist α)) (f : NodeDist α → List β)
    (k : Nat) (hk : k ≤ l.length) :
    ((List.range k).flatMap fun idx =>
      match l[idx]? with
      | some nd => f nd
      | none => []) = (l.take k).flatMap f := by
  induction k with
  | zero => rfl
  | succ k ih =>
    rw [List.range_succ, List.flatMap_append, ih (by omega), List.take_succ,
      List.flatMap_append]
    congr 1
    simp [List.getElem?_eq_getElem (show k < l.length by omega)]

/-- The inner loop of the k-nearest-neighbour branch succeeds when the sorted
array has at least `neighbors` entries, and then performs the pushes for its
first `neighbors` entries. -/
theorem knnConnect_of_le (i : Nat) (l : List (NodeDist α)) (k : Nat) (adj : Adjacency α)
    (hk : k ≤ l.length) :
    knnConnect i l k adj = some (pushAll adj ((l.take k).flatMap (knnOps i))) := by
  unfold knnConnect
  rw [foldlM_all_some _
    (fun adj idx => pushAll adj (match l[idx]? with
      | some nd => knnOps i nd
      | none => []))]
  · rw [foldl_pushAll, flatMap_range_take l (knnOps i) k hk]
  · intro b idx hidx
    rw [List.mem_range] at hidx
    rw [List.getElem?_eq_getElem (by omega)]
    rfl

/-- The inner loop of the k-nearest-neighbour branch throws when the sorted
array has fewer than `neighbors` entries. -/
theorem knnConnect_of_lt (i : Nat) (l : List (NodeDist α)) (k : Nat) (adj : Adjacency α)
    (hk : l.length < k) : knnConnect i l k adj = none := by
  unfold knnConnect
  apply foldlM_one_none
  refine ⟨l.length, by rw [List.mem_range]; exact hk, ?_⟩
  intro b
  rw [List.getElem?_eq_none_iff.mpr (le_refl _)]

end KnnLemmas

section SortLemmas
variable {α : Type} [LinearOrderedAddCommGroup α]

theorem perm_sortInsert {β : Type} (cmp : β → β → α) (a : β) (l : List β) :
    (sortInsert cmp a l).Perm (a :: l) := by
  induction l with
  | nil => exact List.Perm.refl _
  | cons b l ih =>
    unfold sortInsert
    split
    · exact (List.Perm.cons b ih).trans (List.Perm.swap a b l)
    · exact List.Perm.refl _

theorem perm_jsSort {β : Type} (cmp : β → β → α) (l : List β) : (jsSort cmp l).Perm l := by
  induction l with
  | nil => exact List.Perm.refl _
  | cons a l ih =>
    unfold jsSort
    exact (perm_sortInsert cmp a _).trans (List.Perm.cons a ih)

theorem nearerOrEq_total (a b : NodeDist α) : NearerOrEq a b ∨ NearerOrEq b a := by
  unfold NearerOrEq
  rcases lt_trichotomy a.dist b.dist with h | h | h
  · exact Or.inl (Or.inl h)
  · rcases Nat.le_total a.node b.node with h' | h'
    · exact Or.inl (Or.inr ⟨h, h'⟩)
    · exact Or.inr (Or.inr ⟨h.symm, h'⟩)
  · exact Or.inr (Or.inl h)

theorem nearerOrEq_trans {a b c : NodeDist α} (h1 : NearerOrEq a b) (h2 : NearerOrEq b c) :
    NearerOrEq a c := by
  unfold NearerOrEq at *
  rcases h1 with h1 | ⟨h1, h1'⟩ <;> rcases h2 with h2 | ⟨h2, h2'⟩
  · exact Or.inl (lt_trans h1 h2)
  · exact Or.inl (h2 ▸ h1)
  · exact Or.inl (h1 ▸ h2)
  · exact Or.inr ⟨h1.trans h2, le_trans h1' h2'⟩

theorem nearerOrEq_antisymm {a b : NodeDist α} (h1 : NearerOrEq a b) (h2 : NearerOrEq b a) :
    a = b := by
  unfold NearerOrEq at *
  rcases h1 with h1 | ⟨h1, h1'⟩ <;> rcases h2 with h2 | ⟨h2, h2'⟩
  · exact absurd h1 (not_lt.mpr (le_of_lt h2))
  · rw [h2] at h1; exact absurd h1 (lt_irrefl _)
  · rw [h1] at h2; exact absurd h2 (lt_irrefl _)
  · cases a; cases b
    simp only at h1 h1' h2'
    simp only [NodeDist.mk.injEq]
    exact ⟨le_antisymm h1' h2', h1⟩

/-- Inserting an element whose index is below every index of a list sorted by
distance then index keeps the list sorted in that order: this is where the
stability of the sort gives the tie-break by index. -/
theorem sorted_sortInsert (a : NodeDist α) (l : List (NodeDist α))
    (hlt : ∀ b ∈ l, a.node < b.node) (hs : l.Pairwise NearerOrEq) :
    (sortInsert (fun x y : NodeDist α => x.dist - y.dist) a l).Pairwise NearerOrEq := by
  induction l with
  | nil => simp [sortInsert]
  | cons b l ih =>
    rw [List.pairwise_cons] at hs
    unfold sortInsert
    by_cases h : 0 < a.dist - b.dist
    · simp only [h, if_true]
      rw [List.pairwise_cons]
      refine ⟨?_, ih (fun c hc => hlt c (List.mem_cons_of_mem _ hc)) hs.2⟩
      intro c hc
      rcases List.mem_cons.mp ((perm_sortInsert _ a l).subset hc) with rfl | hc'
      · exact Or.inl (sub_pos.mp h)
      · exact hs.1 c hc'
    · simp only [h, if_false]
      have hab : NearerOrEq a b := by
        have hle : a.dist ≤ b.dist := sub_nonpos.mp (not_lt.mp h)
        rcases lt_or_eq_of_le hle with h1 | h1
        · exact Or.inl h1
        · exact Or.inr ⟨h1, le_of_lt (hlt b (List.mem_cons_self _ _))⟩
      rw [List.pairwise_cons]
      refine ⟨?_, List.pairwise_cons.mpr hs⟩
      intro c hc
      rcases List.mem_cons.mp hc with rfl | hc'
      · exact hab
      · exact nearerOrEq_trans hab (hs.1 c hc')

theorem sorted_jsSort (l : List (NodeDist α)) (hl : l.Pairwise fun a b => a.node < b.node) :
    (jsSort (fun x y : NodeDist α => x.dist - y.dist) l).Pairwise NearerOrEq := by
  induction l with
  | nil => simp [jsSort]
  | cons a l ih =>
    rw [List.pairwise_cons] at hl
    unfold jsSort
    apply sorted_sortInsert
    · intro b hb
      exact hl.1 b ((perm_jsSort _ l).subset hb)
    · exact ih hl.2

theorem mem_knnCandidates (m : Matrix α) (n i : Nat) (nd : NodeDist α) :
    nd ∈ knnCandidates m n i ↔
      nd.node < n ∧ nd.node ≠ i ∧ matrixEntry m i nd.node = some nd.dist := by
  unfold knnCandidates
  simp only [List.mem_filterMap, List.mem_range]
  constructor
  · rintro ⟨j, hj, h⟩
    by_cases hij : i = j
    · simp [hij] at h
    · simp only [ne_eq, hij, not_false_eq_true, if_true, Option.map_eq_some'] at h
      obtain ⟨d, hd, rfl⟩ := h
      exact ⟨hj, fun h' => hij h'.symm, hd⟩
  · rintro ⟨h1, h2, h3⟩
    refine ⟨nd.node, h1, ?_⟩
    simp [Ne.symm h2, h3]

theorem pairwise_knnCandidates (m : Matrix α) (n i : Nat) :
    (knnCandidates m n i).Pairwise fun a b => a.node < b.node := by
  unfold knnCandidates
  rw [List.pairwise_filterMap]
  refine (List.pairwise_lt_range n).imp ?_
  intro j1 j2 hlt a ha b hb
  by_cases h1 : i = j1
  · simp [h1] at ha
  · by_cases h2 : i = j2
    · simp [h2] at hb
    · simp only [ne_eq, h1, not_false_eq_true, if_true, Option.mem_def,
        Option.map_eq_some'] at ha
      simp only [ne_eq, h2, not_false_eq_true, if_true, Option.mem_def,
        Option.map_eq_some'] at hb
      obtain ⟨_, _, rfl⟩ := ha
      obtain ⟨_, _, rfl⟩ := hb
      exact hlt

/-- The array sorted by the source is the list of candidates in the order
ascending by distance with ties broken by ascending neighbour index. -/
theorem jsSort_eq_nearestOrder (m : Matrix α) (i : Nat) :
    jsSort (fun x y : NodeDist α => x.dist - y.dist) (knnCandidates m m.length i)
      = nearestOrder m i := by
  haveI : IsTotal (NodeDist α) NearerOrEq := ⟨nearerOrEq_total⟩
  haveI : IsTrans (NodeDist α) NearerOrEq := ⟨fun _ _ _ => nearerOrEq_trans⟩
  haveI : IsAntisymm (NodeDist α) NearerOrEq := ⟨fun _ _ => nearerOrEq_antisymm⟩
  apply List.eq_of_perm_of_sorted (r := NearerOrEq)
  · exact (perm_jsSort _ _).trans (List.perm_insertionSort _ _).symm
  · exact sorted_jsSort _ (pairwise_knnCandidates m _ i)
  · exact List.sorted_insertionSort _ _

end SortLemmas

section KnnClaims
variable {α : Type} [LinearOrderedAddCommGroup α]

theorem length_nearestOrder (m : Matrix α) (i : Nat) :
    (nearestOrder m i).length = (knnCandidates m m.length i).length :=
  (List.perm_insertionSort _ _).length_eq

/-- All pushes of the k-nearest-neighbour branch, in execution order, when every
node has enough finite-distance neighbours. -/
theorem buildKnn_of_enough (m : Matrix α) (k : Option Int)
    (h : ∀ i, i < m.length →
      (knnNeighbors k m.length).toNat ≤ (knnCandidates m m.length i).length) :
    buildKnn m k = some (pushAll (List.replicate m.length [])
      ((List.range m.length).flatMap fun i =>
        ((nearestOrder m i).take (knnNeighbors k m.length).toNat).flatMap (knnOps i))) := by
  unfold buildKnn
  simp only [jsSort_eq_nearestOrder]
  rw [foldlM_all_some _ (fun adj i => pushAll adj
    (((nearestOrder m i).take (knnNeighbors k m.length).toNat).flatMap (knnOps i)))]
  · rw [foldl_pushAll]
  · intro adj i hi
    rw [List.mem_range] at hi
    exact knnConnect_of_le i _ _ adj (by rw [length_nearestOrder]; exact h i hi)

/-- The k-nearest-neighbour branch throws as soon as one node has fewer
finite-distance neighbours than the number taken per node. -/
theorem buildKnn_of_short (m : Matrix α) (k : Option Int)
    (h : ∃ i, i < m.length ∧
      (knnCandidates m m.length i).length < (knnNeighbors k m.length).toNat) :
    buildKnn m k = none := by
  unfold buildKnn
  simp only [jsSort_eq_nearestOrder]
  apply foldlM_one_none
  obtain ⟨i, hi, hlt⟩ := h
  refine ⟨i, List.mem_range.mpr hi, ?_⟩
  intro adj
  exact knnConnect_of_lt i _ _ adj (by rw [length_nearestOrder]; exact hlt)

theorem hasEdge_pushAll_replicate (n : Nat) (ops : List (Nat × Edge α)) (a j : Nat) (w : α)
    (ha : a < n) (hop : (a, (⟨j, w⟩ : Edge α)) ∈ ops) :
    HasEdge (pushAll (List.replicate n []) ops) a j w := by
  unfold HasEdge
  rw [getElem?_pushAll, List.getElem?_replicate, if_pos ha]
  refine ⟨_, rfl, ?_⟩
  simp only [Option.map_some', List.nil_append, List.mem_map, List.mem_filter,
    decide_eq_true_eq]
  exact ⟨(a, ⟨j, w⟩), ⟨hop, rfl⟩, rfl⟩

theorem mem_nearestOrder (m : Matrix α) (i : Nat) (nd : NodeDist α) :
    nd ∈ nearestOrder m i ↔
      nd.node < m.length ∧ nd.node ≠ i ∧ matrixEntry m i nd.node = some nd.dist := by
  rw [← mem_knnCandidates]
  exact (List.perm_insertionSort _ _).mem_iff

/-- C6. Under the k-nearest-neighbour policy, when every node has at least as
many finite-distance neighbours as the number taken per node, the builder
returns a graph in which every node `i` has an edge, weighted `matrix[i][j]`, to
each of the first nodes `j ≠ i` in the order ascending by distance with ties
broken by ascending index, together with the reverse edge of the same weight;
when one neighbour is taken per node, every node has an outgoing edge to its
nearest finite-distance neighbour. -/
theorem knn_policy_nearest_edges (m : Matrix α) (k : Option Int)
    (henough : ∀ i, i < m.length →
      (knnNeighbors k m.length).toNat ≤ (knnCandidates m m.length i).length) :
    ∃ adj, buildAdjacencyListFromMatrix m GraphType.knn k = some adj ∧
      adj.length = m.length ∧
      (∀ i, i < m.length →
        ∀ nd ∈ (nearestOrder m i).take (knnNeighbors k m.length).toNat,
          matrixEntry m i nd.node = some nd.dist ∧
          HasEdge adj i nd.node nd.dist ∧ HasEdge adj nd.node i nd.dist) ∧
      (knnNeighbors k m.length = 1 → ∀ i, i < m.length →
        ∃ j w, HasEdge adj i j w ∧ j ≠ i ∧ matrixEntry m i j = some w ∧
          ∀ j' w', j' < m.length → j' ≠ i → matrixEntry m i j' = some w' →
            w < w' ∨ (w = w' ∧ j ≤ j')) := by
  have hedges : ∀ i, i < m.length →
      ∀ nd ∈ (nearestOrder m i).take (knnNeighbors k m.length).toNat,
        matrixEntry m i nd.node = some nd.dist ∧
        HasEdge (pushAll (List.replicate m.length [])
          ((List.range m.length).flatMap fun i =>
            ((nearestOrder m i).take (knnNeighbors k m.length).toNat).flatMap (knnOps i)))
          i nd.node nd.dist ∧
        HasEdge (pushAll (List.replicate m.length [])
          ((List.range m.length).flatMap fun i =>
            ((nearestOrder m i).take (knnNeighbors k m.length).toNat).flatMap (knnOps i)))
          nd.node i nd.dist := by
    intro i hi nd hnd
    have hmem := (mem_nearestOrder m i nd).mp (List.mem_of_mem_take hnd)
    refine ⟨hmem.2.2, ?_, ?_⟩
    · apply hasEdge_pushAll_replicate _ _ _ _ _ hi
      rw [List.mem_flatMap]
      refine ⟨i, List.mem_range.mpr hi, ?_⟩
      rw [List.mem_flatMap]
      exact ⟨nd, hnd, by simp [knnOps]⟩
    · apply hasEdge_pushAll_replicate _ _ _ _ _ hmem.1
      rw [List.mem_flatMap]
      refine ⟨i, List.mem_range.mpr hi, ?_⟩
      rw [List.mem_flatMap]
      exact ⟨nd, hnd, by simp [knnOps]⟩
  refine ⟨_, buildKnn_of_enough m k henough, ?_, hedges, ?_⟩
  · rw [length_pushAll, List.length_replicate]
  · intro hk i hi
    have hlen := henough i hi
    rw [hk] at hlen
    rw [← length_nearestOrder] at hlen
    cases hno : nearestOrder m i with
    | nil => rw [hno] at hlen; simp at hlen
    | cons nd rest =>
      have hnd : nd ∈ (nearestOrder m i).take (knnNeighbors k m.length).toNat := by
        rw [hk, hno]; simp
      obtain ⟨h1, h2, -⟩ := hedges i hi nd hnd
      have hmem := (mem_nearestOrder m i nd).mp (List.mem_of_mem_take hnd)
      refine ⟨nd.node, nd.dist, h2, hmem.2.1, h1, ?_⟩
      intro j' w' hj' hne hw'
      have hin : (⟨j', w'⟩ : NodeDist α) ∈ nearestOrder m i :=
        (mem_nearestOrder m i _).mpr ⟨hj', hne, hw'⟩
      have hsorted : (nearestOrder m i).Pairwise NearerOrEq := by
        haveI : IsTotal (NodeDist α) NearerOrEq := ⟨nearerOrEq_total⟩
        haveI : IsTrans (NodeDist α) NearerOrEq := ⟨fun _ _ _ => nearerOrEq_trans⟩
        exact List.sorted_insertionSort _ _
      rw [hno] at hin hsorted
      rcases List.mem_cons.mp hin with heq | hrest
      · rw [← heq]
        exact Or.inr ⟨rfl, le_refl _⟩
      · exact (List.pairwise_cons.mp hsorted).1 _ hrest

/-- The triangle with sides 3, 4, 5 and one neighbour per node: every node has
two finite-distance neighbours, and node 0 gets the edge to node 1 of weight 3. -/
theorem knn_policy_nearest_edges_witness :
    ∃ adj, buildAdjacencyListFromMatrix
        ([[some 0, some 3, some 5], [some 3, some 0, some 4], [some 5, some 4, some 0]] :
          Matrix Int) GraphType.knn (some 1) = some adj ∧
      HasEdge adj 0 1 3 ∧ HasEdge adj 1 0 3 := by
  obtain ⟨adj, h1, -, h3, -⟩ := knn_policy_nearest_edges
    ([[some 0, some 3, some 5], [some 3, some 0, some 4], [some 5, some 4, some 0]] :
      Matrix Int) (some 1) (by decide)
  refine ⟨adj, h1, ?_⟩
  have := h3 0 (by decide) ⟨1, 3⟩ (by decide)
  exact this.2

end KnnClaims

section KnnCount

/-- For a non-zero integer `k` the number of neighbours taken per node is the
clamp of `k` to `[1, N - 1]`, and for an absent `k` it is the clamp of 3. -/
theorem knnNeighbors_of_ne_zero (k : Int) (n : Nat) (hk : k ≠ 0) :
    knnNeighbors (some k) n = clamp k 1 ((n : Int) - 1) ∧
    knnNeighbors none n = clamp 3 1 ((n : Int) - 1) := by
  simp [knnNeighbors, kOrDefault, clamp, hk]

/-- C7, at the input `k = 0`, `N = 3`: the source takes 2 neighbours per node
(the value for an absent `k`, because `0 || 3` is `3`), while the clamp of 0 to
`[1, N - 1]` is 1. -/
theorem knnNeighbors_zero_k :
    knnNeighbors (some 0) 3 = 2 ∧ clamp 0 1 (((3 : Nat) : Int) - 1) = 1 ∧
    knnNeighbors (some 0) 3 = knnNeighbors none 3 := by
  decide

/-- C8, at the two-point matrix whose off-diagonal entries are the unreachable
sentinel: under the k-nearest-neighbour policy the builder throws (the sorted
array of node 0 is empty and `distances[0]` is destructured), for every `k`. -/
theorem knn_two_unreachable_points_throws (k : Option Int) :
    buildAdjacencyListFromMatrix ([[some 0, none], [none, some 0]] : Matrix Int)
      GraphType.knn k = none := by
  apply buildKnn_of_short
  refine ⟨0, by decide, ?_⟩
  have h1 : (knnCandidates ([[some 0, none], [none, some 0]] : Matrix Int) 2 0).length = 0 := by
    decide
  have h2 : 1 ≤ knnNeighbors k 2 := by
    unfold knnNeighbors
    exact le_max_left _ _
  show (knnCandidates ([[some 0, none], [none, some 0]] : Matrix Int) 2 0).length
    < (knnNeighbors k 2).toNat
  rw [h1]
  omega

end KnnCount

section ReadLemmas
variable {α : Type}

theorem readDistance_eq_some {D : List (Option α)} {v : Nat} {d : α} :
    readDistance D v = some d ↔ D[v]? = some (some d) := by
  unfold readDistance
  cases D[v]? with
  | none => simp
  | some x => simp

theorem readDistance_lt {D : List (Option α)} {v : Nat} {d : α}
    (h : readDistance D v = some d) : v < D.length :=
  (List.getElem?_eq_some_iff.mp (readDistance_eq_some.mp h)).1

theorem readDistance_set (D : List (Option α)) (v w : Nat) (x : Option α) :
    readDistance (D.set v x) w =
      if v = w ∧ v < D.length then x else readDistance D w := by
  unfold readDistance
  rw [List.getElem?_set]
  by_cases h : v = w
  · subst h
    by_cases hl : v < D.length
    · simp [hl]
    · simp [hl, List.getElem?_eq_none_iff.mpr (not_lt.mp hl)]
  · simp [h]

theorem readDistance_set_ne (D : List (Option α)) {v w : Nat} (x : Option α) (h : v ≠ w) :
    readDistance (D.set v x) w = readDistance D w := by
  rw [readDistance_set]; simp [h]

theorem readDistance_set_self (D : List (Option α)) {v : Nat} (x : Option α)
    (h : v < D.length) : readDistance (D.set v x) v = x := by
  rw [readDistance_set]; simp [h]

theorem readPrevious_eq_some {P : List (Option Nat)} {v p : Nat} :
    readPrevious P v = some p ↔ P[v]? = some (some p) := by
  unfold readPrevious
  cases P[v]? with
  | none => simp
  | some x => simp

theorem readPrevious_set (P : List (Option Nat)) (v w : Nat) (x : Option Nat) :
    readPrevious (P.set v x) w =
      if v = w ∧ v < P.length then x else readPrevious P w := by
  unfold readPrevious
  rw [List.getElem?_set]
  by_cases h : v = w
  · subst h
    by_cases hl : v < P.length
    · simp [hl]
    · simp [hl, List.getElem?_eq_none_iff.mpr (not_lt.mp hl)]
  · simp [h]

theorem readPrevious_set_ne (P : List (Option Nat)) {v w : Nat} (x : Option Nat)
    (h : v ≠ w) : readPrevious (P.set v x) w = readPrevious P w := by
  rw [readPrevious_set]; simp [h]

theorem readPrevious_set_self (P : List (Option Nat)) {v : Nat} (x : Option Nat)
    (h : v < P.length) : readPrevious (P.set v x) v = x := by
  rw [readPrevious_set]; simp [h]

theorem mem_edgesOf_lt {adj : Adjacency α} {u : Nat} {e : Edge α}
    (h : e ∈ edgesOf adj u) : u < adj.length := by
  unfold edgesOf at h
  cases hu : adj[u]? with
  | none => rw [hu] at h; cases h
  | some es => exact (List.getElem?_eq_some_iff.mp hu).1

theorem edgesOf_eq {adj : Adjacency α} {u : Nat} {es : List (Edge α)}
    (h : adj[u]? = some es) : edgesOf adj u = es := by
  unfold edgesOf; rw [h]

end ReadLemmas

section RelaxStep
variable {α : Type} [LinearOrderedAddCommGroup α]

theorem relaxed_append {adj : Adjacency α} {D : List (Option α)} {y : Nat}
    {es : List (Edge α)} {e : Edge α} (h1 : Relaxed adj D y es) (h2 : Relaxed adj D y [e]) :
    Relaxed adj D y (es ++ [e]) := by
  intro e' he'
  rcases List.mem_append.mp he' with h | h
  · exact h1 e' h
  · exact h2 e' h

/-- The loop over the neighbours: a neighbour that is not improved. -/
theorem relaxInv_of_unchanged {adj : Adjacency α} {s u : Nat} {d : α}
    {done : List (Edge α)} {st st' : SearchState α} (e : Edge α)
    (hD : st'.distances = st.distances) (hP : st'.previous = st.previous)
    (hH : st'.heap = st.heap) (hV : st'.visited = st.visited)
    (inv : RelaxInv adj s u d done st)
    (hno : e.node < adj.length →
      ∃ dx, readDistance st.distances e.node = some dx ∧ dx ≤ d + e.weight) :
    RelaxInv adj s u d (done ++ [e]) st' := by
  obtain ⟨core, curMem, curDist, visLe, heapLe, relaxedOld, relaxedCur, headStart⟩ := inv
  refine ⟨?_, ?_, ?_, ?_, ?_, ?_, ?_, ?_⟩
  · rw [hD, hP, hH, hV]; exact core
  · rw [hV]; exact curMem
  · rw [hD]; exact curDist
  · rw [hD, hV]; exact visLe
  · rw [hH]; exact heapLe
  · rw [hD, hV]; exact relaxedOld
  · rw [hD]
    apply relaxed_append relaxedCur
    intro e' he' hlt dy hdy
    rw [List.mem_singleton] at he'
    subst he'
    rw [curDist] at hdy
    cases hdy
    exact hno hlt
  · rw [hV]; exact headStart

/-- The loop over the neighbours: a neighbour whose distance is improved. -/
theorem relaxInv_of_improved {adj : Adjacency α} {s u : Nat} {d : α}
    {done : List (Edge α)} {st st' : SearchState α} (e : Edge α)
    (hD : st'.distances = st.distances.set e.node (some (d + e.weight)))
    (hP : st'.previous = st.previous.set e.node (some u))
    (hH : st'.heap = st.heap.push ⟨e.node, d + e.weight⟩)
    (hV : st'.visited = st.visited)
    (inv : RelaxInv adj s u d done st)
    (hlt : e.node < st.distances.length)
    (himp : ∀ dv, readDistance st.distances e.node = some dv → d + e.weight < dv)
    (he : e ∈ edgesOf adj u) (hw : 0 ≤ e.weight) :
    RelaxInv adj s u d (done ++ [e]) st' := by
  obtain ⟨core, curMem, curDist, visLe, heapLe, relaxedOld, relaxedCur, headStart⟩ := inv
  have hnotV : e.node ∉ st.visited := by
    intro hv
    obtain ⟨dv, hdv⟩ := core.visReached _ hv
    have h1 := visLe _ hv dv hdv
    have h2 := himp dv hdv
    exact absurd (lt_of_lt_of_le h2 h1) (not_lt.mpr (le_add_of_nonneg_right hw))
  have hsV : s ∈ st.visited := List.mem_of_mem_head? headStart
  have hne_s : e.node ≠ s := fun h => hnotV (h ▸ hsV)
  have hne_u : e.node ≠ u := fun h => hnotV (h ▸ curMem)
  have hltP : e.node < st.previous.length := by rw [core.lenP, ← core.lenD]; exact hlt
  have hDV : ∀ x ∈ st.visited, readDistance st'.distances x = readDistance st.distances x := by
    intro x hx
    rw [hD, readDistance_set_ne]
    exact fun h => hnotV (h ▸ hx)
  have hmono : ∀ x dx, readDistance st.distances x = some dx →
      ∃ dx', readDistance st'.distances x = some dx' ∧ dx' ≤ dx := by
    intro x dx hx
    by_cases hxe : e.node = x
    · subst hxe
      refine ⟨d + e.weight, ?_, le_of_lt (himp dx hx)⟩
      rw [hD, readDistance_set_self _ _ hlt]
    · exact ⟨dx, by rw [hD, readDistance_set_ne _ _ hxe]; exact hx, le_refl _⟩
  have hHmem : ∀ it, it ∈ st'.heap.heap ↔ it = ⟨e.node, d + e.weight⟩ ∨ it ∈ st.heap.heap := by
    intro it
    rw [hH, (push_perm st.heap _).mem_iff, List.mem_cons]
  have hrel : ∀ y ∈ st.visited, ∀ es, Relaxed adj st.distances y es →
      Relaxed adj st'.distances y es := by
    intro y hy es hr e' he' hlt' dy hdy
    rw [hDV y hy] at hdy
    obtain ⟨dx, hdx, hle⟩ := hr e' he' hlt' dy hdy
    obtain ⟨dx', hdx', hle'⟩ := hmono _ _ hdx
    exact ⟨dx', hdx', le_trans hle' hle⟩
  refine ⟨?_, ?_, ?_, ?_, ?_, ?_, ?_, ?_⟩
  · rw [hV]
    refine
      { lenD := by rw [hD, List.length_set]; exact core.lenD
        lenP := by rw [hP, List.length_set]; exact core.lenP
        startLt := core.startLt
        startD := by rw [hD, readDistance_set_ne _ _ hne_s]; exact core.startD
        startP := by rw [hP, readPrevious_set_ne _ _ hne_s]; exact core.startP
        heapOrd := by rw [hH]; exact push_ordered _ _ core.heapOrd
        visLt := core.visLt
        visNodup := core.visNodup
        visReached := ?_
        inHeap := ?_
        heapDist := ?_
        prevInv := ?_
        prevNone := ?_
        firstPred := ?_ }
    · intro v hv
      rw [hDV v hv]
      exact core.visReached v hv
    · intro v dv hdv hvV
      rw [hHmem]
      by_cases hve : e.node = v
      · subst hve
        rw [hD, readDistance_set_self _ _ hlt] at hdv
        cases hdv
        exact Or.inl rfl
      · rw [hD, readDistance_set_ne _ _ hve] at hdv
        exact Or.inr (core.inHeap v dv hdv hvV)
    · intro it hit
      rw [hHmem] at hit
      rcases hit with rfl | hit
      · exact ⟨d + e.weight, by rw [hD, readDistance_set_self _ _ hlt], le_refl _⟩
      · obtain ⟨dx, hdx, hle⟩ := core.heapDist it hit
        obtain ⟨dx', hdx', hle'⟩ := hmono _ _ hdx
        exact ⟨dx', hdx', le_trans hle' hle⟩
    · intro v p hvp
      by_cases hve : e.node = v
      · subst hve
        rw [hP, readPrevious_set_self _ _ hltP] at hvp
        cases hvp
        refine ⟨curMem, hne_s, fun h => absurd h hnotV, e, he, rfl, d, ?_, ?_⟩
        · rw [hDV u curMem]; exact curDist
        · rw [hD, readDistance_set_self _ _ hlt]
      · rw [hP, readPrevious_set_ne _ _ hve] at hvp
        obtain ⟨h1, h2, h3, e', he', hev, dp, hdp, hdv⟩ := core.prevInv v p hvp
        refine ⟨h1, h2, h3, e', he', hev, dp, ?_, ?_⟩
        · rw [hDV p h1]; exact hdp
        · rw [hD, readDistance_set_ne _ _ hve]; exact hdv
    · intro v hvs hvn
      have hve : e.node ≠ v := by
        intro h
        subst h
        rw [hP, readPrevious_set_self _ _ hltP] at hvn
        cases hvn
      rw [hP, readPrevious_set_ne _ _ hve] at hvn
      rw [hD, readDistance_set_ne _ _ hve]
      exact core.prevNone v hvs hvn
    · intro v p hvp q hq hidx e' he' hev dq dv hdq hdv
      rw [hDV q hq] at hdq
      by_cases hve : e.node = v
      · rw [← hve] at hvp hdv hev
        rw [hP, readPrevious_set_self _ _ hltP] at hvp
        cases hvp
        rw [hD, readDistance_set_self _ _ hlt] at hdv
        cases hdv
        have hqu : q ≠ u := by
          intro h; subst h; exact absurd hidx (lt_irrefl _)
        obtain ⟨dx, hdx, hle⟩ := relaxedOld q hq hqu e' he'
          (by rw [hev, ← core.lenD]; exact hlt) dq hdq
        rw [hev] at hdx
        exact lt_of_lt_of_le (himp dx hdx) hle
      · rw [hP, readPrevious_set_ne _ _ hve] at hvp
        rw [hD, readDistance_set_ne _ _ hve] at hdv
        exact core.firstPred v p hvp q hq hidx e' he' hev dq dv hdq hdv
  · rw [hV]; exact curMem
  · rw [hDV u curMem]; exact curDist
  · intro v hv dv hdv
    rw [hV] at hv
    rw [hDV v hv] at hdv
    exact visLe v hv dv hdv
  · intro it hit
    rw [hHmem] at hit
    rcases hit with rfl | hit
    · exact le_add_of_nonneg_right hw
    · exact heapLe it hit
  · intro y hy hyu
    rw [hV] at hy
    exact hrel y hy _ (relaxedOld y hy hyu)
  · apply relaxed_append (hrel u curMem _ relaxedCur)
    intro e' he' _ dy hdy
    rw [List.mem_singleton] at he'
    subst he'
    rw [hDV u curMem, curDist] at hdy
    cases hdy
    exact ⟨d + e'.weight, by rw [hD, readDistance_set_self _ _ hlt], le_refl _⟩
  · rw [hV]; exact headStart

end RelaxStep

section RelaxFold
variable {α : Type} [LinearOrderedAddCommGroup α]

/-- The two outcomes of the body of the loop over the neighbours. -/
theorem relaxEdge_cases (u : Nat) (d : α) (acc : SearchState α × List (Relaxation α))
    (e : Edge α) :
    ((relaxEdge u d acc e).1.visited = acc.1.visited ∧
      (relaxEdge u d acc e).1.steps = acc.1.steps ∧
      (relaxEdge u d acc e).1.nodesExplored = acc.1.nodesExplored) ∧
    (((relaxEdge u d acc e).1.distances = acc.1.distances ∧
        (relaxEdge u d acc e).1.previous = acc.1.previous ∧
        (relaxEdge u d acc e).1.heap = acc.1.heap ∧
        (relaxEdge u d acc e).1.heapOperations = acc.1.heapOperations ∧
        (e.node < acc.1.distances.length →
          ∃ dx, readDistance acc.1.distances e.node = some dx ∧ dx ≤ d + e.weight)) ∨
      ((relaxEdge u d acc e).1.distances
          = acc.1.distances.set e.node (some (d + e.weight)) ∧
        (relaxEdge u d acc e).1.previous = acc.1.previous.set e.node (some u) ∧
        (relaxEdge u d acc e).1.heap = acc.1.heap.push ⟨e.node, d + e.weight⟩ ∧
        (relaxEdge u d acc e).1.heapOperations = acc.1.heapOperations + 1 ∧
        e.node < acc.1.distances.length ∧
        ∀ dv, readDistance acc.1.distances e.node = some dv → d + e.weight < dv)) := by
  cases hold : acc.1.distances[e.node]? with
  | none =>
    have h : relaxEdge u d acc e
        = ({ acc.1 with edgesConsidered := acc.1.edgesConsidered + 1 }, acc.2) := by
      unfold relaxEdge; simp only [hold]
    rw [h]
    refine ⟨⟨rfl, rfl, rfl⟩, Or.inl ⟨rfl, rfl, rfl, rfl, ?_⟩⟩
    intro hlt
    rw [List.getElem?_eq_none_iff] at hold
    omega
  | some old =>
    by_cases himp : altImproves (d + e.weight) old = true
    · have h : relaxEdge u d acc e
          = ({ acc.1 with
                edgesConsidered := acc.1.edgesConsidered + 1
                distances := acc.1.distances.set e.node (some (d + e.weight))
                previous := acc.1.previous.set e.node (some u)
                heap := acc.1.heap.push ⟨e.node, d + e.weight⟩
                heapOperations := acc.1.heapOperations + 1 },
              acc.2 ++ [{ neighbor := e.node
                          oldDistance := old
                          newDistance := d + e.weight
                          improvement := old.map fun o => o - (d + e.weight) }]) := by
        unfold relaxEdge; simp only [hold, himp, if_true]
      rw [h]
      refine ⟨⟨rfl, rfl, rfl⟩, Or.inr ⟨rfl, rfl, rfl, rfl,
        (List.getElem?_eq_some_iff.mp hold).1, ?_⟩⟩
      intro dv hdv
      rw [readDistance_eq_some, hold] at hdv
      cases hdv
      simpa [altImproves] using himp
    · have h : relaxEdge u d acc e
          = ({ acc.1 with edgesConsidered := acc.1.edgesConsidered + 1 }, acc.2) := by
        unfold relaxEdge; simp only [hold, himp]; rfl
      rw [h]
      refine ⟨⟨rfl, rfl, rfl⟩, Or.inl ⟨rfl, rfl, rfl, rfl, ?_⟩⟩
      intro _
      cases old with
      | none => simp [altImproves] at himp
      | some dv =>
        refine ⟨dv, readDistance_eq_some.mpr hold, ?_⟩
        simpa [altImproves] using himp

/-- One neighbour keeps the invariant of the loop over the neighbours; the heap
grows by at most one entry, and the settled nodes, the trace and the counter of
settled nodes are left alone. -/
theorem relaxInv_relaxEdge {adj : Adjacency α} {s u : Nat} {d : α}
    {done : List (Edge α)} (acc : SearchState α × List (Relaxation α)) (e : Edge α)
    (inv : RelaxInv adj s u d done acc.1) (he : e ∈ edgesOf adj u) (hw : 0 ≤ e.weight) :
    RelaxInv adj s u d (done ++ [e]) (relaxEdge u d acc e).1 ∧
    (relaxEdge u d acc e).1.heap.heap.length ≤ acc.1.heap.heap.length + 1 ∧
    (relaxEdge u d acc e).1.visited = acc.1.visited ∧
    (relaxEdge u d acc e).1.steps = acc.1.steps ∧
    (relaxEdge u d acc e).1.nodesExplored = acc.1.nodesExplored := by
  obtain ⟨⟨hV, hS, hN⟩, ⟨hD, hP, hH, -, hno⟩ | ⟨hD, hP, hH, -, hlt, himp⟩⟩ :=
    relaxEdge_cases u d acc e
  · refine ⟨relaxInv_of_unchanged e hD hP hH hV inv ?_, by rw [hH]; omega, hV, hS, hN⟩
    intro hlt
    exact hno (by rw [inv.core.lenD]; exact hlt)
  · refine ⟨relaxInv_of_improved e hD hP hH hV inv hlt himp he hw, ?_, hV, hS, hN⟩
    rw [hH, push_length]

/-- The loop over the neighbours keeps its invariant. -/
theorem relaxInv_foldl {adj : Adjacency α} {s u : Nat} {d : α}
    (todo : List (Edge α)) (done : List (Edge α))
    (acc : SearchState α × List (Relaxation α))
    (inv : RelaxInv adj s u d done acc.1)
    (he : ∀ e ∈ todo, e ∈ edgesOf adj u) (hw : ∀ e ∈ todo, 0 ≤ e.weight) :
    RelaxInv adj s u d (done ++ todo) (todo.foldl (relaxEdge u d) acc).1 ∧
    (todo.foldl (relaxEdge u d) acc).1.heap.heap.length
      ≤ acc.1.heap.heap.length + todo.length ∧
    (todo.foldl (relaxEdge u d) acc).1.visited = acc.1.visited ∧
    (todo.foldl (relaxEdge u d) acc).1.steps = acc.1.steps ∧
    (todo.foldl (relaxEdge u d) acc).1.nodesExplored = acc.1.nodesExplored := by
  induction todo generalizing done acc with
  | nil => simpa using inv
  | cons e todo ih =>
    obtain ⟨h1, h2, h3, h4, h5⟩ := relaxInv_relaxEdge acc e inv
      (he e (List.mem_cons_self _ _)) (hw e (List.mem_cons_self _ _))
    obtain ⟨i1, i2, i3, i4, i5⟩ := ih (done ++ [e]) (relaxEdge u d acc e) h1
      (fun x hx => he x (List.mem_cons_of_mem _ hx))
      (fun x hx => hw x (List.mem_cons_of_mem _ hx))
    rw [List.foldl_cons]
    refine ⟨?_, ?_, i3.trans h3, i4.trans h4, i5.trans h5⟩
    · rw [List.append_assoc] at i1
      exact i1
    · simp only [List.length_cons]
      omega

end RelaxFold

section LoopUnfold
variable {α : Type} [LinearOrderedAddCommGroup α]

theorem isStale_eq_true {d : α} {D : List (Option α)} {v : Nat} :
    isStale d D[v]? = true ↔ ∃ d', readDistance D v = some d' ∧ d' < d := by
  unfold isStale
  cases h : D[v]? with
  | none => simp [readDistance, h]
  | some x =>
    cases x with
    | none => simp [readDistance, h]
    | some d' => simp [readDistance, h]

theorem isEmpty_eq_true {κ : Type} [LinearOrder κ] (h : MinHeap κ) :
    h.isEmpty = true ↔ h.heap = [] := by
  unfold MinHeap.isEmpty
  simp [List.length_eq_zero]

theorem searchLoop_empty (adj : Adjacency α) (e fuel : Nat) (st : SearchState α)
    (h : st.heap.heap = []) : searchLoop adj e fuel st = Outcome.done st := by
  have := (isEmpty_eq_true st.heap).mpr h
  cases fuel with
  | zero => rw [searchLoop, if_pos this]
  | succ fuel => rw [searchLoop, if_pos this]

theorem searchLoop_skip (adj : Adjacency α) (e fuel : Nat) (st : SearchState α)
    (cur : HeapItem α) (heap : MinHeap α) (hne : st.heap.heap ≠ [])
    (hpop : st.heap.pop = (some cur, heap))
    (hskip : isStale cur.dist st.distances[cur.node]? = true ∨ cur.node ∈ st.visited) :
    searchLoop adj e (fuel + 1) st = searchLoop adj e fuel (afterPop st heap) := by
  have h0 : ¬ st.heap.isEmpty = true := fun h => hne ((isEmpty_eq_true _).mp h)
  rw [searchLoop, if_neg h0, hpop]
  simp only
  by_cases hs : isStale cur.dist st.distances[cur.node]? = true
  · rw [if_pos hs]; rfl
  · rw [if_neg hs]
    rcases hskip with h | h
    · exact absurd h hs
    · rw [if_pos h]; rfl

theorem searchLoop_settle (adj : Adjacency α) (e fuel : Nat) (st : SearchState α)
    (cur : HeapItem α) (heap : MinHeap α) (neighbors : List (Edge α))
    (hne : st.heap.heap ≠ [])
    (hpop : st.heap.pop = (some cur, heap))
    (hfresh : ¬ isStale cur.dist st.distances[cur.node]? = true)
    (hnew : cur.node ∉ st.visited) (hadj : adj[cur.node]? = some neighbors) :
    searchLoop adj e (fuel + 1) st =
      if cur.node = e then
        Outcome.done (afterTrace (neighbors.foldl (relaxEdge cur.node cur.dist)
          (afterSettle (afterPop st heap) cur.node, [])) cur.node cur.dist)
      else
        searchLoop adj e fuel (afterTrace (neighbors.foldl (relaxEdge cur.node cur.dist)
          (afterSettle (afterPop st heap) cur.node, [])) cur.node cur.dist) := by
  have h0 : ¬ st.heap.isEmpty = true := fun h => hne ((isEmpty_eq_true _).mp h)
  rw [searchLoop, if_neg h0, hpop]
  simp only
  rw [if_neg hfresh, if_neg hnew, hadj]
  rfl

theorem searchLoop_typeError (adj : Adjacency α) (e fuel : Nat) (st : SearchState α)
    (cur : HeapItem α) (heap : MinHeap α)
    (hne : st.heap.heap ≠ [])
    (hpop : st.heap.pop = (some cur, heap))
    (hfresh : ¬ isStale cur.dist st.distances[cur.node]? = true)
    (hnew : cur.node ∉ st.visited) (hadj : adj[cur.node]? = none) :
    searchLoop adj e (fuel + 1) st = Outcome.typeError := by
  have h0 : ¬ st.heap.isEmpty = true := fun h => hne ((isEmpty_eq_true _).mp h)
  rw [searchLoop, if_neg h0, hpop]
  simp only
  rw [if_neg hfresh, if_neg hnew, hadj]

end LoopUnfold

section LoopSteps
variable {α : Type} [LinearOrderedAddCommGroup α]

theorem pop_some_spec {κ : Type} [LinearOrder κ] (h : MinHeap κ) (ho : HeapOrdered h.heap)
    (hne : h.heap ≠ []) :
    ∃ cur heap, h.pop = (some cur, heap) ∧ cur ∈ h.heap ∧
      (∀ y ∈ h.heap, cur.dist ≤ y.dist) ∧ heap.heap.Perm (h.heap.erase cur) ∧
      HeapOrdered heap.heap := by
  obtain ⟨x, hx, hmem, hmin, hperm⟩ := (pop_of_ordered h ho).2.2 hne
  refine ⟨x, h.pop.2, ?_, hmem, hmin, hperm, pop_ordered h ho⟩
  rw [← hx]

theorem mem_of_mem_popped {κ : Type} [DecidableEq κ] {H H' : List (HeapItem κ)}
    {cur it : HeapItem κ} (hperm : H'.Perm (H.erase cur)) (h : it ∈ H') : it ∈ H :=
  List.mem_of_mem_erase (hperm.mem_iff.mp h)

theorem mem_popped_of_ne {κ : Type} [DecidableEq κ] {H H' : List (HeapItem κ)}
    {cur it : HeapItem κ} (hperm : H'.Perm (H.erase cur)) (h : it ∈ H) (hne : it ≠ cur) :
    it ∈ H' :=
  hperm.mem_iff.mpr ((List.mem_erase_of_ne hne).mpr h)

theorem length_popped {κ : Type} [DecidableEq κ] {H H' : List (HeapItem κ)}
    {cur : HeapItem κ} (hperm : H'.Perm (H.erase cur)) (h : cur ∈ H) :
    H'.length + 1 = H.length := by
  rw [hperm.length_eq, List.length_erase_of_mem h]
  have := List.length_pos_of_mem h
  omega

/-- An iteration of the main loop that discards a stale entry, or an entry of a
settled node, keeps the invariant. -/
theorem loopInv_skip {adj : Adjacency α} {s : Nat} {st : SearchState α}
    (inv : LoopInv adj s st) (cur : HeapItem α) (heap : MinHeap α)
    (hmem : cur ∈ st.heap.heap) (hperm : heap.heap.Perm (st.heap.heap.erase cur))
    (hord : HeapOrdered heap.heap)
    (hskip : isStale cur.dist st.distances[cur.node]? = true ∨ cur.node ∈ st.visited) :
    LoopInv adj s (afterPop st heap) := by
  obtain ⟨core, heapGe, relaxed, startFirst, trace⟩ := inv
  have hsub : ∀ it, it ∈ heap.heap → it ∈ st.heap.heap := fun it h =>
    mem_of_mem_popped hperm h
  have hVne : st.visited ≠ [] := by
    intro hV
    rcases startFirst with ⟨_, hH⟩ | hh
    · rw [hH, List.mem_singleton] at hmem
      subst hmem
      rcases hskip with h | h
      · rw [isStale_eq_true] at h
        obtain ⟨d', hd', hlt⟩ := h
        rw [core.startD] at hd'
        cases hd'
        exact lt_irrefl _ hlt
      · rw [hV] at h; cases h
    · rw [hV] at hh; cases hh
  refine ⟨?_, ?_, relaxed, ?_, trace⟩
  · show CoreInv adj s st.distances st.previous heap.heap st.visited
    refine { core with heapOrd := hord, inHeap := ?_, heapDist := ?_ }
    · intro v d hvd hvV
      apply mem_popped_of_ne hperm (core.inHeap v d hvd hvV)
      intro heq
      rcases hskip with h | h
      · rw [isStale_eq_true] at h
        obtain ⟨d', hd', hlt⟩ := h
        rw [← heq] at hd' hlt
        simp only at hd' hlt
        rw [hvd] at hd'
        cases hd'
        exact lt_irrefl _ hlt
      · rw [← heq] at h
        exact hvV h
    · intro it hit
      exact core.heapDist it (hsub it hit)
  · intro v hv d hd it hit
    exact heapGe v hv d hd it (hsub it hit)
  · right
    rcases startFirst with ⟨hV, _⟩ | hh
    · exact absurd hV hVne
    · exact hh

end LoopSteps

section SettleStep
variable {α : Type} [LinearOrderedAddCommGroup α]

theorem indexOf_append_new {V : List Nat} {u : Nat} (hu : u ∉ V) :
    (V ++ [u]).indexOf u = V.length := by
  rw [List.indexOf_append_of_not_mem hu, List.indexOf_cons_self]
  rfl

/-- Settling the node taken from the heap establishes the invariant of the loop
over its neighbours, and its distance is the one recorded in `distances`. -/
theorem relaxInv_settle {adj : Adjacency α} {s : Nat} {st : SearchState α}
    (inv : LoopInv adj s st) (cur : HeapItem α) (heap : MinHeap α)
    (hmem : cur ∈ st.heap.heap) (hmin : ∀ y ∈ st.heap.heap, cur.dist ≤ y.dist)
    (hperm : heap.heap.Perm (st.heap.heap.erase cur))
    (hord : HeapOrdered heap.heap)
    (hfresh : ¬ isStale cur.dist st.distances[cur.node]? = true)
    (hnew : cur.node ∉ st.visited) :
    RelaxInv adj s cur.node cur.dist [] (afterSettle (afterPop st heap) cur.node) := by
  obtain ⟨core, heapGe, relaxed, startFirst, trace⟩ := inv
  have hsub : ∀ it, it ∈ heap.heap → it ∈ st.heap.heap := fun it h =>
    mem_of_mem_popped hperm h
  obtain ⟨d', hd', hle⟩ := core.heapDist cur hmem
  have hdd : d' = cur.dist := by
    apply le_antisymm hle
    rw [isStale_eq_true] at hfresh
    exact not_lt.mp fun h => hfresh ⟨d', hd', h⟩
  subst hdd
  have hidx : ∀ p ∈ st.visited, (st.visited ++ [cur.node]).indexOf p = st.visited.indexOf p :=
    fun p hp => List.indexOf_append_of_mem hp
  have hidxu : (st.visited ++ [cur.node]).indexOf cur.node = st.visited.length :=
    indexOf_append_new hnew
  have hmemV : ∀ q, q ∈ st.visited ++ [cur.node] → q ∈ st.visited ∨ q = cur.node := by
    intro q hq
    rcases List.mem_append.mp hq with h | h
    · exact Or.inl h
    · exact Or.inr (List.mem_singleton.mp h)
  refine ⟨?_, ?_, ?_, ?_, ?_, ?_, ?_, ?_⟩
  · show CoreInv adj s st.distances st.previous heap.heap (st.visited ++ [cur.node])
    refine
      { lenD := core.lenD
        lenP := core.lenP
        startLt := core.startLt
        startD := core.startD
        startP := core.startP
        heapOrd := hord
        visLt := ?_
        visNodup := ?_
        visReached := ?_
        inHeap := ?_
        heapDist := fun it hit => core.heapDist it (hsub it hit)
        prevInv := ?_
        prevNone := core.prevNone
        firstPred := ?_ }
    · intro v hv
      rcases hmemV v hv with h | h
      · exact core.visLt v h
      · rw [h, ← core.lenD]; exact readDistance_lt hd'
    · rw [List.nodup_append]
      refine ⟨core.visNodup, List.nodup_singleton _, ?_⟩
      intro a ha hb
      rw [List.mem_singleton] at hb
      exact hnew (hb ▸ ha)
    · intro v hv
      rcases hmemV v hv with h | h
      · exact core.visReached v h
      · exact ⟨_, h ▸ hd'⟩
    · intro v d hvd hvV
      have hv1 : v ∉ st.visited := fun h => hvV (List.mem_append_left _ h)
      have hv2 : v ≠ cur.node := fun h => hvV (h ▸ List.mem_append_right _ (List.mem_singleton_self _))
      apply mem_popped_of_ne hperm (core.inHeap v d hvd hv1)
      intro heq
      exact hv2 (by rw [← heq])
    · intro v p hvp
      obtain ⟨h1, h2, h3, h4⟩ := core.prevInv v p hvp
      refine ⟨List.mem_append_left _ h1, h2, ?_, h4⟩
      intro hv
      rw [hidx p h1]
      rcases hmemV v hv with h | h
      · rw [hidx v h]; exact h3 h
      · rw [h, hidxu]; exact List.indexOf_lt_length.mpr h1
    · intro v p hvp q hq hlt
      obtain ⟨h1, -⟩ := core.prevInv v p hvp
      rw [hidx p h1] at hlt
      rcases hmemV q hq with h | h
      · rw [hidx q h] at hlt
        exact core.firstPred v p hvp q h hlt
      · rw [h, hidxu] at hlt
        exact absurd (List.indexOf_lt_length.mpr h1) (by omega)
  · exact List.mem_append_right _ (List.mem_singleton_self _)
  · exact hd'
  · intro v hv dv hdv
    change readDistance st.distances v = some dv at hdv
    rcases hmemV v hv with h | h
    · exact heapGe v h dv hdv cur hmem
    · rw [h, hd'] at hdv
      cases hdv
      exact le_refl _
  · intro it hit
    exact hmin it (hsub it hit)
  · intro y hy hyu
    rcases hmemV y hy with h | h
    · exact relaxed y h
    · exact absurd h hyu
  · intro e he
    cases he
  · show (st.visited ++ [cur.node]).head? = some s
    rcases startFirst with ⟨hV, hH⟩ | hh
    · rw [hH, List.mem_singleton] at hmem
      rw [hV, hmem]
      rfl
    · rw [List.head?_append, hh]
      rfl

end SettleStep

section TraceStep
variable {α : Type} [LinearOrderedAddCommGroup α]

theorem relaxEdge_frozen {adj : Adjacency α} {s u : Nat} {d : α}
    {done : List (Edge α)} (acc : SearchState α × List (Relaxation α)) (e : Edge α)
    (inv : RelaxInv adj s u d done acc.1) (hw : 0 ≤ e.weight) :
    ∀ v ∈ acc.1.visited,
      readDistance (relaxEdge u d acc e).1.distances v = readDistance acc.1.distances v := by
  intro v hv
  obtain ⟨-, ⟨hD, -⟩ | ⟨hD, -, -, -, hlt, himp⟩⟩ := relaxEdge_cases u d acc e
  · rw [hD]
  · rw [hD, readDistance_set_ne]
    intro h
    subst h
    obtain ⟨dv, hdv⟩ := inv.core.visReached _ hv
    have h1 := inv.visLe _ hv dv hdv
    have h2 := himp dv hdv
    exact absurd (lt_of_lt_of_le h2 h1) (not_lt.mpr (le_add_of_nonneg_right hw))

theorem foldl_frozen {adj : Adjacency α} {s u : Nat} {d : α}
    (todo : List (Edge α)) (done : List (Edge α))
    (acc : SearchState α × List (Relaxation α))
    (inv : RelaxInv adj s u d done acc.1)
    (he : ∀ e ∈ todo, e ∈ edgesOf adj u) (hw : ∀ e ∈ todo, 0 ≤ e.weight) :
    ∀ v ∈ acc.1.visited,
      readDistance (todo.foldl (relaxEdge u d) acc).1.distances v
        = readDistance acc.1.distances v := by
  induction todo generalizing done acc with
  | nil => intro v _; rfl
  | cons e todo ih =>
    intro v hv
    obtain ⟨h1, -, h3, -, -⟩ := relaxInv_relaxEdge acc e inv
      (he e (List.mem_cons_self _ _)) (hw e (List.mem_cons_self _ _))
    rw [List.foldl_cons]
    rw [ih (done ++ [e]) (relaxEdge u d acc e) h1
      (fun x hx => he x (List.mem_cons_of_mem _ hx))
      (fun x hx => hw x (List.mem_cons_of_mem _ hx)) v (by rw [h3]; exact hv)]
    exact relaxEdge_frozen acc e inv (hw e (List.mem_cons_self _ _)) v hv

/-- After the loop over the neighbours of the settled node and the new entry
of the trace, the invariant of the main loop holds again. -/
theorem loopInv_afterTrace {adj : Adjacency α} {s u : Nat} {d : α}
    (st : SearchState α) (r : SearchState α × List (Relaxation α))
    (tr : TraceInv st.distances st.visited st.steps st.nodesExplored)
    (inv : RelaxInv adj s u d (edgesOf adj u) r.1)
    (hV : r.1.visited = st.visited ++ [u]) (hS : r.1.steps = st.steps)
    (hN : r.1.nodesExplored = st.nodesExplored + 1)
    (hfrozen : ∀ v ∈ st.visited, readDistance r.1.distances v = readDistance st.distances v) :
    LoopInv adj s (afterTrace r u d) := by
  obtain ⟨core, curMem, curDist, visLe, heapLe, relaxedOld, relaxedCur, headStart⟩ := inv
  have hsettled : ∀ stp ∈ st.steps,
      stp.currentNode ∈ st.visited ∧
      readDistance r.1.distances stp.currentNode = some stp.currentDistance := by
    intro stp hstp
    have hin : stp.currentNode ∈ st.visited := by
      rw [← tr.nodes]
      exact List.mem_map.mpr ⟨stp, hstp, rfl⟩
    exact ⟨hin, by rw [hfrozen _ hin]; exact tr.settled stp hstp⟩
  refine ⟨core, ?_, ?_, Or.inr headStart, ?_⟩
  · intro v hv dv hdv it hit
    exact le_trans (visLe v hv dv hdv) (heapLe it hit)
  · intro y hy
    by_cases hyu : y = u
    · rw [hyu]; exact relaxedCur
    · exact relaxedOld y hy hyu
  · show TraceInv r.1.distances r.1.visited (r.1.steps ++ [_]) r.1.nodesExplored
    refine ⟨?_, ?_, ?_, ?_⟩
    · rw [List.map_append, hS, tr.nodes, hV]
      rfl
    · rw [hN, hV, tr.count]
      simp
    · intro stp hstp
      rcases List.mem_append.mp hstp with h | h
      · rw [hS] at h
        exact (hsettled stp h).2
      · rw [List.mem_singleton] at h
        subst h
        exact curDist
    · rw [List.pairwise_append]
      refine ⟨?_, List.pairwise_singleton _ _, ?_⟩
      · rw [hS]; exact tr.mono
      · intro a ha b hb
        rw [List.mem_singleton] at hb
        subst hb
        rw [hS] at ha
        obtain ⟨h1, h2⟩ := hsettled a ha
        exact visLe _ (by rw [hV]; exact List.mem_append_left _ h1) _ h2

end TraceStep

section Measure
variable {α : Type}

theorem sum_filter_not_mem_append (f : Nat → Nat) (L V : List Nat) (u : Nat)
    (hL : L.Nodup) (hu : u ∈ L) (huV : u ∉ V) :
    ((L.filter fun v => v ∉ V ++ [u]).map f).sum + f u
      = ((L.filter fun v => v ∉ V).map f).sum := by
  induction L with
  | nil => cases hu
  | cons a L ih =>
    rw [List.nodup_cons] at hL
    rw [List.filter_cons, List.filter_cons]
    rcases List.mem_cons.mp hu with rfl | hu'
    · have h1 : ¬ (u ∉ V ++ [u]) := by simp
      have h2 : (L.filter fun v => v ∉ V ++ [u]) = L.filter fun v => v ∉ V := by
        apply List.filter_congr
        intro x hx
        have : x ≠ u := fun h => hL.1 (h ▸ hx)
        simp [this]
      simp only [h1, huV, decide_False, decide_True, not_false_eq_true, if_true,
        Bool.false_eq_true, if_false, List.map_cons, List.sum_cons]
      rw [h2]
      omega
    · have hau : a ≠ u := fun h => hL.1 (h ▸ hu')
      have := ih hL.2 hu'
      have c1 : decide (a ∉ V ++ [u]) = decide (a ∉ V) := by simp [hau]
      rw [c1]
      by_cases haV : a ∈ V
      · have c2 : decide (a ∉ V) = false := by simp [haV]
        rw [c2]
        simp only [Bool.false_eq_true, if_false]
        exact this
      · have c2 : decide (a ∉ V) = true := by simp [haV]
        rw [c2]
        simp only [if_true, List.map_cons, List.sum_cons]
        omega

theorem pending_settle (adj : Adjacency α) (V : List Nat) (u : Nat)
    (hu : u < adj.length) (huV : u ∉ V) :
    pending adj (V ++ [u]) + (edgesOf adj u).length = pending adj V := by
  unfold pending
  exact sum_filter_not_mem_append _ _ V u (List.nodup_range _) (List.mem_range.mpr hu) huV

theorem pending_nil (adj : Adjacency α) : pending adj [] = totalEntries adj := by
  unfold pending totalEntries
  have h1 : ((List.range adj.length).filter fun v => v ∉ ([] : List Nat))
      = List.range adj.length := by
    simp
  rw [h1]
  congr 1
  apply List.ext_getElem
  · simp
  · intro i h1 h2
    simp only [List.length_map, List.length_range] at h1
    simp [edgesOf, List.getElem?_eq_getElem h1]

end Measure

section MainLoop
variable {α : Type} [LinearOrderedAddCommGroup α]

/-- The main loop terminates within the fuel given by the size of the heap and
the adjacency entries of the unsettled nodes; it ends with the invariant, and
either by settling the target (the last settled node) or on an empty heap
without having settled the target. -/
theorem searchLoop_spec (adj : Adjacency α) (hnn : NonNegative adj) (s e : Nat) :
    ∀ (fuel : Nat) (st : SearchState α), LoopInv adj s st →
      st.heap.heap.length + pending adj st.visited ≤ fuel → e ∉ st.visited →
      ∃ st', searchLoop adj e fuel st = Outcome.done st' ∧ LoopInv adj s st' ∧
        (st'.visited.getLast? = some e ∨ (st'.heap.heap = [] ∧ e ∉ st'.visited)) := by
  intro fuel
  induction fuel with
  | zero =>
    intro st inv hm he
    have h0 : st.heap.heap = [] := List.length_eq_zero.mp (by omega)
    exact ⟨st, searchLoop_empty adj e 0 st h0, inv, Or.inr ⟨h0, he⟩⟩
  | succ fuel ih =>
    intro st inv hm he
    by_cases h0 : st.heap.heap = []
    · exact ⟨st, searchLoop_empty adj e _ st h0, inv, Or.inr ⟨h0, he⟩⟩
    · obtain ⟨cur, heap, hpop, hmem, hmin, hperm, hord⟩ :=
        pop_some_spec st.heap inv.core.heapOrd h0
      have hlen := length_popped hperm hmem
      by_cases hskip : isStale cur.dist st.distances[cur.node]? = true ∨ cur.node ∈ st.visited
      · rw [searchLoop_skip adj e fuel st cur heap h0 hpop hskip]
        apply ih (afterPop st heap) (loopInv_skip inv cur heap hmem hperm hord hskip)
        · show heap.heap.length + pending adj st.visited ≤ fuel
          omega
        · exact he
      · rw [not_or] at hskip
        obtain ⟨hfresh, hnew⟩ := hskip
        have rinv := relaxInv_settle inv cur heap hmem hmin hperm hord hfresh hnew
        have hult : cur.node < adj.length := by
          obtain ⟨d', hd', -⟩ := inv.core.heapDist cur hmem
          rw [← inv.core.lenD]
          exact readDistance_lt hd'
        obtain ⟨nbrs, hadj, hnbrs⟩ : ∃ nbrs, adj[cur.node]? = some nbrs ∧ nbrs ∈ adj :=
          ⟨adj[cur.node], List.getElem?_eq_getElem hult, List.getElem_mem hult⟩
        have hedges : edgesOf adj cur.node = nbrs := edgesOf_eq hadj
        have hfold := relaxInv_foldl nbrs [] (afterSettle (afterPop st heap) cur.node, [])
          rinv (fun x hx => by rw [hedges]; exact hx) (fun x hx => hnn _ hnbrs x hx)
        have hfrozen := foldl_frozen nbrs [] (afterSettle (afterPop st heap) cur.node, [])
          rinv (fun x hx => by rw [hedges]; exact hx) (fun x hx => hnn _ hnbrs x hx)
        obtain ⟨f1, f2, f3, f4, f5⟩ := hfold
        have f1' : RelaxInv adj s cur.node cur.dist (edgesOf adj cur.node)
            (List.foldl (relaxEdge cur.node cur.dist)
              (afterSettle (afterPop st heap) cur.node, []) nbrs).1 := by
          rw [hedges]
          exact f1
        have linv := loopInv_afterTrace st _ inv.trace f1' f3 f4 f5
          (fun v hv => hfrozen v (List.mem_append_left _ hv))
        rw [searchLoop_settle adj e fuel st cur heap nbrs h0 hpop hfresh hnew hadj]
        by_cases hce : cur.node = e
        · rw [if_pos hce]
          refine ⟨_, rfl, linv, Or.inl ?_⟩
          show (List.foldl (relaxEdge cur.node cur.dist)
            (afterSettle (afterPop st heap) cur.node, []) nbrs).1.visited.getLast?
              = some e
          rw [f3, ← hce]
          show (st.visited ++ [cur.node]).getLast? = some cur.node
          simp
        · rw [if_neg hce]
          apply ih _ linv
          · show (List.foldl (relaxEdge cur.node cur.dist)
              (afterSettle (afterPop st heap) cur.node, []) nbrs).1.heap.heap.length
                + pending adj (List.foldl (relaxEdge cur.node cur.dist)
              (afterSettle (afterPop st heap) cur.node, []) nbrs).1.visited ≤ fuel
            rw [f3]
            have hp := pending_settle adj st.visited cur.node hult hnew
            rw [hedges] at hp
            have f2' : (List.foldl (relaxEdge cur.node cur.dist)
              (afterSettle (afterPop st heap) cur.node, []) nbrs).1.heap.heap.length
                ≤ heap.heap.length + nbrs.length := f2
            have hV' : (afterSettle (afterPop st heap) cur.node, ([] : List (Relaxation α))).1.visited
                = st.visited ++ [cur.node] := rfl
            rw [hV']
            omega
          · show e ∉ (List.foldl (relaxEdge cur.node cur.dist)
              (afterSettle (afterPop st heap) cur.node, []) nbrs).1.visited
            rw [f3]
            show e ∉ st.visited ++ [cur.node]
            intro h
            rcases List.mem_append.mp h with h | h
            · exact he h
            · exact hce (List.mem_singleton.mp h).symm

end MainLoop

section Walks
variable {α : Type} [LinearOrderedAddCommGroup α]

theorem isWalk_append (adj : Adjacency α) (u v w : Nat) (es es' : List (Edge α))
    (h1 : IsWalk adj u es v) (h2 : IsWalk adj v es' w) : IsWalk adj u (es ++ es') w := by
  induction es generalizing u with
  | nil =>
    have : u = v := h1
    subst this
    exact h2
  | cons e es ih => exact ⟨h1.1, ih _ h1.2⟩

theorem isWalk_snoc_iff (adj : Adjacency α) (u v : Nat) (es : List (Edge α)) (e : Edge α) :
    IsWalk adj u (es ++ [e]) v ↔
      ∃ y, IsWalk adj u es y ∧ e ∈ edgesOf adj y ∧ e.node = v := by
  induction es generalizing u with
  | nil =>
    constructor
    · intro h
      exact ⟨u, rfl, h.1, h.2⟩
    · rintro ⟨y, hy, he, hv⟩
      have : u = y := hy
      subst this
      exact ⟨he, hv⟩
  | cons a es ih =>
    constructor
    · intro h
      obtain ⟨y, hy, he, hv⟩ := (ih a.node).mp h.2
      exact ⟨y, ⟨h.1, hy⟩, he, hv⟩
    · rintro ⟨y, hy, he, hv⟩
      exact ⟨hy.1, (ih a.node).mpr ⟨y, hy.2, he, hv⟩⟩

theorem walkWeight_append (es es' : List (Edge α)) :
    walkWeight (es ++ es') = walkWeight es + walkWeight es' := by
  unfold walkWeight
  rw [List.map_append, List.sum_append]

theorem walkWeight_singleton (e : Edge α) : walkWeight [e] = e.weight := by
  simp [walkWeight]

theorem mem_adj_of_mem_edgesOf {adj : Adjacency α} {u : Nat} {e : Edge α}
    (h : e ∈ edgesOf adj u) : ∃ es ∈ adj, e ∈ es := by
  unfold edgesOf at h
  cases hu : adj[u]? with
  | none => rw [hu] at h; cases h
  | some es =>
    rw [hu] at h
    obtain ⟨hlt, rfl⟩ := List.getElem?_eq_some_iff.mp hu
    exact ⟨_, List.getElem_mem hlt, h⟩

/-- At the head of the main loop every walk from the start to a node in range
weighs at least the distance recorded for that node when it is settled, and at
least the distance of some entry of the heap when it is not. -/
theorem walk_lower_bound {adj : Adjacency α} (hnn : NonNegative adj) {s : Nat}
    {st : SearchState α} (inv : LoopInv adj s st) :
    ∀ (es : List (Edge α)) (x : Nat), IsWalk adj s es x → x < adj.length →
      (x ∈ st.visited → ∃ d, readDistance st.distances x = some d ∧ d ≤ walkWeight es) ∧
      (x ∉ st.visited → ∃ it ∈ st.heap.heap, it.dist ≤ walkWeight es) := by
  intro es
  induction es using List.reverseRecOn with
  | nil =>
    intro x hx _
    have hxs : s = x := hx
    subst hxs
    constructor
    · intro _
      exact ⟨0, inv.core.startD, by simp [walkWeight]⟩
    · intro hnv
      exact ⟨_, inv.core.inHeap s 0 inv.core.startD hnv, by simp [walkWeight]⟩
  | append_singleton es e ih =>
    intro x hx hxlt
    obtain ⟨y, hy, he, hv⟩ := (isWalk_snoc_iff adj s x es e).mp hx
    subst hv
    have hylt : y < adj.length := mem_edgesOf_lt he
    have hw : 0 ≤ e.weight := by
      obtain ⟨l, hl, hel⟩ := mem_adj_of_mem_edgesOf he
      exact hnn l hl e hel
    rw [walkWeight_append, walkWeight_singleton]
    obtain ⟨ih1, ih2⟩ := ih y hy hylt
    by_cases hyV : y ∈ st.visited
    · obtain ⟨dy, hdy, hle⟩ := ih1 hyV
      obtain ⟨dx, hdx, hle'⟩ := inv.relaxed y hyV e he hxlt dy hdy
      have hfin : dx ≤ walkWeight es + e.weight :=
        le_trans hle' (add_le_add_right hle _)
      constructor
      · intro _
        exact ⟨dx, hdx, hfin⟩
      · intro hnv
        exact ⟨_, inv.core.inHeap _ dx hdx hnv, hfin⟩
    · obtain ⟨it, hit, hle⟩ := ih2 hyV
      have hfin : it.dist ≤ walkWeight es + e.weight :=
        le_trans hle (le_add_of_nonneg_right hw)
      constructor
      · intro hxV
        obtain ⟨dx, hdx⟩ := inv.core.visReached _ hxV
        exact ⟨dx, hdx, le_trans (inv.heapGe _ hxV dx hdx it hit) hfin⟩
      · intro _
        exact ⟨it, hit, hfin⟩

end Walks

section Finish
variable {α : Type} [LinearOrderedAddCommGroup α]

theorem getLast?_walk_nodes (adj : Adjacency α) (s v : Nat) (es : List (Edge α))
    (h : IsWalk adj s es v) : (s :: es.map Edge.node).getLast? = some v := by
  induction es using List.reverseRecOn with
  | nil =>
    have : s = v := h
    subst this
    rfl
  | append_singleton es e _ =>
    obtain ⟨y, -, -, hv⟩ := (isWalk_snoc_iff adj s v es e).mp h
    rw [List.map_append, ← List.cons_append, List.map_singleton, List.getLast?_append]
    simp [hv]

theorem length_le_of_nodup_lt (V : List Nat) (n : Nat) (hn : V.Nodup)
    (hlt : ∀ v ∈ V, v < n) : V.length ≤ n := by
  rw [← List.toFinset_card_of_nodup hn]
  have : V.toFinset ⊆ Finset.range n := by
    intro v hv
    rw [List.mem_toFinset] at hv
    exact Finset.mem_range.mpr (hlt v hv)
  simpa using Finset.card_le_card this

/-- The backward walk along `previous` from a settled node ends at the start
within as many iterations as the rank of the node among the settled nodes plus
one; the nodes collected are those of a walk from the start whose weight is the
distance recorded for the node. -/
theorem walkBack_settled {adj : Adjacency α} {s : Nat} {D : List (Option α)}
    {P : List (Option Nat)} {H : List (HeapItem α)} {V : List Nat}
    (core : CoreInv adj s D P H V) :
    ∀ (k : Nat) (v : Nat), v ∈ V → V.indexOf v ≤ k → ∀ (fuel : Nat), k < fuel →
      ∀ acc : List Nat, ∃ es, IsWalk adj s es v ∧
        readDistance D v = some (walkWeight es) ∧ es.length ≤ k ∧
        walkBack P fuel (some v) acc = Outcome.done (s :: es.map Edge.node ++ acc) := by
  intro k
  induction k with
  | zero =>
    intro v hv hk fuel hf acc
    obtain ⟨fuel, rfl⟩ : ∃ f, fuel = f + 1 := ⟨fuel - 1, by omega⟩
    have hvlt : v < P.length := by rw [core.lenP]; exact core.visLt v hv
    cases hp : readPrevious P v with
    | some p =>
      obtain ⟨h1, -, h3, -⟩ := core.prevInv v p hp
      have := h3 hv
      omega
    | none =>
      have hvs : v = s := by
        by_contra hne
        obtain ⟨d, hd⟩ := core.visReached v hv
        rw [core.prevNone v hne hp] at hd
        cases hd
      subst hvs
      refine ⟨[], rfl, by simpa [walkWeight] using core.startD, le_refl _, ?_⟩
      have hget : P[v]? = some none := by
        unfold readPrevious at hp
        rw [List.getElem?_eq_getElem hvlt] at hp ⊢
        simp only at hp
        rw [hp]
      rw [walkBack, hget]
      simp [walkBack]
  | succ k ih =>
    intro v hv hk fuel hf acc
    obtain ⟨fuel, rfl⟩ : ∃ f, fuel = f + 1 := ⟨fuel - 1, by omega⟩
    have hvlt : v < P.length := by rw [core.lenP]; exact core.visLt v hv
    cases hp : readPrevious P v with
    | some p =>
      obtain ⟨h1, -, h3, e, he, hev, dp, hdp, hdv⟩ := core.prevInv v p hp
      have hlt := h3 hv
      obtain ⟨es, hw, hd, hlen, hwb⟩ := ih p h1 (by omega) fuel (by omega) (v :: acc)
      rw [hdp] at hd
      cases hd
      refine ⟨es ++ [e], (isWalk_snoc_iff adj s v es e).mpr ⟨p, hw, he, hev⟩, ?_, ?_, ?_⟩
      · rw [walkWeight_append, walkWeight_singleton]; exact hdv
      · simp; omega
      · rw [walkBack, readPrevious_eq_some.mp hp]
        simp only
        rw [hwb]
        simp [hev]
    | none =>
      have hvs : v = s := by
        by_contra hne
        obtain ⟨d, hd⟩ := core.visReached v hv
        rw [core.prevNone v hne hp] at hd
        cases hd
      subst hvs
      refine ⟨[], rfl, by simpa [walkWeight] using core.startD, Nat.zero_le _, ?_⟩
      have hget : P[v]? = some none := by
        unfold readPrevious at hp
        rw [List.getElem?_eq_getElem hvlt] at hp ⊢
        simp only at hp
        rw [hp]
      rw [walkBack, hget]
      simp [walkBack]

end Finish

section Master
variable {α : Type} [LinearOrderedAddCommGroup α]

theorem push_empty (x : HeapItem α) : (MinHeap.empty.push x).heap = [x] := by
  simp [MinHeap.push, MinHeap.empty, bubbleUp, bubbleUpLoop]

theorem readDistance_initial (n s v : Nat) (d : α) (hs : s < n) :
    readDistance ((List.replicate n (none : Option α)).set s (some 0)) v = some d ↔
      v = s ∧ d = 0 := by
  rw [readDistance_set]
  by_cases h : s = v
  · subst h
    simp [hs, eq_comm]
  · have : readDistance (List.replicate n (none : Option α)) v = none := by
      unfold readDistance
      rw [List.getElem?_replicate]
      split <;> simp_all
    simp [h, this, Ne.symm h]

theorem readPrevious_replicate (n v : Nat) :
    readPrevious (List.replicate n (none : Option Nat)) v = none := by
  unfold readPrevious
  rw [List.getElem?_replicate]
  split <;> simp_all

/-- The state before the main loop satisfies the invariant. -/
theorem loopInv_initial (adj : Adjacency α) (s : Nat) (hs : s < adj.length) :
    LoopInv adj s (initialState adj s) := by
  have hH : (initialState adj s).heap.heap = [⟨s, 0⟩] := push_empty _
  refine ⟨?_, ?_, ?_, Or.inl ⟨rfl, hH⟩, ?_⟩
  · rw [hH]
    show CoreInv adj s ((List.replicate adj.length none).set s (some 0))
      (List.replicate adj.length none) [⟨s, 0⟩] []
    refine
      { lenD := by simp
        lenP := by simp
        startLt := hs
        startD := (readDistance_initial _ _ _ _ hs).mpr ⟨rfl, rfl⟩
        startP := readPrevious_replicate _ _
        heapOrd := by intro i hi h0; simp at hi; omega
        visLt := by intro v hv; cases hv
        visNodup := List.nodup_nil
        visReached := by intro v hv; cases hv
        inHeap := ?_
        heapDist := ?_
        prevInv := ?_
        prevNone := ?_
        firstPred := ?_ }
    · intro v d hvd _
      obtain ⟨rfl, rfl⟩ := (readDistance_initial _ _ _ _ hs).mp hvd
      exact List.mem_singleton_self _
    · intro it hit
      rw [List.mem_singleton] at hit
      subst hit
      exact ⟨0, (readDistance_initial _ _ _ _ hs).mpr ⟨rfl, rfl⟩, le_refl _⟩
    · intro v p hvp
      rw [readPrevious_replicate] at hvp
      cases hvp
    · intro v hvs _
      cases h : readDistance ((List.replicate adj.length (none : Option α)).set s (some 0)) v with
      | none => rfl
      | some d => exact absurd ((readDistance_initial _ _ _ _ hs).mp h).1 hvs
    · intro v p hvp
      rw [readPrevious_replicate] at hvp
      cases hvp
  · intro v hv
    cases hv
  · intro y hy
    cases hy
  · exact ⟨rfl, rfl, (by intro stp h; cases h), List.Pairwise.nil⟩

/-- The fields of the record `metrics` built from the final state and the path. -/
theorem finish_of_path (adj : Adjacency α) (s e : Nat) (st : SearchState α)
    (path : List Nat)
    (hwb : walkBack st.previous adj.length (some e) [] = Outcome.done path) :
    finish adj s e st =
      if path.head? ≠ some s then Outcome.done noPath
      else Outcome.done
        { distance := readDistance st.distances e
          path := path
          steps := st.steps
          metrics := some
            { nodesExplored := st.nodesExplored
              totalNodes := adj.length
              edgesConsidered := st.edgesConsidered
              heapOperations := st.heapOperations
              pathLength := path.length
              edgesInPath := max 0 (path.length - 1) } } := by
  unfold finish
  simp only [hwb]
  rfl

/-- The search on a graph with non-negative weights, from a valid start to a
valid target: the main loop and the backward walk terminate; if no walk leads
from the start to the target the result is the no-path result; otherwise the
path returned is the node sequence of a walk of least weight, the distance
returned is its weight, and the target is the last settled node. -/
theorem dijkstra_spec (adj : Adjacency α) (hnn : NonNegative adj) (s e : Nat)
    (hs : s < adj.length) (he : e < adj.length) :
    ∃ st, searchLoop adj e (1 + totalEntries adj) (initialState adj s) = Outcome.done st ∧
      LoopInv adj s st ∧
      ((e ∉ st.visited ∧ (∀ es, ¬ IsWalk adj s es e) ∧ dijkstra adj s e = Outcome.done noPath) ∨
       (st.visited.getLast? = some e ∧ ∃ es, IsWalk adj s es e ∧
          (∀ es', IsWalk adj s es' e → walkWeight es ≤ walkWeight es') ∧
          es.length < adj.length ∧
          readDistance st.distances e = some (walkWeight es) ∧
          dijkstra adj s e = Outcome.done
            { distance := some (walkWeight es)
              path := s :: es.map Edge.node
              steps := st.steps
              metrics := some
                { nodesExplored := st.nodesExplored
                  totalNodes := adj.length
                  edgesConsidered := st.edgesConsidered
                  heapOperations := st.heapOperations
                  pathLength := es.length + 1
                  edgesInPath := es.length } })) := by
  have hinit := loopInv_initial adj s hs
  obtain ⟨st, hloop, inv, hexit⟩ := searchLoop_spec adj hnn s e (1 + totalEntries adj)
    (initialState adj s) hinit
    (by
      have h1 : (initialState adj s).heap.heap = [⟨s, 0⟩] := push_empty _
      have h2 : (initialState adj s).visited = [] := rfl
      rw [h1, h2, pending_nil]
      simp)
    (by intro h; cases h)
  refine ⟨st, hloop, inv, ?_⟩
  have hdij : dijkstra adj s e = finish adj s e st := by
    unfold dijkstra
    rw [hloop]
  have hVlen : st.visited.length ≤ adj.length :=
    length_le_of_nodup_lt _ _ inv.core.visNodup inv.core.visLt
  rcases hexit with hlast | ⟨hempty, hnv⟩
  · right
    refine ⟨hlast, ?_⟩
    have heV : e ∈ st.visited := List.mem_of_mem_getLast? hlast
    have hidx : st.visited.indexOf e < st.visited.length := List.indexOf_lt_length.mpr heV
    obtain ⟨es, hw, hd, hlen, hwb⟩ := walkBack_settled inv.core (st.visited.length - 1) e heV
      (by omega) adj.length (by omega) []
    refine ⟨es, hw, ?_, by omega, hd, ?_⟩
    · intro es' hw'
      obtain ⟨d, hd', hle⟩ := (walk_lower_bound hnn inv es' e hw' he).1 heV
      rw [hd] at hd'
      cases hd'
      exact hle
    · rw [hdij, finish_of_path adj s e st _ hwb]
      simp [hd]
  · left
    have hnowalk : ∀ es, ¬ IsWalk adj s es e := by
      intro es hw
      obtain ⟨it, hit, -⟩ := (walk_lower_bound hnn inv es e hw he).2 hnv
      rw [hempty] at hit
      cases hit
    refine ⟨hnv, hnowalk, ?_⟩
    have hes : e ≠ s := by
      intro h
      subst h
      exact hnowalk [] rfl
    have hD : readDistance st.distances e = none := by
      cases h : readDistance st.distances e with
      | none => rfl
      | some d =>
        have := inv.core.inHeap e d h hnv
        rw [hempty] at this
        cases this
    have hP : readPrevious st.previous e = none := by
      cases h : readPrevious st.previous e with
      | none => rfl
      | some p =>
        obtain ⟨-, -, -, e', -, hev, dp, -, hdv⟩ := inv.core.prevInv e p h
        rw [hD] at hdv
        cases hdv
    have hget : st.previous[e]? = some none := by
      have hlt : e < st.previous.length := by rw [inv.core.lenP]; exact he
      unfold readPrevious at hP
      rw [List.getElem?_eq_getElem hlt] at hP ⊢
      simp only at hP
      rw [hP]
    have hwb : walkBack st.previous adj.length (some e) [] = Outcome.done [e] := by
      obtain ⟨n, hn⟩ : ∃ n, adj.length = n + 1 := ⟨adj.length - 1, by omega⟩
      rw [hn, walkBack, hget]
      simp [walkBack]
    rw [hdij, finish_of_path adj s e st _ hwb]
    simp [hes]

end Master

section SearchClaims
variable {α : Type} [LinearOrderedAddCommGroup α]

/-- C1. On an adjacency list with non-negative weights, for a valid start and a
valid target reachable from the start, `dijkstra` returns a result whose
distance is the weight of a walk from start to target, and no walk from start
to target weighs less: the distance is the minimum over all walks of the sum of
the edge weights. -/
theorem dijkstra_distance_is_minimum (adj : Adjacency α) (hnn : NonNegative adj)
    (s e : Nat) (hs : s < adj.length) (he : e < adj.length)
    (hreach : ∃ es, IsWalk adj s es e) :
    ∃ r, dijkstra adj s e = Outcome.done r ∧
      ∃ es, IsWalk adj s es e ∧ r.distance = some (walkWeight es) ∧
        ∀ es', IsWalk adj s es' e → walkWeight es ≤ walkWeight es' := by
  obtain ⟨st, -, -, ⟨-, hno, -⟩ | ⟨-, es, hw, hmin, -, -, hd⟩⟩ := dijkstra_spec adj hnn s e hs he
  · obtain ⟨es, hes⟩ := hreach
    exact absurd hes (hno es)
  · exact ⟨_, hd, es, hw, rfl, hmin⟩

/-- On the triangle with sides 3, 4, 5 the search from 0 to 2 returns the
minimum over all walks. -/
theorem dijkstra_distance_is_minimum_witness :
    ∃ r, dijkstra ([[⟨1, 3⟩, ⟨2, 5⟩], [⟨0, 3⟩, ⟨2, 4⟩], [⟨0, 5⟩, ⟨1, 4⟩]] : Adjacency Int) 0 2
        = Outcome.done r ∧
      ∃ es, IsWalk ([[⟨1, 3⟩, ⟨2, 5⟩], [⟨0, 3⟩, ⟨2, 4⟩], [⟨0, 5⟩, ⟨1, 4⟩]] : Adjacency Int)
          0 es 2 ∧ r.distance = some (walkWeight es) ∧
        ∀ es', IsWalk ([[⟨1, 3⟩, ⟨2, 5⟩], [⟨0, 3⟩, ⟨2, 4⟩], [⟨0, 5⟩, ⟨1, 4⟩]] : Adjacency Int)
          0 es' 2 → walkWeight es ≤ walkWeight es' :=
  dijkstra_distance_is_minimum _ (by decide) 0 2 (by decide) (by decide)
    ⟨[⟨2, 5⟩], by decide⟩

/-- C2. On an adjacency list with non-negative weights and for valid start and
target, when `dijkstra` returns a non-empty path, the path is the node sequence
of a walk from start to target: every consecutive pair `(u, v)` is joined by an
edge listed in `adjacencyList[u]`, one edge per pair, and the distance returned
is the sum of the weights of these edges. -/
theorem dijkstra_path_follows_edges (adj : Adjacency α) (hnn : NonNegative adj)
    (s e : Nat) (hs : s < adj.length) (he : e < adj.length) (r : DijkstraResult α)
    (hr : dijkstra adj s e = Outcome.done r) (hpath : r.path ≠ []) :
    ∃ es, IsWalk adj s es e ∧ r.path = s :: es.map Edge.node ∧
      r.distance = some (walkWeight es) := by
  obtain ⟨st, -, -, ⟨-, -, hd⟩ | ⟨-, es, hw, -, -, -, hd⟩⟩ := dijkstra_spec adj hnn s e hs he
  · rw [hd] at hr
    cases hr
    exact absurd rfl hpath
  · rw [hd] at hr
    cases hr
    exact ⟨es, hw, rfl, rfl⟩

/-- On the triangle with sides 3, 4, 5 the path returned from 0 to 2 follows
edges of the graph whose weights sum to the distance returned. -/
theorem dijkstra_path_follows_edges_witness :
    ∃ es, IsWalk ([[⟨1, 3⟩, ⟨2, 5⟩], [⟨0, 3⟩, ⟨2, 4⟩], [⟨0, 5⟩, ⟨1, 4⟩]] : Adjacency Int)
        0 es 2 ∧
      ([0, 2] : List Nat) = 0 :: es.map Edge.node ∧ some (5 : Int) = some (walkWeight es) :=
  dijkstra_path_follows_edges
    ([[⟨1, 3⟩, ⟨2, 5⟩], [⟨0, 3⟩, ⟨2, 4⟩], [⟨0, 5⟩, ⟨1, 4⟩]] : Adjacency Int) (by decide) 0 2
    (by decide) (by decide)
    { distance := some 5, path := [0, 2],
      steps := [⟨0, 0, [0], 2, [⟨1, none, 3, none⟩, ⟨2, none, 5, none⟩]⟩,
        ⟨1, 3, [0, 1], 1, []⟩, ⟨2, 5, [0, 1, 2], 0, []⟩],
      metrics := some ⟨3, 3, 6, 6, 2, 1⟩ }
    (by decide) (by decide)

/-- C3. On an adjacency list with non-negative weights and for valid start and
target, `dijkstra` returns either a non-empty path whose first element is the
start and whose last element is the target, or the no-path result (distance
`Infinity`, empty path): never a partial path. -/
theorem dijkstra_result_shape (adj : Adjacency α) (hnn : NonNegative adj)
    (s e : Nat) (hs : s < adj.length) (he : e < adj.length) :
    ∃ r, dijkstra adj s e = Outcome.done r ∧
      ((r.path ≠ [] ∧ r.path.head? = some s ∧ r.path.getLast? = some e) ∨
       (r.distance = none ∧ r.path = [])) := by
  obtain ⟨st, -, -, ⟨-, -, hd⟩ | ⟨-, es, hw, -, -, -, hd⟩⟩ := dijkstra_spec adj hnn s e hs he
  · exact ⟨_, hd, Or.inr ⟨rfl, rfl⟩⟩
  · refine ⟨_, hd, Or.inl ⟨?_, rfl, ?_⟩⟩
    · simp
    · exact getLast?_walk_nodes adj s e es hw

/-- On the graph with the single edge pair between 0 and 1 and an isolated node
2, the search from 0 to 2 returns one of the two shapes. -/
theorem dijkstra_result_shape_witness :
    ∃ r, dijkstra ([[⟨1, 3⟩], [⟨0, 3⟩], []] : Adjacency Int) 0 2 = Outcome.done r ∧
      ((r.path ≠ [] ∧ r.path.head? = some 0 ∧ r.path.getLast? = some 2) ∨
       (r.distance = none ∧ r.path = [])) :=
  dijkstra_result_shape _ (by decide) 0 2 (by decide) (by decide)

end SearchClaims

section NoPathClaim
variable {α : Type} [LinearOrderedAddCommGroup α]

/-- The full-policy graph of two points whose mutual entry is not finite has
no edge. -/
theorem buildFull_two_unreachable (m : Matrix α) (hlen : m.length = 2)
    (hinf : matrixEntry m 0 1 = none) : buildFull m = [[], []] := by
  obtain ⟨hl, hspec⟩ := buildFull_spec m
  rw [hlen] at hl hspec
  have h0 : (buildFull m)[0]? = some [] := by
    obtain ⟨es, hes, -, hr, hup, -⟩ := hspec 0 (by omega)
    rw [hes]
    congr 1
    apply List.eq_nil_iff_forall_not_mem.mpr
    intro x hx
    have := hr x hx
    have hx1 : x.node = 1 := by omega
    have hmem : (⟨1, x.weight⟩ : Edge α) ∈ es := by rw [← hx1]; exact hx
    rw [hup 1 x.weight (by omega) (by omega), hinf] at hmem
    cases hmem
  have h1 : (buildFull m)[1]? = some [] := by
    obtain ⟨es, hes, -, hr, -, hdown⟩ := hspec 1 (by omega)
    rw [hes]
    congr 1
    apply List.eq_nil_iff_forall_not_mem.mpr
    intro x hx
    have := hr x hx
    have hx1 : x.node = 0 := by omega
    have hmem : (⟨0, x.weight⟩ : Edge α) ∈ es := by rw [← hx1]; exact hx
    rw [hdown 0 x.weight (by omega), hinf] at hmem
    cases hmem
  apply List.ext_getElem?
  intro i
  match i with
  | 0 => rw [h0]; rfl
  | 1 => rw [h1]; rfl
  | i + 2 =>
    rw [List.getElem?_eq_none_iff.mpr (by omega)]
    rfl

/-- C4. On an adjacency list with non-negative weights and for valid start and
target, `dijkstra` returns the no-path result (distance `Infinity`, empty path)
if and only if no walk leads from the start to the target; in particular, on
the full-policy graph of two points whose mutual matrix entry is the
unreachable sentinel, the search between the two points returns distance
`Infinity` and the empty path. -/
theorem dijkstra_no_path_iff (adj : Adjacency α) (hnn : NonNegative adj)
    (s e : Nat) (hs : s < adj.length) (he : e < adj.length) :
    (∃ r, dijkstra adj s e = Outcome.done r ∧
      ((r.distance = none ∧ r.path = []) ↔ ¬ ∃ es, IsWalk adj s es e)) ∧
    (∀ m : Matrix α, m.length = 2 → matrixEntry m 0 1 = none → adj = buildFull m →
      s ≠ e → dijkstra adj s e = Outcome.done noPath) := by
  obtain ⟨st, -, -, ⟨-, hno, hd⟩ | ⟨-, es, hw, -, -, -, hd⟩⟩ := dijkstra_spec adj hnn s e hs he
  · refine ⟨⟨_, hd, ?_⟩, fun _ _ _ _ _ => hd⟩
    constructor
    · rintro - ⟨es, hes⟩
      exact hno es hes
    · intro _
      exact ⟨rfl, rfl⟩
  · refine ⟨⟨_, hd, ?_⟩, ?_⟩
    · constructor
      · rintro ⟨-, h⟩
        simp at h
      · intro h
        exact absurd ⟨es, hw⟩ h
    · intro m hlen hinf hadj hse
      exfalso
      rw [hadj, buildFull_two_unreachable m hlen hinf] at hw
      cases es with
      | nil => exact hse hw
      | cons a es =>
        have ha : a ∈ edgesOf ([[], []] : Adjacency α) s := hw.1
        unfold edgesOf at ha
        match s, ha with
        | 0, ha => simp at ha
        | 1, ha => simp at ha
        | s + 2, ha => simp at ha

/-- The full-policy graph of the two-point matrix whose off-diagonal entries are
the unreachable sentinel: the search from 0 to 1 returns the no-path result. -/
theorem dijkstra_no_path_iff_witness :
    dijkstra (buildFull ([[some 0, none], [none, some 0]] : Matrix Int)) 0 1
      = Outcome.done noPath :=
  (dijkstra_no_path_iff (buildFull ([[some 0, none], [none, some 0]] : Matrix Int))
    (by decide) 0 1 (by decide) (by decide)).2 _ (by decide) (by decide) rfl (by decide)

end NoPathClaim

section TraceClaims
variable {α : Type} [LinearOrderedAddCommGroup α]

/-- The backward walk from a settled node visits settled nodes of strictly
increasing rank (in the order from the start to the node): the predecessor
relation has no cycle. -/
theorem walkBack_ranked {adj : Adjacency α} {s : Nat} {D : List (Option α)}
    {P : List (Option Nat)} {H : List (HeapItem α)} {V : List Nat}
    (core : CoreInv adj s D P H V) :
    ∀ (k : Nat) (v : Nat), v ∈ V → V.indexOf v ≤ k → ∀ (fuel : Nat), k < fuel →
      ∀ acc : List Nat, ∃ chain,
        walkBack P fuel (some v) acc = Outcome.done (chain ++ acc) ∧
        chain.Pairwise (fun a b => V.indexOf a < V.indexOf b) ∧
        (∀ x ∈ chain, V.indexOf x ≤ V.indexOf v) ∧ chain.length ≤ k + 1 := by
  intro k
  induction k with
  | zero =>
    intro v hv hk fuel hf acc
    obtain ⟨fuel, rfl⟩ : ∃ f, fuel = f + 1 := ⟨fuel - 1, by omega⟩
    have hvlt : v < P.length := by rw [core.lenP]; exact core.visLt v hv
    cases hp : readPrevious P v with
    | some p =>
      obtain ⟨h1, -, h3, -⟩ := core.prevInv v p hp
      have := h3 hv
      omega
    | none =>
      have hget : P[v]? = some none := by
        unfold readPrevious at hp
        rw [List.getElem?_eq_getElem hvlt] at hp ⊢
        simp only at hp
        rw [hp]
      refine ⟨[v], ?_, List.pairwise_singleton _ _, ?_, by simp⟩
      · rw [walkBack, hget]
        simp [walkBack]
      · intro x hx
        rw [List.mem_singleton] at hx
        rw [hx]
  | succ k ih =>
    intro v hv hk fuel hf acc
    obtain ⟨fuel, rfl⟩ : ∃ f, fuel = f + 1 := ⟨fuel - 1, by omega⟩
    have hvlt : v < P.length := by rw [core.lenP]; exact core.visLt v hv
    cases hp : readPrevious P v with
    | some p =>
      obtain ⟨h1, -, h3, -⟩ := core.prevInv v p hp
      have hlt := h3 hv
      obtain ⟨chain, hwb, hpw, hle, hlen⟩ := ih p h1 (by omega) fuel (by omega) (v :: acc)
      refine ⟨chain ++ [v], ?_, ?_, ?_, ?_⟩
      · rw [walkBack, readPrevious_eq_some.mp hp]
        simp only
        rw [hwb]
        simp
      · rw [List.pairwise_append]
        refine ⟨hpw, List.pairwise_singleton _ _, ?_⟩
        intro a ha b hb
        rw [List.mem_singleton] at hb
        rw [hb]
        exact lt_of_le_of_lt (hle a ha) hlt
      · intro x hx
        rcases List.mem_append.mp hx with h | h
        · exact le_of_lt (lt_of_le_of_lt (hle x h) hlt)
        · rw [List.mem_singleton] at h
          rw [h]
      · simp; omega
    | none =>
      have hget : P[v]? = some none := by
        unfold readPrevious at hp
        rw [List.getElem?_eq_getElem hvlt] at hp ⊢
        simp only at hp
        rw [hp]
      refine ⟨[v], ?_, List.pairwise_singleton _ _, ?_, by simp⟩
      · rw [walkBack, hget]
        simp [walkBack]
      · intro x hx
        rw [List.mem_singleton] at hx
        rw [hx]

/-- C23. On an adjacency list with non-negative weights and for valid start and
target, `dijkstra` terminates: the main loop ends, on an empty queue or on the
settling of the target, within `1 + (number of adjacency entries)` iterations
(one pop each), and the backward walk along `previous` from the target reaches
a node without predecessor within `N` iterations, visiting no node twice. -/
theorem dijkstra_terminates (adj : Adjacency α) (hnn : NonNegative adj)
    (s e : Nat) (hs : s < adj.length) (he : e < adj.length) :
    ∃ st, searchLoop adj e (1 + totalEntries adj) (initialState adj s) = Outcome.done st ∧
      (st.heap.heap = [] ∨ st.visited.getLast? = some e) ∧
      ∃ path, walkBack st.previous adj.length (some e) [] = Outcome.done path ∧
        path.Nodup ∧ path.length ≤ adj.length ∧
        ∃ r, dijkstra adj s e = Outcome.done r := by
  obtain ⟨st, hloop, inv, hcase⟩ := dijkstra_spec adj hnn s e hs he
  have hVlen : st.visited.length ≤ adj.length :=
    length_le_of_nodup_lt _ _ inv.core.visNodup inv.core.visLt
  refine ⟨st, hloop, ?_⟩
  rcases hcase with ⟨hnv, hno, hd⟩ | ⟨hlast, es, hw, -, -, -, hd⟩
  · have hexit := searchLoop_spec adj hnn s e (1 + totalEntries adj) (initialState adj s)
      (loopInv_initial adj s hs)
      (by
        have h1 : (initialState adj s).heap.heap = [⟨s, 0⟩] := push_empty _
        have h2 : (initialState adj s).visited = [] := rfl
        rw [h1, h2, pending_nil]
        simp)
      (by intro h; cases h)
    obtain ⟨st', hloop', -, hexit'⟩ := hexit
    rw [hloop] at hloop'
    cases hloop'
    have hempty : st.heap.heap = [] := by
      rcases hexit' with h | ⟨h, -⟩
      · exact absurd (List.mem_of_mem_getLast? h) hnv
      · exact h
    refine ⟨Or.inl hempty, [e], ?_, List.nodup_singleton _, by simp; omega, _, hd⟩
    have hD : readDistance st.distances e = none := by
      cases h : readDistance st.distances e with
      | none => rfl
      | some d =>
        have := inv.core.inHeap e d h hnv
        rw [hempty] at this
        cases this
    have hP : readPrevious st.previous e = none := by
      cases h : readPrevious st.previous e with
      | none => rfl
      | some p =>
        obtain ⟨-, -, -, e', -, hev, dp, -, hdv⟩ := inv.core.prevInv e p h
        rw [hD] at hdv
        cases hdv
    have hget : st.previous[e]? = some none := by
      have hlt : e < st.previous.length := by rw [inv.core.lenP]; exact he
      unfold readPrevious at hP
      rw [List.getElem?_eq_getElem hlt] at hP ⊢
      simp only at hP
      rw [hP]
    obtain ⟨n, hn⟩ : ∃ n, adj.length = n + 1 := ⟨adj.length - 1, by omega⟩
    rw [hn, walkBack, hget]
    simp [walkBack]
  · have heV : e ∈ st.visited := List.mem_of_mem_getLast? hlast
    have hidx : st.visited.indexOf e < st.visited.length := List.indexOf_lt_length.mpr heV
    obtain ⟨chain, hwb, hpw, -, hlen⟩ := walkBack_ranked inv.core (st.visited.length - 1) e heV
      (by omega) adj.length (by omega) []
    rw [List.append_nil] at hwb
    refine ⟨Or.inr hlast, chain, hwb, ?_, by omega, _, hd⟩
    exact hpw.imp (fun h heq => by rw [heq] at h; exact lt_irrefl _ h)

/-- On the triangle with sides 3, 4, 5 the search from 0 to 2 terminates within
the stated bounds. -/
theorem dijkstra_terminates_witness :
    ∃ st, searchLoop ([[⟨1, 3⟩, ⟨2, 5⟩], [⟨0, 3⟩, ⟨2, 4⟩], [⟨0, 5⟩, ⟨1, 4⟩]] : Adjacency Int) 2
        (1 + totalEntries ([[⟨1, 3⟩, ⟨2, 5⟩], [⟨0, 3⟩, ⟨2, 4⟩], [⟨0, 5⟩, ⟨1, 4⟩]] : Adjacency Int))
        (initialState ([[⟨1, 3⟩, ⟨2, 5⟩], [⟨0, 3⟩, ⟨2, 4⟩], [⟨0, 5⟩, ⟨1, 4⟩]] : Adjacency Int) 0)
          = Outcome.done st ∧
      (st.heap.heap = [] ∨ st.visited.getLast? = some 2) ∧
      ∃ path, walkBack st.previous
          ([[⟨1, 3⟩, ⟨2, 5⟩], [⟨0, 3⟩, ⟨2, 4⟩], [⟨0, 5⟩, ⟨1, 4⟩]] : Adjacency Int).length
          (some 2) [] = Outcome.done path ∧
        path.Nodup ∧
        path.length ≤ ([[⟨1, 3⟩, ⟨2, 5⟩], [⟨0, 3⟩, ⟨2, 4⟩], [⟨0, 5⟩, ⟨1, 4⟩]] : Adjacency Int).length ∧
        ∃ r, dijkstra ([[⟨1, 3⟩, ⟨2, 5⟩], [⟨0, 3⟩, ⟨2, 4⟩], [⟨0, 5⟩, ⟨1, 4⟩]] : Adjacency Int) 0 2
          = Outcome.done r :=
  dijkstra_terminates _ (by decide) 0 2 (by decide) (by decide)

end TraceClaims

section MetricsClaims
variable {α : Type} [LinearOrderedAddCommGroup α]

/-- C18. When `dijkstra` returns a path (non-negative weights, valid start and
target), the metrics satisfy `1 ≤ nodesExplored ≤ totalNodes`,
`edgesInPath = pathLength - 1` with `pathLength` the length of the path, and the
number formatted as `pruningRate` lies between 0 and 100. -/
theorem metrics_sanity (adj : Adjacency α) (hnn : NonNegative adj)
    (s e : Nat) (hs : s < adj.length) (he : e < adj.length) (r : DijkstraResult α)
    (hr : dijkstra adj s e = Outcome.done r) (hpath : r.path ≠ []) :
    ∃ m, r.metrics = some m ∧ 1 ≤ m.nodesExplored ∧ m.nodesExplored ≤ m.totalNodes ∧
      m.pathLength = r.path.length ∧ m.edgesInPath + 1 = m.pathLength ∧
      0 ≤ pruningRate m ∧ pruningRate m ≤ 100 := by
  obtain ⟨st, -, inv, ⟨-, -, hd⟩ | ⟨hlast, es, -, -, -, -, hd⟩⟩ := dijkstra_spec adj hnn s e hs he
  · rw [hd] at hr
    cases hr
    exact absurd rfl hpath
  · rw [hd] at hr
    cases hr
    have hcount : st.nodesExplored = st.visited.length := inv.trace.count
    have h1 : 1 ≤ st.visited.length :=
      List.length_pos_of_mem (List.mem_of_mem_getLast? hlast)
    have h2 : st.visited.length ≤ adj.length :=
      length_le_of_nodup_lt _ _ inv.core.visNodup inv.core.visLt
    refine ⟨_, rfl, by simp only; omega, by simp only; omega, by simp, rfl, ?_, ?_⟩
    · unfold pruningRate
      simp only
      have hn : (0 : ℚ) < (adj.length : ℚ) := by exact_mod_cast (by omega : 0 < adj.length)
      have hle : (st.nodesExplored : ℚ) ≤ (adj.length : ℚ) := by
        exact_mod_cast (by omega : st.nodesExplored ≤ adj.length)
      apply mul_nonneg _ (by norm_num)
      exact div_nonneg (by linarith) (le_of_lt hn)
    · unfold pruningRate
      simp only
      have hn : (0 : ℚ) < (adj.length : ℚ) := by exact_mod_cast (by omega : 0 < adj.length)
      have hge : (0 : ℚ) ≤ (st.nodesExplored : ℚ) := by exact_mod_cast Nat.zero_le _
      have : ((adj.length : ℚ) - (st.nodesExplored : ℚ)) / (adj.length : ℚ) ≤ 1 := by
        rw [div_le_one hn]
        linarith
      linarith

/-- On the triangle with sides 3, 4, 5 the metrics of the search from 0 to 2
satisfy the sanity conditions. -/
theorem metrics_sanity_witness :
    ∃ m, (some ⟨3, 3, 6, 6, 2, 1⟩ : Option Metrics) = some m ∧ 1 ≤ m.nodesExplored ∧
      m.nodesExplored ≤ m.totalNodes ∧ m.pathLength = ([0, 2] : List Nat).length ∧
      m.edgesInPath + 1 = m.pathLength ∧ 0 ≤ pruningRate m ∧ pruningRate m ≤ 100 :=
  metrics_sanity
    ([[⟨1, 3⟩, ⟨2, 5⟩], [⟨0, 3⟩, ⟨2, 4⟩], [⟨0, 5⟩, ⟨1, 4⟩]] : Adjacency Int) (by decide) 0 2
    (by decide) (by decide)
    { distance := some 5, path := [0, 2],
      steps := [⟨0, 0, [0], 2, [⟨1, none, 3, none⟩, ⟨2, none, 5, none⟩]⟩,
        ⟨1, 3, [0, 1], 1, []⟩, ⟨2, 5, [0, 1, 2], 0, []⟩],
      metrics := some ⟨3, 3, 6, 6, 2, 1⟩ }
    (by decide) (by decide)

/-- C25. When `dijkstra` returns a path (non-negative weights, valid start and
target), the trace has one step per settled node: no node is the `currentNode`
of two steps, the number of steps is `nodesExplored`, the `currentDistance` of
each step is the least weight of a walk from the start to its `currentNode`,
the values of `currentDistance` are non-decreasing along the trace, and the
`currentNode` of the last step is the target. -/
theorem trace_one_step_per_settled_node (adj : Adjacency α) (hnn : NonNegative adj)
    (s e : Nat) (hs : s < adj.length) (he : e < adj.length) (r : DijkstraResult α)
    (hr : dijkstra adj s e = Outcome.done r) (hpath : r.path ≠ []) :
    (r.steps.map TraceStep.currentNode).Nodup ∧
    (∃ m, r.metrics = some m ∧ r.steps.length = m.nodesExplored) ∧
    (∀ stp ∈ r.steps,
      (∃ es, IsWalk adj s es stp.currentNode ∧ walkWeight es = stp.currentDistance) ∧
      ∀ es, IsWalk adj s es stp.currentNode → stp.currentDistance ≤ walkWeight es) ∧
    r.steps.Pairwise (fun a b => a.currentDistance ≤ b.currentDistance) ∧
    (r.steps.map TraceStep.currentNode).getLast? = some e := by
  obtain ⟨st, -, inv, ⟨-, -, hd⟩ | ⟨hlast, es, -, -, -, -, hd⟩⟩ := dijkstra_spec adj hnn s e hs he
  · rw [hd] at hr
    cases hr
    exact absurd rfl hpath
  · rw [hd] at hr
    cases hr
    have hnodes := inv.trace.nodes
    refine ⟨?_, ⟨_, rfl, ?_⟩, ?_, inv.trace.mono, ?_⟩
    · show (st.steps.map TraceStep.currentNode).Nodup
      rw [hnodes]
      exact inv.core.visNodup
    · show st.steps.length = st.nodesExplored
      rw [inv.trace.count, ← hnodes, List.length_map]
    · intro stp hstp
      have hstp' : stp ∈ st.steps := hstp
      have hV : stp.currentNode ∈ st.visited := by
        rw [← hnodes]
        exact List.mem_map.mpr ⟨stp, hstp', rfl⟩
      have hD := inv.trace.settled stp hstp'
      have hlt : stp.currentNode < adj.length := inv.core.visLt _ hV
      constructor
      · have hidx := List.indexOf_lt_length.mpr hV
        obtain ⟨es', hw', hd', -, -⟩ := walkBack_settled inv.core (st.visited.length - 1)
          stp.currentNode hV (by omega) st.visited.length (by omega) []
        rw [hD] at hd'
        exact ⟨es', hw', (Option.some.inj hd').symm⟩
      · intro es' hw'
        obtain ⟨d, hd', hle⟩ := (walk_lower_bound hnn inv es' _ hw' hlt).1 hV
        rw [hD] at hd'
        cases hd'
        exact hle
    · show (st.steps.map TraceStep.currentNode).getLast? = some e
      rw [hnodes]
      exact hlast

/-- On the triangle with sides 3, 4, 5 the trace of the search from 0 to 2 has
one step per settled node and ends at the target. -/
theorem trace_one_step_per_settled_node_witness :
    (([⟨0, 0, [0], 2, [⟨1, none, 3, none⟩, ⟨2, none, 5, none⟩]⟩,
        ⟨1, 3, [0, 1], 1, []⟩, ⟨2, 5, [0, 1, 2], 0, []⟩] : List (TraceStep Int)).map
      TraceStep.currentNode).getLast? = some 2 :=
  (trace_one_step_per_settled_node
    ([[⟨1, 3⟩, ⟨2, 5⟩], [⟨0, 3⟩, ⟨2, 4⟩], [⟨0, 5⟩, ⟨1, 4⟩]] : Adjacency Int) (by decide) 0 2
    (by decide) (by decide)
    { distance := some 5, path := [0, 2],
      steps := [⟨0, 0, [0], 2, [⟨1, none, 3, none⟩, ⟨2, none, 5, none⟩]⟩,
        ⟨1, 3, [0, 1], 1, []⟩, ⟨2, 5, [0, 1, 2], 0, []⟩],
      metrics := some ⟨3, 3, 6, 6, 2, 1⟩ }
    (by decide) (by decide)).2.2.2.2

end MetricsClaims

section BuilderEdges
variable {α : Type} [LinearOrderedAddCommGroup α]

theorem hasEdge_iff_mem_edgesOf (adj : Adjacency α) (i j : Nat) (w : α) :
    HasEdge adj i j w ↔ (⟨j, w⟩ : Edge α) ∈ edgesOf adj i := by
  unfold HasEdge edgesOf
  cases adj[i]? with
  | none => simp
  | some es => simp

theorem edgesOf_pushAll_replicate (n : Nat) (ops : List (Nat × Edge α)) (a : Nat)
    (ha : a < n) :
    edgesOf (pushAll (List.replicate n []) ops) a
      = (ops.filter fun op => op.1 = a).map Prod.snd := by
  unfold edgesOf
  rw [getElem?_pushAll, List.getElem?_replicate, if_pos ha]
  simp

theorem edgesOf_of_length_le (adj : Adjacency α) (a : Nat) (ha : adj.length ≤ a) :
    edgesOf adj a = [] := by
  unfold edgesOf
  rw [List.getElem?_eq_none_iff.mpr ha]

/-- The k-nearest-neighbour branch returns exactly when every node has enough
finite-distance neighbours, and the graph returned is the result of the pushes
for the first neighbours of every node. -/
theorem buildKnn_eq_some (m : Matrix α) (k : Option Int) (adj : Adjacency α)
    (h : buildKnn m k = some adj) :
    (∀ i, i < m.length →
      (knnNeighbors k m.length).toNat ≤ (knnCandidates m m.length i).length) ∧
    adj = pushAll (List.replicate m.length [])
      ((List.range m.length).flatMap fun i =>
        ((nearestOrder m i).take (knnNeighbors k m.length).toNat).flatMap (knnOps i)) := by
  have henough : ∀ i, i < m.length →
      (knnNeighbors k m.length).toNat ≤ (knnCandidates m m.length i).length := by
    intro i hi
    by_contra hlt
    rw [buildKnn_of_short m k ⟨i, hi, not_le.mp hlt⟩] at h
    cases h
  refine ⟨henough, ?_⟩
  rw [buildKnn_of_enough m k henough] at h
  exact (Option.some.inj h).symm

/-- Every edge of the graph of the k-nearest-neighbour branch joins two distinct
nodes in range and carries the matrix entry of the pair in one of the two
directions. -/
theorem knn_edge_weight (m : Matrix α) (k : Option Int) (adj : Adjacency α)
    (h : buildKnn m k = some adj) (a j : Nat) (w : α) (he : HasEdge adj a j w) :
    a < m.length ∧ j < m.length ∧ a ≠ j ∧
      (matrixEntry m a j = some w ∨ matrixEntry m j a = some w) := by
  obtain ⟨-, rfl⟩ := buildKnn_eq_some m k adj h
  have ha : a < m.length := by
    by_contra hlt
    rw [hasEdge_iff_mem_edgesOf, edgesOf_of_length_le _ _
      (by rw [length_pushAll, List.length_replicate]; omega)] at he
    cases he
  rw [hasEdge_iff_mem_edgesOf, edgesOf_pushAll_replicate _ _ _ ha] at he
  simp only [List.mem_map, List.mem_filter, List.mem_flatMap, List.mem_range,
    decide_eq_true_eq] at he
  obtain ⟨op, ⟨⟨i, hi, nd, hnd, hop⟩, hopa⟩, hsnd⟩ := he
  have hmem := (mem_nearestOrder m i nd).mp (List.mem_of_mem_take hnd)
  simp only [knnOps, List.mem_cons, List.mem_singleton, List.not_mem_nil, or_false] at hop
  rcases hop with rfl | rfl
  · simp only at hopa hsnd
    subst hopa
    simp only [Edge.mk.injEq] at hsnd
    obtain ⟨rfl, rfl⟩ := hsnd
    exact ⟨ha, hmem.1, fun h => hmem.2.1 h.symm, Or.inl hmem.2.2⟩
  · simp only at hopa hsnd
    subst hopa
    simp only [Edge.mk.injEq] at hsnd
    obtain ⟨rfl, rfl⟩ := hsnd
    exact ⟨ha, hi, hmem.2.1, Or.inr hmem.2.2⟩

/-- Every edge of the graph of the full branch joins two distinct nodes in
range and carries the matrix entry above the diagonal for the pair. -/
theorem full_edge_weight (m : Matrix α) (a j : Nat) (w : α)
    (he : HasEdge (buildFull m) a j w) :
    a < m.length ∧ j < m.length ∧ a ≠ j ∧ matrixEntry m (min a j) (max a j) = some w := by
  obtain ⟨-, hspec⟩ := buildFull_spec m
  obtain ⟨es, hes, hmem⟩ := he
  have ha : a < m.length := by
    have := (List.getElem?_eq_some_iff.mp hes).1
    rw [(buildFull_spec m).1] at this
    exact this
  obtain ⟨es', hes', -, hr, hup, hdown⟩ := hspec a ha
  rw [hes] at hes'
  cases hes'
  have hne := hr _ hmem
  simp only at hne
  refine ⟨ha, hne.2, fun h => hne.1 h.symm, ?_⟩
  rcases Nat.lt_or_gt_of_ne hne.1 with h | h
  · rw [Nat.min_eq_right (le_of_lt h), Nat.max_eq_left (le_of_lt h)]
    exact (hdown j w h).mp hmem
  · rw [Nat.min_eq_left (le_of_lt h), Nat.max_eq_right (le_of_lt h)]
    exact (hup j w h hne.2).mp hmem

theorem full_edge_of_entry (m : Matrix α) (a j : Nat) (w : α) (ha : a < m.length)
    (hj : j < m.length) (hne : a ≠ j) (hw : matrixEntry m (min a j) (max a j) = some w) :
    HasEdge (buildFull m) a j w := by
  obtain ⟨-, hspec⟩ := buildFull_spec m
  obtain ⟨es, hes, -, -, hup, hdown⟩ := hspec a ha
  refine ⟨es, hes, ?_⟩
  rcases Nat.lt_or_gt_of_ne hne with h | h
  · rw [Nat.min_eq_left (le_of_lt h), Nat.max_eq_right (le_of_lt h)] at hw
    exact (hup j w h hj).mpr hw
  · rw [Nat.min_eq_right (le_of_lt h), Nat.max_eq_left (le_of_lt h)] at hw
    exact (hdown j w h).mpr hw

theorem length_of_build (m : Matrix α) (g : GraphType) (k : Option Int) (adj : Adjacency α)
    (h : buildAdjacencyListFromMatrix m g k = some adj) : adj.length = m.length := by
  cases g with
  | knn =>
    obtain ⟨-, rfl⟩ := buildKnn_eq_some m k adj h
    rw [length_pushAll, List.length_replicate]
  | full =>
    have : adj = buildFull m := (Option.some.inj h).symm
    rw [this]
    exact (buildFull_spec m).1

/-- Under either policy every edge of the graph returned by the builder joins
two distinct nodes in range and carries the matrix entry of the pair in one of
the two directions. -/
theorem build_edge_weight (m : Matrix α) (g : GraphType) (k : Option Int)
    (adj : Adjacency α) (h : buildAdjacencyListFromMatrix m g k = some adj)
    (a j : Nat) (w : α) (he : HasEdge adj a j w) :
    a < m.length ∧ j < m.length ∧ a ≠ j ∧
      (matrixEntry m a j = some w ∨ matrixEntry m j a = some w) := by
  cases g with
  | knn => exact knn_edge_weight m k adj h a j w he
  | full =>
    have : adj = buildFull m := (Option.some.inj h).symm
    subst this
    obtain ⟨h1, h2, h3, h4⟩ := full_edge_weight m a j w he
    refine ⟨h1, h2, h3, ?_⟩
    rcases Nat.lt_or_gt_of_ne h3 with hlt | hlt
    · rw [Nat.min_eq_left (le_of_lt hlt), Nat.max_eq_right (le_of_lt hlt)] at h4
      exact Or.inl h4
    · rw [Nat.min_eq_right (le_of_lt hlt), Nat.max_eq_left (le_of_lt hlt)] at h4
      exact Or.inr h4

theorem nonNegative_of_matrix (m : Matrix α) (g : GraphType) (k : Option Int)
    (adj : Adjacency α) (h : buildAdjacencyListFromMatrix m g k = some adj)
    (hnn : ∀ i j w, matrixEntry m i j = some w → 0 ≤ w) : NonNegative adj := by
  intro es hes e he
  obtain ⟨i, hi, rfl⟩ := List.getElem_of_mem hes
  have hedge : HasEdge adj i e.node e.weight := ⟨_, List.getElem?_eq_getElem hi, he⟩
  obtain ⟨-, -, -, hw | hw⟩ := build_edge_weight m g k adj h i e.node e.weight hedge
  · exact hnn _ _ _ hw
  · exact hnn _ _ _ hw

end BuilderEdges

section ReportedDistance
variable {α : Type} [LinearOrderedAddCommGroup α]

/-- Along a walk each of whose edges carries the matrix entry of its pair, the
loop of the handler adds up the weight of the walk. -/
theorem totalDistanceLoop_walk (m : Matrix α) (adj : Adjacency α)
    (hw : ∀ a j w, HasEdge adj a j w → matrixEntry m a j = some w) :
    ∀ (es : List (Edge α)) (s e : Nat) (t : α), IsWalk adj s es e →
      totalDistanceLoop m (some t) (s :: es.map Edge.node) = some (t + walkWeight es) := by
  intro es
  induction es with
  | nil =>
    intro s e t _
    simp [totalDistanceLoop, walkWeight]
  | cons a es ih =>
    intro s e t hwalk
    have hedge : HasEdge adj s a.node a.weight :=
      (hasEdge_iff_mem_edgesOf adj s a.node a.weight).mpr hwalk.1
    have h := hw s a.node a.weight hedge
    simp only [List.map_cons, totalDistanceLoop, h]
    rw [ih a.node e (t + a.weight) hwalk.2]
    simp [walkWeight, add_assoc]

/-- An element read at an index is a member of the list. -/
theorem mem_of_getElem?_some {β : Type} (l : List β) (i : Nat) (x : β)
    (h : l[i]? = some x) : x ∈ l := by
  obtain ⟨hi, hx⟩ := List.getElem?_eq_some_iff.mp h
  rw [← hx]
  exact List.getElem_mem hi

/-- An entry read from the matrix is an element of one of its rows. -/
theorem matrixEntry_mem (m : Matrix α) (i j : Nat) (w : α)
    (h : matrixEntry m i j = some w) : ∃ row ∈ m, some w ∈ row := by
  unfold matrixEntry at h
  cases hr : m[i]? with
  | none => rw [hr] at h; cases h
  | some row =>
    rw [hr] at h
    simp only at h
    cases hx : row[j]? with
    | none => rw [hx] at h; cases h
    | some x =>
      rw [hx] at h
      simp only at h
      subst h
      exact ⟨row, mem_of_getElem?_some _ _ _ hr, mem_of_getElem?_some _ _ _ hx⟩

/-- Reading outside a square matrix gives nothing. -/
theorem matrixEntry_out (m : Matrix α) (hsq : ∀ row ∈ m, row.length = m.length)
    (i j : Nat) (h : m.length ≤ i ∨ m.length ≤ j) : matrixEntry m i j = none := by
  unfold matrixEntry
  cases hr : m[i]? with
  | none => rfl
  | some row =>
    simp only
    have hmem : row ∈ m := mem_of_getElem?_some _ _ _ hr
    have hi : i < m.length := (List.getElem?_eq_some_iff.mp hr).1
    have hj : m.length ≤ j := by omega
    rw [List.getElem?_eq_none_iff.mpr (by rw [hsq row hmem]; exact hj)]

/-- A square matrix that is symmetric inside its bounds is symmetric everywhere. -/
theorem matrixEntry_symm (m : Matrix α) (hsq : ∀ row ∈ m, row.length = m.length)
    (hsym : ∀ i, i < m.length → ∀ j, j < m.length → matrixEntry m i j = matrixEntry m j i)
    (i j : Nat) : matrixEntry m i j = matrixEntry m j i := by
  by_cases hi : i < m.length
  · by_cases hj : j < m.length
    · exact hsym i hi j hj
    · rw [matrixEntry_out m hsq i j (by omega), matrixEntry_out m hsq j i (by omega)]
  · rw [matrixEntry_out m hsq i j (by omega), matrixEntry_out m hsq j i (by omega)]

/-- C21, amended. For a symmetric distance matrix with non-negative entries,
under either connectivity policy, when the builder returns a graph and the search
returns a path, the sum of `distanceMatrix[from][to]` over the consecutive nodes
of the path is the distance returned by the search; so the two are equal after
any rounding. -/
theorem reported_distance_symmetric (m : Matrix α) (g : GraphType) (k : Option Int)
    (adj : Adjacency α) (hbuild : buildAdjacencyListFromMatrix m g k = some adj)
    (hsym : ∀ i j, matrixEntry m i j = matrixEntry m j i)
    (hnn : ∀ i j w, matrixEntry m i j = some w → 0 ≤ w)
    (s e : Nat) (hs : s < m.length) (he : e < m.length) (r : DijkstraResult α)
    (hr : dijkstra adj s e = Outcome.done r) (hpath : r.path ≠ [])
    (toFixed3 : α → α) :
    totalDistance m r.path = r.distance ∧
    (totalDistance m r.path).map toFixed3 = r.distance.map toFixed3 := by
  have hlen := length_of_build m g k adj hbuild
  have hadjnn := nonNegative_of_matrix m g k adj hbuild hnn
  obtain ⟨es, hwalk, hp, hd⟩ : ∃ es, IsWalk adj s es e ∧ r.path = s :: es.map Edge.node ∧
      r.distance = some (walkWeight es) := by
    obtain ⟨st, -, -, ⟨-, -, hd⟩ | ⟨-, es, hw, -, -, -, hd⟩⟩ := dijkstra_spec adj hadjnn s e
      (by rw [hlen]; exact hs) (by rw [hlen]; exact he)
    · rw [hd] at hr
      cases hr
      exact absurd rfl hpath
    · rw [hd] at hr
      cases hr
      exact ⟨es, hw, rfl, rfl⟩
  have hw : ∀ a j w, HasEdge adj a j w → matrixEntry m a j = some w := by
    intro a j w hedge
    obtain ⟨-, -, -, h | h⟩ := build_edge_weight m g k adj hbuild a j w hedge
    · exact h
    · rw [hsym]; exact h
  have h1 : totalDistance m r.path = r.distance := by
    unfold totalDistance
    rw [hp, hd, totalDistanceLoop_walk m adj hw es s e 0 hwalk, zero_add]
  exact ⟨h1, by rw [h1]⟩

/-- The triangle with sides 3, 4, 5, full policy, from 0 to 2: the sum along the
path is the distance of the search. -/
theorem reported_distance_symmetric_witness :
    totalDistance ([[some 0, some 3, some 5], [some 3, some 0, some 4],
      [some 5, some 4, some 0]] : Matrix Int) [0, 2] = some 5 :=
  (reported_distance_symmetric
    ([[some 0, some 3, some 5], [some 3, some 0, some 4], [some 5, some 4, some 0]] :
      Matrix Int) GraphType.full none _ rfl
    (matrixEntry_symm _ (by decide) (by decide))
    (fun i j w h => by
      obtain ⟨row, hr, hx⟩ := matrixEntry_mem _ i j w h
      exact (by decide : ∀ row ∈ ([[some 0, some 3, some 5], [some 3, some 0, some 4],
        [some 5, some 4, some 0]] : Matrix Int), ∀ x ∈ row, ∀ v ∈ x, (0 : Int) ≤ v)
        row hr _ hx w rfl)
    0 2 (by decide) (by decide)
    { distance := some 5, path := [0, 2],
      steps := [⟨0, 0, [0], 2, [⟨1, none, 3, none⟩, ⟨2, none, 5, none⟩]⟩,
        ⟨1, 3, [0, 1], 1, []⟩, ⟨2, 5, [0, 1, 2], 0, []⟩],
      metrics := some ⟨3, 3, 6, 6, 2, 1⟩ }
    (by decide) (by decide) id).1

/-- C21 as stated fails on an asymmetric matrix: three points in road mode with
`matrix[0][1] = matrix[1][2] = 1`, `matrix[0][2] = 10` above the diagonal and
`matrix[1][0] = matrix[2][1] = 5`, `matrix[2][0] = 10` below it, full policy,
from 2 to 0. The search returns the path `[2, 1, 0]` with distance 2 (the graph
is built from the entries above the diagonal), and the sum of
`distanceMatrix[from][to]` along that path is 10. -/
theorem reported_distance_asymmetric :
    buildAdjacencyListFromMatrix ([[some 0, some 1, some 10], [some 5, some 0, some 1],
        [some 10, some 5, some 0]] : Matrix Int) GraphType.full none
      = some [[⟨1, 1⟩, ⟨2, 10⟩], [⟨0, 1⟩, ⟨2, 1⟩], [⟨0, 10⟩, ⟨1, 1⟩]] ∧
    dijkstra ([[⟨1, 1⟩, ⟨2, 10⟩], [⟨0, 1⟩, ⟨2, 1⟩], [⟨0, 10⟩, ⟨1, 1⟩]] : Adjacency Int) 2 0
      = Outcome.done
        { distance := some 2, path := [2, 1, 0],
          steps := [⟨2, 0, [2], 2, [⟨0, none, 10, none⟩, ⟨1, none, 1, none⟩]⟩,
            ⟨1, 1, [2, 1], 2, [⟨0, some 10, 2, some 8⟩]⟩, ⟨0, 2, [2, 1, 0], 1, []⟩],
          metrics := some ⟨3, 3, 6, 7, 3, 2⟩ } ∧
    totalDistance ([[some 0, some 1, some 10], [some 5, some 0, some 1],
        [some 10, some 5, some 0]] : Matrix Int) [2, 1, 0] = some 10 := by
  decide

end ReportedDistance

section EdgeCount

/-- C26: two points at distance 1, KNN policy with `k = 1`. Each node pushes the
edge to its nearest neighbour in both directions, so both adjacency arrays hold
the same edge twice; `dijkstra` finds the path `[0, 1]`; `totalEdges` is
`4 / 2 = 2` while one unordered pair of nodes is joined, and the number
formatted as `graphDensity` is 200. -/
theorem knn_total_edges_counts_duplicates :
    buildAdjacencyListFromMatrix ([[some 0, some 1], [some 1, some 0]] : Matrix Int)
        GraphType.knn (some 1)
      = some [[⟨1, 1⟩, ⟨1, 1⟩], [⟨0, 1⟩, ⟨0, 1⟩]] ∧
    dijkstra ([[⟨1, 1⟩, ⟨1, 1⟩], [⟨0, 1⟩, ⟨0, 1⟩]] : Adjacency Int) 0 1
      = Outcome.done
        { distance := some 1, path := [0, 1],
          steps := [⟨0, 0, [0], 1, [⟨1, none, 1, none⟩]⟩, ⟨1, 1, [0, 1], 0, []⟩],
          metrics := some ⟨2, 2, 4, 4, 2, 1⟩ } ∧
    totalEdges ([[⟨1, 1⟩, ⟨1, 1⟩], [⟨0, 1⟩, ⟨0, 1⟩]] : Adjacency Int) = 2 ∧
    (joinedPairs ([[⟨1, 1⟩, ⟨1, 1⟩], [⟨0, 1⟩, ⟨0, 1⟩]] : Adjacency Int)).length = 1 ∧
    graphDensity ([[⟨1, 1⟩, ⟨1, 1⟩], [⟨0, 1⟩, ⟨0, 1⟩]] : Adjacency Int) = 200 := by
  refine ⟨by decide, by decide, ?_, by decide, ?_⟩
  · simp [totalEdges, totalEntries]
    norm_num
  · simp [graphDensity, totalEdges, totalEntries]
    norm_num

end EdgeCount

section DirectEdge
variable {α : Type} [LinearOrderedAddCommGroup α]

/-- In the full graph of a symmetric matrix an edge carries the entry of its pair. -/
theorem full_edge_entry (m : Matrix α)
    (hsym : ∀ i, i < m.length → ∀ j, j < m.length → matrixEntry m i j = matrixEntry m j i)
    (a j : Nat) (w : α) (he : HasEdge (buildFull m) a j w) :
    a < m.length ∧ j < m.length ∧ a ≠ j ∧ matrixEntry m a j = some w := by
  obtain ⟨h1, h2, h3, h4⟩ := full_edge_weight m a j w he
  refine ⟨h1, h2, h3, ?_⟩
  rcases Nat.lt_or_gt_of_ne h3 with h | h
  · rwa [Nat.min_eq_left (le_of_lt h), Nat.max_eq_right (le_of_lt h)] at h4
  · rw [Nat.min_eq_right (le_of_lt h), Nat.max_eq_left (le_of_lt h)] at h4
    rw [hsym a h1 j h2]
    exact h4

/-- In the full graph of a symmetric matrix every finite entry off the diagonal
is an edge. -/
theorem full_entry_edge (m : Matrix α)
    (hsym : ∀ i, i < m.length → ∀ j, j < m.length → matrixEntry m i j = matrixEntry m j i)
    (a j : Nat) (w : α) (ha : a < m.length) (hj : j < m.length) (hne : a ≠ j)
    (hw : matrixEntry m a j = some w) : HasEdge (buildFull m) a j w := by
  apply full_edge_of_entry m a j w ha hj hne
  rcases Nat.lt_or_gt_of_ne hne with h | h
  · rwa [Nat.min_eq_left (le_of_lt h), Nat.max_eq_right (le_of_lt h)]
  · rw [Nat.min_eq_right (le_of_lt h), Nat.max_eq_left (le_of_lt h), hsym j hj a ha]
    exact hw

/-- Under the triangle inequality no walk of the full graph is shorter than the
entry of its two ends. -/
theorem walk_ge_entry (m : Matrix α)
    (hfin : ∀ i, i < m.length → ∀ j, j < m.length → (matrixEntry m i j).isSome)
    (hsym : ∀ i, i < m.length → ∀ j, j < m.length → matrixEntry m i j = matrixEntry m j i)
    (htri : ∀ a, a < m.length → ∀ b, b < m.length → ∀ c, c < m.length →
      ∀ x ∈ matrixEntry m a c, ∀ y ∈ matrixEntry m a b, ∀ z ∈ matrixEntry m b c, x ≤ y + z) :
    ∀ (es : List (Edge α)) (a b : Nat), es ≠ [] → b < m.length →
      IsWalk (buildFull m) a es b → ∃ x, matrixEntry m a b = some x ∧ x ≤ walkWeight es := by
  intro es
  induction es with
  | nil => intro a b h; exact absurd rfl h
  | cons x rest ih =>
    intro a b _ hb hwalk
    obtain ⟨ha, hx, -, hax⟩ := full_edge_entry m hsym a x.node x.weight
      ((hasEdge_iff_mem_edgesOf _ _ _ _).mpr hwalk.1)
    cases rest with
    | nil =>
      have hxb : x.node = b := hwalk.2
      rw [← hxb]
      exact ⟨x.weight, hax, by rw [walkWeight_singleton]⟩
    | cons y rest =>
      obtain ⟨z, hz, hzle⟩ := ih x.node b (by simp) hb hwalk.2
      obtain ⟨c, hc⟩ := Option.isSome_iff_exists.mp (hfin a ha b hb)
      refine ⟨c, hc, ?_⟩
      have h1 := htri a ha x.node hx b hb c hc x.weight hax z hz
      have h2 : walkWeight (x :: y :: rest) = x.weight + walkWeight (y :: rest) := by
        simp [walkWeight]
      rw [h2]
      exact le_trans h1 (add_le_add_left hzle _)

/-- C19. For a symmetric all-finite matrix with non-negative entries that
satisfies the triangle inequality, and `start ≠ end`, the search over the
full-policy graph returns the direct edge: `path = [start, end]` and
`distance = matrix[start][end]`. -/
theorem triangle_inequality_direct_edge (m : Matrix α) (k : Option Int) (adj : Adjacency α)
    (hbuild : buildAdjacencyListFromMatrix m GraphType.full k = some adj)
    (hfin : ∀ i, i < m.length → ∀ j, j < m.length → (matrixEntry m i j).isSome)
    (hsym : ∀ i, i < m.length → ∀ j, j < m.length → matrixEntry m i j = matrixEntry m j i)
    (hnn : ∀ i, i < m.length → ∀ j, j < m.length → ∀ w ∈ matrixEntry m i j, 0 ≤ w)
    (htri : ∀ a, a < m.length → ∀ b, b < m.length → ∀ c, c < m.length →
      ∀ x ∈ matrixEntry m a c, ∀ y ∈ matrixEntry m a b, ∀ z ∈ matrixEntry m b c, x ≤ y + z)
    (s e : Nat) (hs : s < m.length) (he : e < m.length) (hne : s ≠ e) :
    ∃ w steps metrics, matrixEntry m s e = some w ∧
      dijkstra adj s e = Outcome.done
        { distance := some w, path := [s, e], steps := steps, metrics := some metrics } := by
  have hadj : adj = buildFull m := (Option.some.inj hbuild).symm
  subst hadj
  have hlen : (buildFull m).length = m.length := length_of_build m _ k _ hbuild
  have hadjnn : NonNegative (buildFull m) := by
    intro es hes x hx
    obtain ⟨i, hi, rfl⟩ := List.getElem_of_mem hes
    obtain ⟨h1, h2, -, h4⟩ := full_edge_entry m hsym i x.node x.weight
      ⟨_, List.getElem?_eq_getElem hi, hx⟩
    exact hnn i h1 x.node h2 x.weight h4
  obtain ⟨w, hw⟩ := Option.isSome_iff_exists.mp (hfin s hs e he)
  have hedge : (⟨e, w⟩ : Edge α) ∈ edgesOf (buildFull m) s :=
    (hasEdge_iff_mem_edgesOf _ _ _ _).mp (full_entry_edge m hsym s e w hs he hne hw)
  have hdirect : IsWalk (buildFull m) s [⟨e, w⟩] e := ⟨hedge, rfl⟩
  obtain ⟨st, hloop, inv, hcase⟩ := dijkstra_spec (buildFull m) hadjnn s e
    (by rw [hlen]; exact hs) (by rw [hlen]; exact he)
  rcases hcase with ⟨-, hno, -⟩ | ⟨hlast, es, hwalk, hmin, -, hdist, -⟩
  · exact absurd hdirect (hno _)
  have hes : es ≠ [] := by
    intro h
    rw [h] at hwalk
    exact hne hwalk
  obtain ⟨x, hx, hxle⟩ := walk_ge_entry m hfin hsym htri es s e hes he hwalk
  have hxw : x = w := Option.some.inj (hx.symm.trans hw)
  subst hxw
  have hle := hmin _ hdirect
  rw [walkWeight_singleton] at hle
  have hweight : walkWeight es = x := le_antisymm hle hxle
  rw [hweight] at hdist
  have heV : e ∈ st.visited := List.mem_of_mem_getLast? hlast
  have hhead : st.visited.head? = some s := by
    rcases inv.startFirst with ⟨h, -⟩ | h
    · rw [h] at heV
      cases heV
    · exact h
  have hprev : readPrevious st.previous e = some s := by
    cases hp : readPrevious st.previous e with
    | none =>
      rw [inv.core.prevNone e (Ne.symm hne) hp] at hdist
      cases hdist
    | some p =>
      by_cases hps : p = s
      · rw [hps]
      · exfalso
        obtain ⟨hpV, -⟩ := inv.core.prevInv e p hp
        obtain ⟨V, hV⟩ : ∃ V, st.visited = s :: V := by
          cases hvis : st.visited with
          | nil => rw [hvis] at heV; cases heV
          | cons a V =>
            rw [hvis] at hhead
            exact ⟨V, by rw [Option.some.inj hhead]⟩
        have hidx : st.visited.indexOf s < st.visited.indexOf p := by
          rw [hV, List.indexOf_cons_self, List.indexOf_cons_ne _ (Ne.symm hps)]
          exact Nat.succ_pos _
        have hsV : s ∈ st.visited := by rw [hV]; exact List.mem_cons_self _ _
        have := inv.core.firstPred e p hp s hsV hidx ⟨e, x⟩ hedge rfl 0 x
          inv.core.startD hdist
        rw [zero_add] at this
        exact lt_irrefl _ this
  have hslt : s < st.previous.length := by rw [inv.core.lenP, hlen]; exact hs
  have hgets : st.previous[s]? = some none := by
    have hp := inv.core.startP
    unfold readPrevious at hp
    rw [List.getElem?_eq_getElem hslt] at hp ⊢
    simp only at hp
    rw [hp]
  have hn : ∃ f, (buildFull m).length = f + 2 := ⟨m.length - 2, by rw [hlen]; omega⟩
  obtain ⟨f, hf⟩ := hn
  have hwb : walkBack st.previous (buildFull m).length (some e) [] = Outcome.done [s, e] := by
    rw [hf, walkBack, readPrevious_eq_some.mp hprev]
    simp only
    rw [walkBack, hgets]
    simp [walkBack]
  have hdij : dijkstra (buildFull m) s e = finish (buildFull m) s e st := by
    unfold dijkstra
    rw [hloop]
  rw [hdij, finish_of_path _ s e st [s, e] hwb, hdist]
  rw [if_neg (by simp)]
  exact ⟨x, _, _, hw, rfl⟩

/-- The triangle with sides 3, 4, 5 from 0 to 2: the path is `[0, 2]` with
distance 5, not the two-hop route of cost 7. -/
theorem triangle_inequality_direct_edge_witness :
    ∃ w steps metrics,
      matrixEntry ([[some 0, some 3, some 5], [some 3, some 0, some 4],
        [some 5, some 4, some 0]] : Matrix Int) 0 2 = some w ∧
      dijkstra ([[⟨1, 3⟩, ⟨2, 5⟩], [⟨0, 3⟩, ⟨2, 4⟩], [⟨0, 5⟩, ⟨1, 4⟩]] : Adjacency Int) 0 2
        = Outcome.done
          { distance := some w, path := [0, 2], steps := steps, metrics := some metrics } :=
  triangle_inequality_direct_edge
    ([[some 0, some 3, some 5], [some 3, some 0, some 4], [some 5, some 4, some 0]] :
      Matrix Int) none _ rfl (by decide) (by decide) (by decide) (by decide)
    0 2 (by decide) (by decide) (by decide)

end DirectEdge

section Chain

theorem length_chainMatrix (n : Nat) : (chainMatrix n).length = n := by
  simp [chainMatrix]

theorem matrixEntry_chain (n i j : Nat) (hi : i < n) (hj : j < n) :
    matrixEntry (chainMatrix n) i j = some |(i : Int) - (j : Int)| := by
  unfold matrixEntry chainMatrix
  simp [List.getElem?_map, List.getElem?_range, hi, hj]

theorem chainNearest_mem (n i : Nat) (hn : 2 ≤ n) (hi : i < n) :
    chainNearest i ∈ nearestOrder (chainMatrix n) i := by
  rw [mem_nearestOrder, length_chainMatrix]
  unfold chainNearest
  by_cases h0 : i = 0
  · subst h0
    simp only [if_true]
    refine ⟨by omega, by omega, ?_⟩
    rw [matrixEntry_chain n 0 1 hi (by omega)]
    simp
  · simp only [if_neg h0]
    refine ⟨by omega, by omega, ?_⟩
    rw [matrixEntry_chain n i (i - 1) hi (by omega)]
    congr 1
    rw [abs_eq (by norm_num)]
    left
    omega

theorem take_nearestOrder_chain (n i : Nat) (hn : 2 ≤ n) (hi : i < n) :
    (nearestOrder (chainMatrix n) i).take 1 = [chainNearest i] := by
  have hmem := chainNearest_mem n i hn hi
  have hsorted : (nearestOrder (chainMatrix n) i).Pairwise NearerOrEq := by
    haveI : IsTotal (NodeDist Int) NearerOrEq := ⟨nearerOrEq_total⟩
    haveI : IsTrans (NodeDist Int) NearerOrEq := ⟨fun _ _ _ => nearerOrEq_trans⟩
    exact List.sorted_insertionSort _ _
  cases hno : nearestOrder (chainMatrix n) i with
  | nil => rw [hno] at hmem; cases hmem
  | cons h rest =>
    have hh : h ∈ nearestOrder (chainMatrix n) i := by rw [hno]; exact List.mem_cons_self _ _
    rw [mem_nearestOrder, length_chainMatrix] at hh
    obtain ⟨hlt, hne, hd⟩ := hh
    rw [matrixEntry_chain n i h.node hi hlt] at hd
    have hd' : h.dist = |(i : Int) - (h.node : Int)| := (Option.some.inj hd).symm
    have hle : NearerOrEq h (chainNearest i) := by
      rw [hno] at hmem hsorted
      rcases List.mem_cons.mp hmem with heq | hrest
      · rw [heq]
        exact Or.inr ⟨rfl, le_refl _⟩
      · exact (List.pairwise_cons.mp hsorted).1 _ hrest
    have hge : 1 ≤ h.dist := by
      rw [hd']
      rcases le_or_lt (i : Int) h.node with h1 | h1
      · rw [abs_of_nonpos (by omega)]; omega
      · rw [abs_of_pos (by omega)]; omega
    simp only [List.take_succ_cons, List.take_zero]
    unfold NearerOrEq chainNearest at hle
    simp only at hle
    rcases hle with hlt1 | ⟨heq, hnode⟩
    · omega
    · have hnode_eq : h.node = if i = 0 then 1 else i - 1 := by
        by_cases h0 : i = 0
        · rw [if_pos h0] at hnode ⊢
          omega
        · rw [if_neg h0] at hnode ⊢
          rw [hd'] at heq
          rcases le_or_lt (i : Int) h.node with h1 | h1
          · omega
          · rw [abs_of_pos (by omega)] at heq; omega
      unfold chainNearest
      cases h with
      | mk node dist =>
        simp only at hnode_eq heq
        rw [hnode_eq, heq]

theorem knnNeighbors_one (n : Nat) : knnNeighbors (some 1) n = 1 := by
  simp only [knnNeighbors, kOrDefault]
  norm_num

/-- The graph built for the chain under the KNN policy with `k = 1` has exactly
the edges between consecutive nodes, each of weight 1. -/
theorem chain_edges (n : Nat) (hn : 2 ≤ n) :
    ∃ adj, buildAdjacencyListFromMatrix (chainMatrix n) GraphType.knn (some 1) = some adj ∧
      adj.length = n ∧
      ∀ a j w, HasEdge adj a j w ↔ (a < n ∧ j < n ∧ (j = a + 1 ∨ a = j + 1) ∧ w = 1) := by
  have hk : (knnNeighbors (some 1) (chainMatrix n).length).toNat = 1 := by
    rw [length_chainMatrix, knnNeighbors_one n]
    rfl
  have henough : ∀ i, i < (chainMatrix n).length →
      (knnNeighbors (some 1) (chainMatrix n).length).toNat
        ≤ (knnCandidates (chainMatrix n) (chainMatrix n).length i).length := by
    intro i hi
    rw [hk, ← length_nearestOrder]
    rw [length_chainMatrix] at hi
    exact List.length_pos_of_mem (chainNearest_mem n i hn hi)
  refine ⟨_, buildKnn_of_enough (chainMatrix n) (some 1) henough, ?_, ?_⟩
  · rw [length_pushAll, List.length_replicate, length_chainMatrix]
  intro a j w
  rw [hk, length_chainMatrix, hasEdge_iff_mem_edgesOf]
  by_cases ha : a < n
  · rw [edgesOf_pushAll_replicate n _ a ha]
    simp only [List.mem_map, List.mem_filter, List.mem_flatMap, List.mem_range,
      decide_eq_true_eq]
    constructor
    · rintro ⟨op, ⟨⟨i, hi, nd, hnd, hop⟩, hopa⟩, hsnd⟩
      rw [take_nearestOrder_chain n i hn hi, List.mem_singleton] at hnd
      subst hnd
      unfold knnOps chainNearest at hop
      simp only [List.mem_cons, List.mem_singleton, List.not_mem_nil, or_false] at hop
      rcases hop with rfl | rfl
      · simp only at hopa hsnd
        cases hsnd
        subst hopa
        refine ⟨hi, ?_, ?_, rfl⟩
        · split_ifs <;> omega
        · split_ifs <;> omega
      · simp only at hopa hsnd
        cases hsnd
        refine ⟨ha, hi, ?_, rfl⟩
        split_ifs at hopa <;> omega
    · rintro ⟨-, hj, hadj, rfl⟩
      rcases hadj with h | h
      · refine ⟨(a, ⟨j, 1⟩), ⟨⟨j, hj, chainNearest j, ?_, ?_⟩, rfl⟩, rfl⟩
        · rw [take_nearestOrder_chain n j hn hj]
          exact List.mem_singleton_self _
        · unfold knnOps chainNearest
          have h0 : j ≠ 0 := by omega
          simp only [if_neg h0, List.mem_cons, List.mem_singleton]
          right
          left
          congr 1
          omega
      · refine ⟨(a, ⟨j, 1⟩), ⟨⟨a, ha, chainNearest a, ?_, ?_⟩, rfl⟩, rfl⟩
        · rw [take_nearestOrder_chain n a hn ha]
          exact List.mem_singleton_self _
        · unfold knnOps chainNearest
          have h0 : a ≠ 0 := by omega
          simp only [if_neg h0, List.mem_cons, List.mem_singleton]
          left
          congr 2
          omega
  · rw [edgesOf_of_length_le _ _ (by rw [length_pushAll, List.length_replicate]; omega)]
    simp only [List.not_mem_nil, false_iff]
    rintro ⟨h, -⟩
    exact ha h

/-- A walk over unit edges between consecutive nodes weighs its length, cannot
advance faster than one node per edge, and when it does advance that fast it
visits the nodes in ascending order. -/
theorem chain_walk (adj : Adjacency Int)
    (hedge : ∀ a j w, HasEdge adj a j w → (j = a + 1 ∨ a = j + 1) ∧ w = 1) :
    ∀ (es : List (Edge Int)) (a b : Nat), IsWalk adj a es b →
      walkWeight es = (es.length : Int) ∧ b ≤ a + es.length ∧
      (b = a + es.length → es.map Edge.node = List.range' (a + 1) es.length) := by
  intro es
  induction es with
  | nil =>
    intro a b h
    have hab : a = b := h
    subst hab
    simp [walkWeight]
  | cons x rest ih =>
    intro a b h
    obtain ⟨hstep, hw⟩ := hedge a x.node x.weight ((hasEdge_iff_mem_edgesOf _ _ _ _).mpr h.1)
    obtain ⟨h1, h2, h3⟩ := ih x.node b h.2
    have hweight : walkWeight (x :: rest) = x.weight + walkWeight rest := by
      simp [walkWeight]
    refine ⟨?_, ?_, ?_⟩
    · rw [hweight, h1, hw, List.length_cons]
      push_cast
      ring
    · rw [List.length_cons]
      omega
    · intro hb
      rw [List.length_cons] at hb
      have hx : x.node = a + 1 := by omega
      rw [List.map_cons, List.length_cons, List.range'_succ, h3 (by omega), hx]

theorem chain_walk_exists (adj : Adjacency Int) (n : Nat)
    (hedge : ∀ a j, a < n → j < n → j = a + 1 → HasEdge adj a j 1) :
    ∀ (l a : Nat), a + l < n →
      IsWalk adj a ((List.range' (a + 1) l).map fun j => (⟨j, 1⟩ : Edge Int)) (a + l) := by
  intro l
  induction l with
  | zero => intro a _; exact rfl
  | succ l ih =>
    intro a h
    rw [List.range'_succ, List.map_cons]
    refine ⟨(hasEdge_iff_mem_edgesOf _ _ _ _).mp (hedge a (a + 1) (by omega) (by omega) rfl), ?_⟩
    have := ih (a + 1) (by omega)
    rw [show a + 1 + l = a + (l + 1) by omega] at this
    exact this

/-- C20. For every `N ≥ 2` collinear equally spaced points, `matrix[i][j] = |i - j|`,
the KNN policy with `k = 1` builds exactly the chain (an edge from `a` to `j`
exactly when they are consecutive, of weight 1), and the search from node 0 to
node `N - 1` returns the path `[0, 1, ..., N - 1]` with distance `N - 1`. -/
theorem knn_chain_path (N : Nat) (hN : 2 ≤ N) :
    ∃ adj, buildAdjacencyListFromMatrix (chainMatrix N) GraphType.knn (some 1) = some adj ∧
      (∀ a j w, HasEdge adj a j w ↔ (a < N ∧ j < N ∧ (j = a + 1 ∨ a = j + 1) ∧ w = 1)) ∧
      ∃ steps metrics, dijkstra adj 0 (N - 1) = Outcome.done
        { distance := some ((N : Int) - 1), path := List.range N, steps := steps,
          metrics := some metrics } := by
  obtain ⟨adj, hbuild, hlen, hedges⟩ := chain_edges N hN
  refine ⟨adj, hbuild, hedges, ?_⟩
  have hnn : NonNegative adj := by
    intro es hes x hx
    obtain ⟨i, hi, rfl⟩ := List.getElem_of_mem hes
    have := (hedges i x.node x.weight).mp ⟨_, List.getElem?_eq_getElem hi, hx⟩
    rw [this.2.2.2]
    exact zero_le_one
  have hwalk0 := chain_walk_exists adj N
    (fun a j ha hj h => (hedges a j 1).mpr ⟨ha, hj, Or.inl h, rfl⟩) (N - 1) 0 (by omega)
  rw [Nat.zero_add (N - 1)] at hwalk0
  obtain ⟨st, -, -, hcase⟩ := dijkstra_spec adj hnn 0 (N - 1) (by omega) (by omega)
  rcases hcase with ⟨-, hno, -⟩ | ⟨-, es, hwalk, -, hshort, -, hd⟩
  · exact absurd hwalk0 (hno _)
  obtain ⟨h1, h2, h3⟩ := chain_walk adj
    (fun a j w h => ((hedges a j w).mp h).2.2) es 0 (N - 1) hwalk
  have hl : es.length = N - 1 := by omega
  have hnodes := h3 (by omega)
  rw [hd, h1, hnodes, hl]
  have hdist : ((N - 1 : Nat) : Int) = (N : Int) - 1 := by omega
  have hpath : 0 :: List.range' (0 + 1) (N - 1) = List.range N := by
    rw [List.range_eq_range']
    obtain ⟨m, rfl⟩ : ∃ m, N = m + 1 := ⟨N - 1, by omega⟩
    rw [List.range'_succ]
    simp
  rw [hdist, hpath]
  exact ⟨_, _, rfl⟩

/-- Four collinear points A, B, C, D: the path from A to D is A, B, C, D with
distance 3. -/
theorem knn_chain_path_witness :
    ∃ adj, buildAdjacencyListFromMatrix (chainMatrix 4) GraphType.knn (some 1) = some adj ∧
      (∀ a j w, HasEdge adj a j w ↔ (a < 4 ∧ j < 4 ∧ (j = a + 1 ∨ a = j + 1) ∧ w = 1)) ∧
      ∃ steps metrics, dijkstra adj 0 (4 - 1) = Outcome.done
        { distance := some (((4 : Nat) : Int) - 1), path := List.range 4, steps := steps,
          metrics := some metrics } :=
  knn_chain_path 4 (by decide)

end Chain

section Legs
variable {α : Type} [LinearOrderedAddCommGroup α]

/-- The result of one call of `dijkstra` on a graph with non-negative weights:
it returns, and a non-empty path is the node sequence of a lightest walk, with
no node repeated, whose weight is the distance returned. -/
theorem dijkstra_leg (adj : Adjacency α) (hnn : NonNegative adj) (s e : Nat)
    (hs : s < adj.length) (he : e < adj.length) :
    ∃ r, dijkstra adj s e = Outcome.done r ∧
      (r.path = [] ∨ ∃ es, IsWalk adj s es e ∧ r.path = s :: es.map Edge.node ∧
        r.distance = some (walkWeight es) ∧
        (∀ es', IsWalk adj s es' e → walkWeight es ≤ walkWeight es') ∧ r.path.Nodup) := by
  obtain ⟨st, hloop, inv, hcase⟩ := dijkstra_spec adj hnn s e hs he
  rcases hcase with ⟨-, -, hd⟩ | ⟨hlast, es, hw, hmin, -, -, hd⟩
  · exact ⟨_, hd, Or.inl rfl⟩
  refine ⟨_, hd, Or.inr ⟨es, hw, rfl, rfl, hmin, ?_⟩⟩
  have hVlen : st.visited.length ≤ adj.length :=
    length_le_of_nodup_lt _ _ inv.core.visNodup inv.core.visLt
  have heV : e ∈ st.visited := List.mem_of_mem_getLast? hlast
  have hidx : st.visited.indexOf e < st.visited.length := List.indexOf_lt_length.mpr heV
  obtain ⟨chain, hwb, hpw, -, -⟩ := walkBack_ranked inv.core (st.visited.length - 1) e heV
    (by omega) adj.length (by omega) []
  rw [List.append_nil] at hwb
  have hnodup : chain.Nodup := hpw.imp (fun h heq => by rw [heq] at h; exact lt_irrefl _ h)
  have hdij : dijkstra adj s e = finish adj s e st := by
    unfold dijkstra
    rw [hloop]
  rw [hdij, finish_of_path adj s e st chain hwb] at hd
  by_cases hh : chain.head? ≠ some s
  · rw [if_pos hh] at hd
    have := congrArg DijkstraResult.path (Outcome.done.inj hd)
    simp [noPath] at this
  · rw [if_neg hh] at hd
    have := congrArg DijkstraResult.path (Outcome.done.inj hd)
    simp only at this
    show (s :: es.map Edge.node).Nodup
    rw [← this]
    exact hnodup

/-- Sorting with the comparator `(a, b) => key(a) - key(b)` gives a list
ascending in `key`. -/
theorem sorted_sortInsert_key {β : Type} (key : β → α) (a : β) (l : List β)
    (hs : l.Pairwise fun x y => key x ≤ key y) :
    (sortInsert (fun x y => key x - key y) a l).Pairwise fun x y => key x ≤ key y := by
  induction l with
  | nil => simp [sortInsert]
  | cons b l ih =>
    rw [List.pairwise_cons] at hs
    unfold sortInsert
    by_cases h : 0 < key a - key b
    · rw [if_pos h, List.pairwise_cons]
      refine ⟨?_, ih hs.2⟩
      intro x hx
      rcases List.mem_cons.mp ((perm_sortInsert _ a l).subset hx) with hxa | hxl
      · rw [hxa]
        exact le_of_lt (sub_pos.mp h)
      · exact hs.1 x hxl
    · rw [if_neg h, List.pairwise_cons]
      have hab : key a ≤ key b := sub_nonpos.mp (not_lt.mp h)
      refine ⟨?_, List.pairwise_cons.mpr hs⟩
      intro x hx
      rcases List.mem_cons.mp hx with hxb | hxl
      · rw [hxb]; exact hab
      · exact le_trans hab (hs.1 x hxl)

theorem sorted_jsSort_key {β : Type} (key : β → α) (l : List β) :
    (jsSort (fun x y => key x - key y) l).Pairwise fun x y => key x ≤ key y := by
  induction l with
  | nil => simp [jsSort]
  | cons a l ih =>
    unfold jsSort
    exact sorted_sortInsert_key key a _ ih

/-- One iteration of the loop over the candidates: both searches return, and
either a leg has no path and nothing is pushed, or both legs are lightest walks
and the concatenation is pushed unless it is the optimal path. -/
theorem alternativeStep_spec (adj : Adjacency α) (hnn : NonNegative adj) (s e c : Nat)
    (hs : s < adj.length) (he : e < adj.length) (hc : c < adj.length)
    (toFixed3 : α → α) (resultPath : List Nat) (acc : List (Alternative α)) :
    ∃ r1 r2, dijkstra adj s c = Outcome.done r1 ∧ dijkstra adj c e = Outcome.done r2 ∧
      (((r1.path = [] ∨ r2.path = []) ∧
          alternativeStep adj toFixed3 resultPath s e acc c = Outcome.done acc) ∨
       ∃ es1 es2, IsWalk adj s es1 c ∧ IsWalk adj c es2 e ∧
          r1.path = s :: es1.map Edge.node ∧ r2.path = c :: es2.map Edge.node ∧
          r1.distance = some (walkWeight es1) ∧ r2.distance = some (walkWeight es2) ∧
          (∀ es', IsWalk adj s es' c → walkWeight es1 ≤ walkWeight es') ∧
          (∀ es', IsWalk adj c es' e → walkWeight es2 ≤ walkWeight es') ∧
          r1.path.Nodup ∧ r2.path.Nodup ∧
          alternativeStep adj toFixed3 resultPath s e acc c = Outcome.done
            (if r1.path ++ r2.path.drop 1 = resultPath then acc
             else acc ++ [⟨toFixed3 (walkWeight es1 + walkWeight es2),
               r1.path ++ r2.path.drop 1⟩])) := by
  obtain ⟨r1, h1, hr1⟩ := dijkstra_leg adj hnn s c hs hc
  obtain ⟨r2, h2, hr2⟩ := dijkstra_leg adj hnn c e hc he
  refine ⟨r1, r2, h1, h2, ?_⟩
  by_cases hempty : r1.path = [] ∨ r2.path = []
  · left
    refine ⟨hempty, ?_⟩
    unfold alternativeStep
    rw [h1, h2]
    simp only
    rw [if_neg (by
      rintro ⟨ha, hb⟩
      rcases hempty with h | h
      · exact ha h
      · exact hb h)]
  · right
    rw [not_or] at hempty
    rcases hr1 with h | ⟨es1, hw1, hp1, hd1, hm1, hn1⟩
    · exact absurd h hempty.1
    rcases hr2 with h | ⟨es2, hw2, hp2, hd2, hm2, hn2⟩
    · exact absurd h hempty.2
    refine ⟨es1, es2, hw1, hw2, hp1, hp2, hd1, hd2, hm1, hm2, hn1, hn2, ?_⟩
    unfold alternativeStep
    rw [h1, h2]
    simp only
    rw [if_pos hempty, hd1, hd2]
    simp only
    by_cases heq : r1.path ++ r2.path.drop 1 = resultPath
    · rw [if_neg (not_not.mpr heq), if_pos heq]
    · rw [if_pos heq, if_neg heq]

/-- The loop over the candidates returns, pushes at most one alternative per
candidate, and every alternative pushed differs from the optimal path and is
the concatenation of the two legs through one of the candidates. -/
theorem alternativesLoop_spec (adj : Adjacency α) (hnn : NonNegative adj) (s e : Nat)
    (hs : s < adj.length) (he : e < adj.length) (toFixed3 : α → α) (resultPath : List Nat) :
    ∀ (cs : List Nat), (∀ c ∈ cs, c < adj.length) → ∀ acc : List (Alternative α),
      ∃ new, alternativesLoop adj toFixed3 resultPath s e cs acc = Outcome.done (acc ++ new) ∧
        new.length ≤ cs.length ∧
        ∀ a ∈ new, a.waypoints ≠ resultPath ∧
          ∃ c ∈ cs, ∃ r1 r2, dijkstra adj s c = Outcome.done r1 ∧
            dijkstra adj c e = Outcome.done r2 ∧ r1.path ≠ [] ∧ r2.path ≠ [] ∧
            a.waypoints = r1.path ++ r2.path.drop 1 ∧
            ∃ d1 d2, r1.distance = some d1 ∧ r2.distance = some d2 ∧
              a.distance = toFixed3 (d1 + d2) := by
  intro cs
  induction cs with
  | nil =>
    intro _ acc
    exact ⟨[], by simp [alternativesLoop], le_refl _, fun a ha => by cases ha⟩
  | cons c cs ih =>
    intro hcs acc
    have hc : c < adj.length := hcs c (List.mem_cons_self _ _)
    have hcs' : ∀ x ∈ cs, x < adj.length := fun x hx => hcs x (List.mem_cons_of_mem _ hx)
    obtain ⟨r1, r2, h1, h2, hstep⟩ :=
      alternativeStep_spec adj hnn s e c hs he hc toFixed3 resultPath acc
    rcases hstep with ⟨-, hstep⟩ | ⟨es1, es2, -, -, hp1, hp2, hd1, hd2, -, -, -, -, hstep⟩
    · obtain ⟨new, hloop, hlen, hall⟩ := ih hcs' acc
      refine ⟨new, ?_, by rw [List.length_cons]; omega, ?_⟩
      · rw [alternativesLoop, hstep]
        exact hloop
      · intro a ha
        obtain ⟨hne, c', hc', rest⟩ := hall a ha
        exact ⟨hne, c', List.mem_cons_of_mem _ hc', rest⟩
    · by_cases heq : r1.path ++ r2.path.drop 1 = resultPath
      · rw [if_pos heq] at hstep
        obtain ⟨new, hloop, hlen, hall⟩ := ih hcs' acc
        refine ⟨new, ?_, by rw [List.length_cons]; omega, ?_⟩
        · rw [alternativesLoop, hstep]
          exact hloop
        · intro a ha
          obtain ⟨hne, c', hc', rest⟩ := hall a ha
          exact ⟨hne, c', List.mem_cons_of_mem _ hc', rest⟩
      · rw [if_neg heq] at hstep
        obtain ⟨new, hloop, hlen, hall⟩ := ih hcs'
          (acc ++ [⟨toFixed3 (walkWeight es1 + walkWeight es2), r1.path ++ r2.path.drop 1⟩])
        refine ⟨⟨toFixed3 (walkWeight es1 + walkWeight es2), r1.path ++ r2.path.drop 1⟩ :: new,
          ?_, by rw [List.length_cons, List.length_cons]; omega, ?_⟩
        · rw [alternativesLoop, hstep]
          simp only
          rw [hloop, List.append_assoc, List.singleton_append]
        · intro a ha
          rcases List.mem_cons.mp ha with rfl | ha
          · refine ⟨heq, c, List.mem_cons_self _ _, r1, r2, h1, h2, ?_, ?_, rfl,
              _, _, hd1, hd2, rfl⟩
            · rw [hp1]; exact List.cons_ne_nil _ _
            · rw [hp2]; exact List.cons_ne_nil _ _
          · obtain ⟨hne, c', hc', rest⟩ := hall a ha
            exact ⟨hne, c', List.mem_cons_of_mem _ hc', rest⟩

theorem mem_candidateWaypoints (n s e c : Nat) :
    c ∈ candidateWaypoints n s e ↔ c < n ∧ c ≠ s ∧ c ≠ e := by
  simp [candidateWaypoints]

theorem pairwise_candidateWaypoints (n s e : Nat) :
    (candidateWaypoints n s e).Pairwise (· < ·) :=
  List.Pairwise.filter _ (List.pairwise_lt_range n)

/-- The multi-waypoint branch returns a list sorted by distance, of at most
`min 3 (number of candidates)` alternatives, each different from the optimal
path and built from one of the first three candidates. -/
theorem multiWaypoint_spec (adj : Adjacency α) (hnn : NonNegative adj) (s e : Nat)
    (hs : s < adj.length) (he : e < adj.length) (toFixed3 : α → α) (resultPath : List Nat) :
    ∃ alts, multiWaypointAlternatives adj toFixed3 adj.length resultPath s e
        = Outcome.done alts ∧
      alts.length ≤ min 3 (candidateWaypoints adj.length s e).length ∧
      alts.Pairwise (fun a b => a.distance ≤ b.distance) ∧
      ∀ a ∈ alts, a.waypoints ≠ resultPath ∧
        ∃ c ∈ (candidateWaypoints adj.length s e).take 3, ∃ r1 r2,
          dijkstra adj s c = Outcome.done r1 ∧
          dijkstra adj c e = Outcome.done r2 ∧ r1.path ≠ [] ∧ r2.path ≠ [] ∧
          a.waypoints = r1.path ++ r2.path.drop 1 ∧
          ∃ d1 d2, r1.distance = some d1 ∧ r2.distance = some d2 ∧
            a.distance = toFixed3 (d1 + d2) := by
  have htake : (candidateWaypoints adj.length s e).take
      (min 3 (candidateWaypoints adj.length s e).length)
        = (candidateWaypoints adj.length s e).take 3 := by
    rw [List.take_eq_take]
    omega
  obtain ⟨new, hloop, hlen, hall⟩ := alternativesLoop_spec adj hnn s e hs he toFixed3 resultPath
    ((candidateWaypoints adj.length s e).take 3)
    (fun c hc => ((mem_candidateWaypoints _ _ _ _).mp (List.mem_of_mem_take hc)).1) []
  rw [List.nil_append] at hloop
  refine ⟨jsSort (fun a b => a.distance - b.distance) new, ?_, ?_, ?_, ?_⟩
  · unfold multiWaypointAlternatives
    simp only
    rw [htake, hloop]
  · rw [(perm_jsSort _ new).length_eq]
    rw [List.length_take] at hlen
    exact hlen
  · exact sorted_jsSort_key (fun a : Alternative α => a.distance) new
  · intro a ha
    exact hall a ((perm_jsSort _ new).subset ha)

end Legs

section MultiWaypoint
variable {α : Type} [LinearOrderedAddCommGroup α]

/-- C11. In the multi-waypoint branch (non-negative weights, valid start and
end), the list of alternatives is produced, and no alternative in it has a
node-index sequence equal to the node-index sequence of the optimal path. -/
theorem optimal_path_not_among_alternatives (adj : Adjacency α) (hnn : NonNegative adj)
    (s e : Nat) (hs : s < adj.length) (he : e < adj.length) (toFixed3 : α → α)
    (resultPath : List Nat) :
    ∃ alts, multiWaypointAlternatives adj toFixed3 adj.length resultPath s e
        = Outcome.done alts ∧
      ∀ a ∈ alts, a.waypoints ≠ resultPath := by
  obtain ⟨alts, h, -, -, hall⟩ := multiWaypoint_spec adj hnn s e hs he toFixed3 resultPath
  exact ⟨alts, h, fun a ha => (hall a ha).1⟩

/-- A fully connected graph of 5 nodes whose optimal path from 0 to 4 is
`[0, 2, 3, 4]`: the candidates 2 and 3 give that same sequence and are dropped. -/
theorem optimal_path_not_among_alternatives_witness :
    ∃ alts, multiWaypointAlternatives
        ([[⟨1, 2⟩, ⟨2, 4⟩, ⟨3, 7⟩, ⟨4, 12⟩], [⟨0, 2⟩, ⟨2, 3⟩, ⟨3, 5⟩, ⟨4, 8⟩],
          [⟨0, 4⟩, ⟨1, 3⟩, ⟨3, 2⟩, ⟨4, 6⟩], [⟨0, 7⟩, ⟨1, 5⟩, ⟨2, 2⟩, ⟨4, 3⟩],
          [⟨0, 12⟩, ⟨1, 8⟩, ⟨2, 6⟩, ⟨3, 3⟩]] : Adjacency Int) id 5 [0, 2, 3, 4] 0 4
        = Outcome.done alts ∧
      ∀ a ∈ alts, a.waypoints ≠ [0, 2, 3, 4] :=
  optimal_path_not_among_alternatives
    ([[⟨1, 2⟩, ⟨2, 4⟩, ⟨3, 7⟩, ⟨4, 12⟩], [⟨0, 2⟩, ⟨2, 3⟩, ⟨3, 5⟩, ⟨4, 8⟩],
      [⟨0, 4⟩, ⟨1, 3⟩, ⟨3, 2⟩, ⟨4, 6⟩], [⟨0, 7⟩, ⟨1, 5⟩, ⟨2, 2⟩, ⟨4, 3⟩],
      [⟨0, 12⟩, ⟨1, 8⟩, ⟨2, 6⟩, ⟨3, 3⟩]] : Adjacency Int)
    (by decide) 0 4 (by decide) (by decide) id [0, 2, 3, 4]

/-- C12. For a candidate `c` (non-negative weights, valid indices) both searches
return; when both legs have a path, the node sequence of the alternative is
`path(start→c)` followed by `path(c→end)` without its first element: it starts
at `start`, ends at `end`, holds `c` at the junction position and nowhere else,
every consecutive pair is a graph edge, and the distance pushed is the rounding
of `distance(start→c) + distance(c→end)`. -/
theorem alternative_joins_two_legs (adj : Adjacency α) (hnn : NonNegative adj)
    (s e c : Nat) (hs : s < adj.length) (he : e < adj.length) (hc : c < adj.length)
    (toFixed3 : α → α) (resultPath : List Nat) (acc : List (Alternative α)) :
    ∃ r1 r2, dijkstra adj s c = Outcome.done r1 ∧ dijkstra adj c e = Outcome.done r2 ∧
      (r1.path ≠ [] → r2.path ≠ [] →
        ∃ es1 es2, IsWalk adj s es1 c ∧ IsWalk adj c es2 e ∧
          r1.distance = some (walkWeight es1) ∧ r2.distance = some (walkWeight es2) ∧
          r1.path ++ r2.path.drop 1 = s :: (es1 ++ es2).map Edge.node ∧
          IsWalk adj s (es1 ++ es2) e ∧
          (r1.path ++ r2.path.drop 1).head? = some s ∧
          (r1.path ++ r2.path.drop 1).getLast? = some e ∧
          (r1.path ++ r2.path.drop 1)[r1.path.length - 1]? = some c ∧
          (r1.path ++ r2.path.drop 1).count c = 1 ∧
          alternativeStep adj toFixed3 resultPath s e acc c = Outcome.done
            (if r1.path ++ r2.path.drop 1 = resultPath then acc
             else acc ++ [⟨toFixed3 (walkWeight es1 + walkWeight es2),
               r1.path ++ r2.path.drop 1⟩])) := by
  obtain ⟨r1, r2, h1, h2, hstep⟩ :=
    alternativeStep_spec adj hnn s e c hs he hc toFixed3 resultPath acc
  refine ⟨r1, r2, h1, h2, ?_⟩
  intro hne1 hne2
  rcases hstep with ⟨h | h, -⟩ | ⟨es1, es2, hw1, hw2, hp1, hp2, hd1, hd2, -, -, hn1, hn2, hstep⟩
  · exact absurd h hne1
  · exact absurd h hne2
  have hpath : r1.path ++ r2.path.drop 1 = s :: (es1 ++ es2).map Edge.node := by
    rw [hp1, hp2]
    simp
  have hwalk := isWalk_append adj s c e es1 es2 hw1 hw2
  have hlast1 := getLast?_walk_nodes adj s c es1 hw1
  refine ⟨es1, es2, hw1, hw2, hd1, hd2, hpath, hwalk, ?_, ?_, ?_, ?_, hstep⟩
  · rw [hpath]; rfl
  · rw [hpath]
    exact getLast?_walk_nodes adj s e (es1 ++ es2) hwalk
  · rw [List.getElem?_append_left (by rw [hp1]; simp), ← List.getLast?_eq_getElem?, hp1]
    exact hlast1
  · rw [List.count_append]
    have hmem : c ∈ r1.path := by
      rw [hp1]
      exact List.mem_of_mem_getLast? hlast1
    have hnot : c ∉ r2.path.drop 1 := by
      rw [hp2] at hn2 ⊢
      exact (List.nodup_cons.mp hn2).1
    rw [List.count_eq_one_of_mem hn1 hmem, List.count_eq_zero_of_not_mem hnot]

/-- The 5-node graph, candidate 1 between start 0 and end 4. -/
theorem alternative_joins_two_legs_witness :
    ∃ r1 r2,
      dijkstra ([[⟨1, 2⟩, ⟨2, 4⟩, ⟨3, 7⟩, ⟨4, 12⟩], [⟨0, 2⟩, ⟨2, 3⟩, ⟨3, 5⟩, ⟨4, 8⟩],
          [⟨0, 4⟩, ⟨1, 3⟩, ⟨3, 2⟩, ⟨4, 6⟩], [⟨0, 7⟩, ⟨1, 5⟩, ⟨2, 2⟩, ⟨4, 3⟩],
          [⟨0, 12⟩, ⟨1, 8⟩, ⟨2, 6⟩, ⟨3, 3⟩]] : Adjacency Int) 0 1 = Outcome.done r1 ∧
      dijkstra ([[⟨1, 2⟩, ⟨2, 4⟩, ⟨3, 7⟩, ⟨4, 12⟩], [⟨0, 2⟩, ⟨2, 3⟩, ⟨3, 5⟩, ⟨4, 8⟩],
          [⟨0, 4⟩, ⟨1, 3⟩, ⟨3, 2⟩, ⟨4, 6⟩], [⟨0, 7⟩, ⟨1, 5⟩, ⟨2, 2⟩, ⟨4, 3⟩],
          [⟨0, 12⟩, ⟨1, 8⟩, ⟨2, 6⟩, ⟨3, 3⟩]] : Adjacency Int) 1 4 = Outcome.done r2 :=
  (alternative_joins_two_legs
    ([[⟨1, 2⟩, ⟨2, 4⟩, ⟨3, 7⟩, ⟨4, 12⟩], [⟨0, 2⟩, ⟨2, 3⟩, ⟨3, 5⟩, ⟨4, 8⟩],
      [⟨0, 4⟩, ⟨1, 3⟩, ⟨3, 2⟩, ⟨4, 6⟩], [⟨0, 7⟩, ⟨1, 5⟩, ⟨2, 2⟩, ⟨4, 3⟩],
      [⟨0, 12⟩, ⟨1, 8⟩, ⟨2, 6⟩, ⟨3, 3⟩]] : Adjacency Int)
    (by decide) 0 4 1 (by decide) (by decide) (by decide) id [0, 2, 3, 4] []).imp
    fun _ h => h.imp fun _ h' => ⟨h'.1, h'.2.1⟩

/-- C24. In the multi-waypoint branch (non-negative weights, valid start and
end) the list of alternatives has at most `min(3, number of nodes other than
start and end)` entries, each built from one of the first three candidates in
ascending index order, and it is sorted ascending by distance. -/
theorem alternatives_capped_and_sorted (adj : Adjacency α) (hnn : NonNegative adj)
    (s e : Nat) (hs : s < adj.length) (he : e < adj.length) (toFixed3 : α → α)
    (resultPath : List Nat) :
    (∀ c, c ∈ candidateWaypoints adj.length s e ↔ c < adj.length ∧ c ≠ s ∧ c ≠ e) ∧
    (candidateWaypoints adj.length s e).Pairwise (· < ·) ∧
    ∃ alts, multiWaypointAlternatives adj toFixed3 adj.length resultPath s e
        = Outcome.done alts ∧
      alts.length ≤ min 3 (candidateWaypoints adj.length s e).length ∧
      alts.Pairwise (fun a b => a.distance ≤ b.distance) ∧
      ∀ a ∈ alts, ∃ c ∈ (candidateWaypoints adj.length s e).take 3, ∃ r1 r2,
        dijkstra adj s c = Outcome.done r1 ∧ dijkstra adj c e = Outcome.done r2 ∧
        a.waypoints = r1.path ++ r2.path.drop 1 ∧
        ∃ d1 d2, r1.distance = some d1 ∧ r2.distance = some d2 ∧
          a.distance = toFixed3 (d1 + d2) := by
  refine ⟨fun c => mem_candidateWaypoints _ s e c, pairwise_candidateWaypoints _ s e, ?_⟩
  obtain ⟨alts, h, hlen, hsorted, hall⟩ :=
    multiWaypoint_spec adj hnn s e hs he toFixed3 resultPath
  refine ⟨alts, h, hlen, hsorted, ?_⟩
  intro a ha
  obtain ⟨-, c, hc, r1, r2, h1, h2, -, -, hw, hd⟩ := hall a ha
  exact ⟨c, hc, r1, r2, h1, h2, hw, hd⟩

/-- The 5-node graph from 0 to 4: at most 3 alternatives, sorted by distance. -/
theorem alternatives_capped_and_sorted_witness :
    ∃ alts, multiWaypointAlternatives
        ([[⟨1, 2⟩, ⟨2, 4⟩, ⟨3, 7⟩, ⟨4, 12⟩], [⟨0, 2⟩, ⟨2, 3⟩, ⟨3, 5⟩, ⟨4, 8⟩],
          [⟨0, 4⟩, ⟨1, 3⟩, ⟨3, 2⟩, ⟨4, 6⟩], [⟨0, 7⟩, ⟨1, 5⟩, ⟨2, 2⟩, ⟨4, 3⟩],
          [⟨0, 12⟩, ⟨1, 8⟩, ⟨2, 6⟩, ⟨3, 3⟩]] : Adjacency Int) id 5 [0, 4] 0 4
        = Outcome.done alts ∧
      alts.length ≤ 3 ∧ alts.Pairwise (fun a b => a.distance ≤ b.distance) := by
  obtain ⟨-, -, alts, h, hlen, hsorted, -⟩ := alternatives_capped_and_sorted
    ([[⟨1, 2⟩, ⟨2, 4⟩, ⟨3, 7⟩, ⟨4, 12⟩], [⟨0, 2⟩, ⟨2, 3⟩, ⟨3, 5⟩, ⟨4, 8⟩],
      [⟨0, 4⟩, ⟨1, 3⟩, ⟨3, 2⟩, ⟨4, 6⟩], [⟨0, 7⟩, ⟨1, 5⟩, ⟨2, 2⟩, ⟨4, 3⟩],
      [⟨0, 12⟩, ⟨1, 8⟩, ⟨2, 6⟩, ⟨3, 3⟩]] : Adjacency Int)
    (by decide) 0 4 (by decide) (by decide) id [0, 4]
  exact ⟨alts, h, le_trans hlen (min_le_left _ _), hsorted⟩

end MultiWaypoint

section DirectTripClaims
variable {α : Type} [LinearOrderedField α]

/-- On a list ascending in `key`, keeping the elements with `key ≤ bound` and
truncating commute: the elements kept form a prefix. -/
theorem filter_take_of_sorted {β : Type} (key : β → α) (bound : α) :
    ∀ (l : List β) (n : Nat), l.Pairwise (fun x y => key x ≤ key y) →
      (l.take n).filter (fun x => key x ≤ bound) = (l.filter fun x => key x ≤ bound).take n := by
  intro l
  induction l with
  | nil => intro n _; simp
  | cons x xs ih =>
    intro n hs
    rw [List.pairwise_cons] at hs
    cases n with
    | zero => simp
    | succ n =>
      by_cases hx : key x ≤ bound
      · simp only [List.take_succ_cons, List.filter_cons, hx, decide_True, if_true]
        rw [ih n hs.2]
      · have hnone : ∀ l' : List β, (∀ y ∈ l', y ∈ xs) →
            l'.filter (fun x => key x ≤ bound) = [] := by
          intro l' hl'
          rw [List.filter_eq_nil_iff]
          intro y hy
          have := hs.1 y (hl' y hy)
          simp only [decide_eq_true_eq, not_le]
          exact lt_of_lt_of_le (not_le.mp hx) this
        simp only [List.take_succ_cons, List.filter_cons, hx, decide_False]
        rw [hnone _ (fun y hy => List.mem_of_mem_take hy), hnone xs (fun y hy => hy)]
        simp

/-- C13. In the direct-trip branch, for every list of provider routes and every
maximum count, the alternatives of the code (sort, first as optimal, truncate,
then keep the routes within 1.15 times the optimal distance) are the
alternatives the specification describes (sort, first as optimal, keep the
routes within 1.15 times the optimal distance, then truncate); every
alternative returned has a distance between the optimal distance and 1.15 times
it, and the list is ascending in distance. -/
theorem direct_trip_alternatives_refine (allRoutes : List (Route α)) (maxAlternatives : Nat) :
    filteredAlternatives (selectRoutes allRoutes maxAlternatives)
      = specAlternatives allRoutes maxAlternatives ∧
    (allRoutes ≠ [] → ∃ optimal alts,
      (selectRoutes allRoutes maxAlternatives).1 = some optimal ∧
      filteredAlternatives (selectRoutes allRoutes maxAlternatives) = some alts ∧
      (∀ r ∈ allRoutes, optimal.distance ≤ r.distance) ∧
      (∀ a ∈ alts, optimal.distance ≤ a.distance ∧
        a.distance ≤ optimal.distance * (115 / 100)) ∧
      alts.length ≤ maxAlternatives ∧
      alts.Pairwise (fun a b => a.distance ≤ b.distance)) := by
  have hsorted := sorted_jsSort_key (fun r : Route α => r.distance) allRoutes
  have hperm := perm_jsSort (fun a b : Route α => a.distance - b.distance) allRoutes
  unfold filteredAlternatives selectRoutes specAlternatives
  cases hsort : jsSort (fun a b : Route α => a.distance - b.distance) allRoutes with
  | nil =>
    refine ⟨rfl, ?_⟩
    intro hne
    rw [hsort] at hperm
    exact absurd hperm.symm.eq_nil hne
  | cons optimal rest =>
    rw [hsort] at hsorted hperm
    rw [List.pairwise_cons] at hsorted
    simp only [List.head?_cons, List.drop_succ_cons, List.drop_zero]
    have hcomm := filter_take_of_sorted (fun r : Route α => r.distance)
      (optimal.distance * (115 / 100)) rest maxAlternatives hsorted.2
    refine ⟨by rw [hcomm], ?_⟩
    intro _
    refine ⟨optimal, _, rfl, rfl, ?_, ?_, ?_, ?_⟩
    · intro r hr
      rcases List.mem_cons.mp (hperm.symm.subset hr) with h | h
      · rw [h]
      · exact hsorted.1 r h
    · intro a ha
      rw [List.mem_filter] at ha
      exact ⟨hsorted.1 a (List.mem_of_mem_take ha.1), by simpa using ha.2⟩
    · exact le_trans (List.length_filter_le _ _) (by rw [List.length_take]; exact min_le_left _ _)
    · exact (hsorted.2.sublist (List.take_sublist _ _)).sublist (List.filter_sublist _)

/-- Three provider routes of 10, 11 and 12 km with at most one alternative: both
orders of filtering and truncating give the same list. -/
theorem direct_trip_alternatives_refine_witness :
    filteredAlternatives (selectRoutes
        ([⟨12, "c"⟩, ⟨10, "a"⟩, ⟨11, "b"⟩] : List (Route ℚ)) 1)
      = specAlternatives ([⟨12, "c"⟩, ⟨10, "a"⟩, ⟨11, "b"⟩] : List (Route ℚ)) 1 :=
  (direct_trip_alternatives_refine _ 1).1

end DirectTripClaims

section StrategyClaims

/-- C15 as stated fails: outside road mode a found path of exactly two nodes is
handled by the multi-waypoint branch, and in road mode a path of one node
(start equal to end) is handled by the multi-waypoint branch as well. -/
theorem two_node_path_multi_waypoint :
    ([0, 1] : List Nat).length = 2 ∧
    selectStrategy false [0, 1] = Strategy.multiWaypoint ∧
    selectStrategy true [0, 1] = Strategy.directTrip ∧
    selectStrategy true [0] = Strategy.multiWaypoint := by
  decide

/-- C15, amended. The direct-trip branch is used exactly when the request is in
road mode and the optimal path has exactly two nodes; in every other case the
multi-waypoint branch is used. The two branches are mutually exclusive. -/
theorem strategy_selection (roadMode : Bool) (path : List Nat) :
    (selectStrategy roadMode path = Strategy.directTrip ↔
      (roadMode = true ∧ path.length = 2)) ∧
    (selectStrategy roadMode path = Strategy.multiWaypoint ↔
      ¬ (roadMode = true ∧ path.length = 2)) := by
  unfold selectStrategy
  by_cases h : roadMode = true ∧ path.length = 2
  · simp [h.1, h.2]
  · have : (roadMode && path.length == 2) = false := by
      rw [Bool.and_eq_false_iff]
      by_cases hr : roadMode = true
      · right
        simpa using fun hl => h ⟨hr, hl⟩
      · left
        simpa using hr
    simp [this, h]

end StrategyClaims

section GeometryClaims
variable {α : Type} [LinearOrderedField α] [FloorRing α]

theorem foldl_push_eq_map {β γ : Type} (f : β → γ) (l : List β) (init : List γ) :
    l.foldl (fun points i => points ++ [f i]) init = init ++ l.map f := by
  induction l generalizing init with
  | nil => simp
  | cons a l ih =>
    rw [List.foldl_cons, ih]
    simp

/-- C16. For every pair of coordinates, spacing and cap, `buildSegmentCoords`
returns the list that starts with `from`, ends with `to` and holds `count`
intermediate points between them, where `count` is 0 for a zero or negative
spacing and `max(0, min(maxPoints, floor(d / s) - 1))` otherwise; the `i`-th
intermediate point is `from + (to - from) * i / (count + 1)` in latitude and
longitude. -/
theorem buildSegmentCoords_interpolates (haversineKm : Coord α → Coord α → α)
    (fromCoord toCoord : Coord α) (spacingKm : α) (maxPoints : Int) :
    buildSegmentCoords haversineKm fromCoord toCoord spacingKm maxPoints
      = fromCoord ::
        ((List.range' 1 (specCount (haversineKm fromCoord toCoord) spacingKm maxPoints).toNat).map
          (specPoint fromCoord toCoord
            (specCount (haversineKm fromCoord toCoord) spacingKm maxPoints)) ++ [toCoord]) ∧
    0 ≤ specCount (haversineKm fromCoord toCoord) spacingKm maxPoints ∧
    (buildSegmentCoords haversineKm fromCoord toCoord spacingKm maxPoints).head?
      = some fromCoord ∧
    (buildSegmentCoords haversineKm fromCoord toCoord spacingKm maxPoints).getLast?
      = some toCoord ∧
    ((buildSegmentCoords haversineKm fromCoord toCoord spacingKm maxPoints).length : Int)
      = specCount (haversineKm fromCoord toCoord) spacingKm maxPoints + 2 ∧
    ∀ i : Nat, 1 ≤ i →
      (i : Int) ≤ specCount (haversineKm fromCoord toCoord) spacingKm maxPoints →
      (buildSegmentCoords haversineKm fromCoord toCoord spacingKm maxPoints)[i]?
        = some (specPoint fromCoord toCoord
            (specCount (haversineKm fromCoord toCoord) spacingKm maxPoints) i) := by
  have hnonneg : 0 ≤ specCount (haversineKm fromCoord toCoord) spacingKm maxPoints := by
    unfold specCount
    split_ifs
    · exact le_refl _
    · exact le_max_left _ _
  have heq : buildSegmentCoords haversineKm fromCoord toCoord spacingKm maxPoints
      = fromCoord ::
        ((List.range' 1 (specCount (haversineKm fromCoord toCoord) spacingKm maxPoints).toNat).map
          (specPoint fromCoord toCoord
            (specCount (haversineKm fromCoord toCoord) spacingKm maxPoints)) ++ [toCoord]) := by
    unfold buildSegmentCoords specCount
    by_cases hs : spacingKm ≤ 0
    · rw [if_pos (Or.inr hs), if_pos hs]
      rfl
    · have hs0 : ¬ (spacingKm = 0 ∨ spacingKm ≤ 0) := by
        rintro (h | h)
        · exact hs (le_of_eq h)
        · exact hs h
      rw [if_neg hs0, if_neg hs]
      simp only
      by_cases hc : max 0 (min maxPoints (⌊haversineKm fromCoord toCoord / spacingKm⌋ - 1)) = 0
      · rw [if_pos hc, hc]
        rfl
      · rw [if_neg hc, foldl_push_eq_map]
        rfl
  refine ⟨heq, hnonneg, ?_, ?_, ?_, ?_⟩
  · rw [heq]; rfl
  · rw [heq, ← List.cons_append, List.getLast?_append]
    rfl
  · rw [heq]
    simp only [List.length_cons, List.length_append, List.length_map, List.length_range',
      List.length_nil]
    push_cast
    rw [Int.toNat_of_nonneg hnonneg]
    ring
  · intro i h1 hi
    rw [heq]
    obtain ⟨j, rfl⟩ : ∃ j, i = j + 1 := ⟨i - 1, by omega⟩
    have hj : j < (specCount (haversineKm fromCoord toCoord) spacingKm maxPoints).toNat := by
      omega
    rw [List.getElem?_cons_succ, List.getElem?_append_left (by simpa using hj),
      List.getElem?_map, List.getElem?_range' _ _ hj]
    simp [Nat.add_comm]

theorem segmentGeometries_cons (g : List (Coord α) → List (Coord α))
    (hav : Coord α → Coord α → α) (sp : α) (a b : Coord α) (rest : List (Coord α)) :
    segmentGeometries g hav sp (a :: b :: rest)
      = g (buildSegmentCoords hav a b sp 3) :: segmentGeometries g hav sp (b :: rest) := by
  simp [segmentGeometries]

theorem flatten_drop_filter {γ : Type} (gs : List (List γ)) :
    ((gs.filter fun x => !x.isEmpty).map (List.drop 1)).flatten
      = (gs.map (List.drop 1)).flatten := by
  induction gs with
  | nil => rfl
  | cons x gs ih =>
    cases x with
    | nil => simpa using ih
    | cons y ys => simp [ih]

theorem specStitch_cons_nil {γ : Type} (gs : List (List γ)) :
    specStitch ([] :: gs) = specStitch gs := by
  simp [specStitch]

theorem specStitch_cons_cons {γ : Type} (y : γ) (ys : List γ) (gs : List (List γ)) :
    specStitch ((y :: ys) :: gs) = (y :: ys) ++ (gs.map (List.drop 1)).flatten := by
  simp [specStitch, flatten_drop_filter]

/-- Once something has been collected, the loop appends every further geometry
without its first coordinate. -/
theorem segmentLoop_nonempty (g : List (Coord α) → List (Coord α))
    (hav : Coord α → Coord α → α) (sp : α) :
    ∀ (pts combined : List (Coord α)), combined ≠ [] →
      segmentLoop g hav sp pts combined
        = combined ++ ((segmentGeometries g hav sp pts).map (List.drop 1)).flatten := by
  intro pts
  induction pts with
  | nil => intro combined _; simp [segmentLoop, segmentGeometries]
  | cons a t ih =>
    intro combined hne
    cases t with
    | nil => simp [segmentLoop, segmentGeometries]
    | cons b rest =>
      have hpos : combined.length > 0 := List.length_pos.mpr hne
      rw [segmentLoop, segmentGeometries_cons]
      by_cases hg : (g (buildSegmentCoords hav a b sp 3)).length = 0
      · rw [if_pos hg, ih combined hne, List.length_eq_zero.mp hg]
        simp
      · rw [if_neg hg, if_pos hpos, ih _ (by simp [hne])]
        simp

/-- From an empty collection the loop builds the concatenation the
specification describes. -/
theorem segmentLoop_empty (g : List (Coord α) → List (Coord α))
    (hav : Coord α → Coord α → α) (sp : α) :
    ∀ pts : List (Coord α),
      segmentLoop g hav sp pts [] = specStitch (segmentGeometries g hav sp pts) := by
  intro pts
  induction pts with
  | nil => simp [segmentLoop, segmentGeometries, specStitch]
  | cons a t ih =>
    cases t with
    | nil => simp [segmentLoop, segmentGeometries, specStitch]
    | cons b rest =>
      rw [segmentLoop, segmentGeometries_cons]
      cases hG : g (buildSegmentCoords hav a b sp 3) with
      | nil =>
        rw [if_pos List.length_nil, ih, specStitch_cons_nil]
      | cons y ys =>
        rw [if_neg (by simp), if_neg (by simp), List.nil_append,
          segmentLoop_nonempty g hav sp _ _ (List.cons_ne_nil _ _), specStitch_cons_cons]

/-- When every segment geometry runs from the start of its segment to its end,
the geometries without their first coordinates, put after the first node, end
at the last node, and their lengths add up as stated. -/
theorem stitch_ends (g : List (Coord α) → List (Coord α))
    (hav : Coord α → Coord α → α) (sp : α) :
    ∀ (rest : List (Coord α)) (a : Coord α),
      (∀ seg ∈ (a :: rest).zip rest,
        (g (buildSegmentCoords hav seg.1 seg.2 sp 3)).head? = some seg.1 ∧
        (g (buildSegmentCoords hav seg.1 seg.2 sp 3)).getLast? = some seg.2) →
      (a :: ((segmentGeometries g hav sp (a :: rest)).map (List.drop 1)).flatten).getLast?
        = (a :: rest).getLast? ∧
      ((segmentGeometries g hav sp (a :: rest)).map (List.drop 1)).flatten.length + rest.length
        = ((segmentGeometries g hav sp (a :: rest)).map List.length).sum ∧
      (rest ≠ [] → specStitch (segmentGeometries g hav sp (a :: rest))
        = a :: ((segmentGeometries g hav sp (a :: rest)).map (List.drop 1)).flatten) := by
  intro rest
  induction rest with
  | nil =>
    intro a _
    simp [segmentGeometries]
  | cons b rest ih =>
    intro a hseg
    obtain ⟨hhead, hlast⟩ := hseg (a, b) (by simp)
    simp only at hhead hlast
    obtain ⟨ih1, ih2, -⟩ := ih b (fun seg hs => hseg seg (by
      rw [List.zip_cons_cons]
      exact List.mem_cons_of_mem _ hs))
    rw [segmentGeometries_cons]
    cases hG : g (buildSegmentCoords hav a b sp 3) with
    | nil => rw [hG] at hhead; cases hhead
    | cons y T =>
      rw [hG] at hhead hlast
      have hy : y = a := Option.some.inj hhead
      subst hy
      simp only [List.map_cons, List.flatten_cons, List.drop_succ_cons, List.drop_zero,
        List.length_append, List.length_cons, List.sum_cons]
      refine ⟨?_, by omega, ?_⟩
      · rw [List.getLast?_cons_cons, ← ih1]
        cases hF : ((segmentGeometries g hav sp (b :: rest)).map (List.drop 1)).flatten with
        | nil =>
          rw [List.append_nil]
          exact hlast
        | cons f fs =>
          rw [← List.cons_append, List.getLast?_append, List.getLast?_cons_cons,
            List.getLast?_eq_getLast _ (List.cons_ne_nil f fs)]
          rfl
      · intro _
        rw [specStitch_cons_cons]
        rfl

/-- C17. In segment detail mode, for every sequence of node coordinates and
every provider geometry function, `fetchDetailedPolyline` returns the segment
geometries concatenated in segment order, the empty ones skipped and the first
coordinate of every geometry after the first contributing one dropped, and the
input sequence when nothing was contributed. When the sequence is not empty and
every segment geometry begins at the start of its segment and ends at its end,
the result begins at the first node, ends at the last node, is the first node
followed by the geometries without their first coordinates, and has length
`Σ|g(seg_i)| - (segments - 1)`. -/
theorem fetchDetailedPolyline_stitches (g : List (Coord α) → List (Coord α))
    (hav : Coord α → Coord α → α) (pathCoords : List (Coord α)) (sp : α) :
    fetchDetailedPolyline g hav pathCoords true sp
      = (if (specStitch (segmentGeometries g hav sp pathCoords)).isEmpty then pathCoords
         else specStitch (segmentGeometries g hav sp pathCoords)) ∧
    (pathCoords ≠ [] →
      (∀ seg ∈ pathCoords.zip pathCoords.tail,
        (g (buildSegmentCoords hav seg.1 seg.2 sp 3)).head? = some seg.1 ∧
        (g (buildSegmentCoords hav seg.1 seg.2 sp 3)).getLast? = some seg.2) →
      (fetchDetailedPolyline g hav pathCoords true sp).head? = pathCoords.head? ∧
      (fetchDetailedPolyline g hav pathCoords true sp).getLast? = pathCoords.getLast? ∧
      fetchDetailedPolyline g hav pathCoords true sp
        = pathCoords.take 1
          ++ ((segmentGeometries g hav sp pathCoords).map (List.drop 1)).flatten ∧
      ((fetchDetailedPolyline g hav pathCoords true sp).length : Int)
        = ((((segmentGeometries g hav sp pathCoords).map List.length).sum : Nat) : Int)
          - (((pathCoords.length - 1 : Nat) : Int) - 1)) := by
  have hcode : fetchDetailedPolyline g hav pathCoords true sp
      = (if (specStitch (segmentGeometries g hav sp pathCoords)).isEmpty then pathCoords
         else specStitch (segmentGeometries g hav sp pathCoords)) := by
    unfold fetchDetailedPolyline
    simp only [Bool.not_eq_true, Bool.true_eq_false, if_false]
    rw [segmentLoop_empty]
    cases specStitch (segmentGeometries g hav sp pathCoords) with
    | nil => simp
    | cons x xs => simp
  refine ⟨hcode, ?_⟩
  intro hne hseg
  cases pathCoords with
  | nil => exact absurd rfl hne
  | cons a rest =>
    obtain ⟨h1, h2, h3⟩ := stitch_ends g hav sp rest a hseg
    have hres : fetchDetailedPolyline g hav (a :: rest) true sp
        = a :: ((segmentGeometries g hav sp (a :: rest)).map (List.drop 1)).flatten := by
      rw [hcode]
      cases rest with
      | nil => simp [segmentGeometries, specStitch]
      | cons b rest' =>
        rw [h3 (List.cons_ne_nil _ _)]
        simp
    refine ⟨?_, ?_, ?_, ?_⟩
    · rw [hres]; rfl
    · rw [hres]; exact h1
    · rw [hres]; simp
    · rw [hres]
      simp only [List.length_cons, Nat.add_sub_cancel]
      rw [← h2]
      push_cast
      ring

end GeometryClaims

section Validation

theorem truthy_of_getField_array (body : JsValue) (key : String) (items : List JsValue)
    (h : body.getField key = JsValue.array items) : body.truthy = true := by
  cases body <;> simp [JsValue.getField] at h
  rfl

theorem getField_of_not_truthy (v : JsValue) (key : String) (h : v.truthy = false) :
    v.getField key = JsValue.undefined := by
  cases v <;> first | rfl | simp [JsValue.truthy] at h

theorem isFiniteNumber_iff (v : JsValue) :
    isFiniteNumber v = true ↔ ∃ q, v = JsValue.number (JsNumber.finite q) := by
  cases v with
  | number x =>
    cases x with
    | finite q => simp [isFiniteNumber]
    | nan => simp [isFiniteNumber]
    | posInfinity => simp [isFiniteNumber]
    | negInfinity => simp [isFiniteNumber]
  | undefined => simp [isFiniteNumber]
  | null => simp [isFiniteNumber]
  | boolean b => simp [isFiniteNumber]
  | string s => simp [isFiniteNumber]
  | array l => simp [isFiniteNumber]
  | object l => simp [isFiniteNumber]

theorem isNumber_of_isFiniteNumber (v : JsValue) (h : isFiniteNumber v = true) :
    isNumber v = true := by
  obtain ⟨q, rfl⟩ := (isFiniteNumber_iff v).mp h
  rfl

/-- The condition of the loop over the locations fails exactly for the
locations whose `lat` and `lng` are finite numbers. -/
theorem invalidLocation_eq (location : JsValue) :
    invalidLocation location
      = !(isFiniteNumber (location.getField "lat")
          && isFiniteNumber (location.getField "lng")) := by
  unfold invalidLocation
  cases ht : location.truthy with
  | false =>
    rw [getField_of_not_truthy location "lat" ht, getField_of_not_truthy location "lng" ht]
    rfl
  | true =>
    cases h1 : isFiniteNumber (location.getField "lat") with
    | false => simp
    | true =>
      cases h2 : isFiniteNumber (location.getField "lng") with
      | false => simp
      | true =>
        rw [isNumber_of_isFiniteNumber _ h1, isNumber_of_isFiniteNumber _ h2]
        rfl

/-- A value passes `Number.isInteger` and the range test exactly when it is an
integer `i` with `0 ≤ i < length`. -/
theorem isIndexBelow_iff (v : JsValue) (n : Nat) :
    (isValidIndex v = true ∧ outOfRange v n = false) ↔ IsIndexBelow v n := by
  constructor
  · rintro ⟨h1, h2⟩
    cases v with
    | number x =>
      cases x with
      | finite q =>
        simp only [isValidIndex, Rat.isInt, beq_iff_eq] at h1
        simp only [outOfRange, Bool.or_eq_false_iff, decide_eq_false_iff_not, not_lt,
          not_le] at h2
        have hq : ((q.num : ℤ) : ℚ) = q := Rat.coe_int_num_of_den_eq_one h1
        have hnum : 0 ≤ q.num := Rat.num_nonneg.mpr h2.1
        refine ⟨q.num.toNat, ?_, ?_⟩
        · have hcast : ((q.num.toNat : ℕ) : ℚ) = q := by
            have h5 : ((q.num.toNat : ℕ) : ℤ) = q.num := Int.toNat_of_nonneg hnum
            calc ((q.num.toNat : ℕ) : ℚ) = (((q.num.toNat : ℕ) : ℤ) : ℚ) := by push_cast; rfl
              _ = ((q.num : ℤ) : ℚ) := by rw [h5]
              _ = q := hq
          rw [hcast]
        · have h3 : ((q.num : ℤ) : ℚ) < (n : ℚ) := by rw [hq]; exact h2.2
          have h4 : q.num < (n : ℤ) := by exact_mod_cast h3
          omega
      | nan => simp [isValidIndex] at h1
      | posInfinity => simp [isValidIndex] at h1
      | negInfinity => simp [isValidIndex] at h1
    | undefined => simp [isValidIndex] at h1
    | null => simp [isValidIndex] at h1
    | boolean b => simp [isValidIndex] at h1
    | string s => simp [isValidIndex] at h1
    | array l => simp [isValidIndex] at h1
    | object l => simp [isValidIndex] at h1
  · rintro ⟨i, rfl, hi⟩
    refine ⟨?_, ?_⟩
    · simp [isValidIndex, Rat.isInt]
    · simp only [outOfRange, Bool.or_eq_false_iff, decide_eq_false_iff_not, not_lt, not_le]
      exact ⟨by positivity, by exact_mod_cast hi⟩

theorem validateRequest_not_array (body : JsValue)
    (h : ∀ items, body.getField "locations" ≠ JsValue.array items) :
    validateRequest body = some "locations must be an array" ∧
    firstFailure body = some "locations must be an array" ∧ ¬ Acceptable body := by
  refine ⟨?_, ?_, ?_⟩
  · unfold validateRequest
    split
    · rfl
    · split
      · exact absurd (by assumption) (h _)
      · rfl
  · unfold firstFailure specChecks
    have : isArray (body.getField "locations") = false := by
      unfold isArray
      split
      · exact absurd (by assumption) (h _)
      · rfl
    rw [this]
    rfl
  · rintro ⟨locations, hl, -⟩
    exact h _ hl

theorem validateRequest_array (body : JsValue) (locations : List JsValue)
    (h : body.getField "locations" = JsValue.array locations) :
    validateRequest body =
      if locations.length < 2 then some "at least two locations are required"
      else if locations.length > 50 then some "maximum of 50 locations allowed"
      else if !isValidIndex (body.getField "startIndex")
          || !isValidIndex (body.getField "endIndex") then
        some "startIndex and endIndex must be integers"
      else if outOfRange (body.getField "startIndex") locations.length
          || outOfRange (body.getField "endIndex") locations.length then
        some "startIndex and endIndex must be within locations range"
      else if locations.any invalidLocation then
        some "each location must have valid lat and lng numbers"
      else none := by
  unfold validateRequest
  rw [truthy_of_getField_array body _ _ h, h]
  rfl

theorem any_invalidLocation (locations : List JsValue) :
    locations.any invalidLocation
      = !(locations.all fun location =>
          isFiniteNumber (location.getField "lat")
            && isFiniteNumber (location.getField "lng")) := by
  induction locations with
  | nil => rfl
  | cons a l ih =>
    rw [List.any_cons, List.all_cons, ih, invalidLocation_eq]
    cases isFiniteNumber (a.getField "lat") <;> cases isFiniteNumber (a.getField "lng") <;> rfl

theorem firstFailure_array (body : JsValue) (locations : List JsValue)
    (h : body.getField "locations" = JsValue.array locations) :
    firstFailure body =
      if locations.length < 2 then some "at least two locations are required"
      else if locations.length > 50 then some "maximum of 50 locations allowed"
      else if !isValidIndex (body.getField "startIndex")
          || !isValidIndex (body.getField "endIndex") then
        some "startIndex and endIndex must be integers"
      else if outOfRange (body.getField "startIndex") locations.length
          || outOfRange (body.getField "endIndex") locations.length then
        some "startIndex and endIndex must be within locations range"
      else if locations.any invalidLocation then
        some "each location must have valid lat and lng numbers"
      else none := by
  have hl : locationsOf body = locations := by
    unfold locationsOf
    rw [h]
  unfold firstFailure specChecks
  rw [hl, h, any_invalidLocation]
  have harr : isArray (JsValue.array locations) = true := rfl
  rw [harr]
  by_cases c2 : locations.length < 2
  · rw [if_pos c2]
    simp [List.find?, not_le.mpr c2]
  rw [if_neg c2]
  by_cases c3 : locations.length > 50
  · rw [if_pos c3]
    simp [List.find?, not_lt.mp c2, not_le.mpr c3]
  rw [if_neg c3]
  cases c4a : isValidIndex (body.getField "startIndex") with
  | false => simp [List.find?, not_lt.mp c2, not_lt.mp c3]
  | true =>
    cases c4b : isValidIndex (body.getField "endIndex") with
    | false => simp [List.find?, not_lt.mp c2, not_lt.mp c3]
    | true =>
      cases c5a : outOfRange (body.getField "startIndex") locations.length with
      | true => simp [List.find?, not_lt.mp c2, not_lt.mp c3]
      | false =>
        cases c5b : outOfRange (body.getField "endIndex") locations.length with
        | true => simp [List.find?, not_lt.mp c2, not_lt.mp c3]
        | false =>
          cases c6 : (locations.all fun location =>
              isFiniteNumber (location.getField "lat")
                && isFiniteNumber (location.getField "lng")) with
          | false => simp [List.find?, not_lt.mp c2, not_lt.mp c3]
          | true => simp [List.find?, not_lt.mp c2, not_lt.mp c3]

/-- C22. `validateRequest` returns `null` exactly when `body.locations` is an
array of between 2 and 50 entries, `startIndex` and `endIndex` are integers in
`[0, locations.length)` and every location has `lat` and `lng` that are finite
numbers; in every case its result is that of the first failing check in the
order: not an array, fewer than 2, more than 50, non-integer index, index out
of range, invalid coordinate. -/
theorem validateRequest_accepts_iff (body : JsValue) :
    (validateRequest body = none ↔ Acceptable body) ∧
    validateRequest body = firstFailure body := by
  by_cases harr : ∃ items, body.getField "locations" = JsValue.array items
  · obtain ⟨locations, hl⟩ := harr
    refine ⟨?_, by rw [validateRequest_array body locations hl,
      firstFailure_array body locations hl]⟩
    rw [validateRequest_array body locations hl]
    constructor
    · intro h
      split_ifs at h with c2 c3 c4 c5 c6
      simp only [Bool.or_eq_true, Bool.not_eq_true', not_or, Bool.not_eq_false] at c4 c5
      refine ⟨locations, hl, by omega, by omega,
        (isIndexBelow_iff _ _).mp ⟨c4.1, by simpa using c5.1⟩,
        (isIndexBelow_iff _ _).mp ⟨c4.2, by simpa using c5.2⟩, ?_⟩
      intro location hmem
      have hall := c6
      rw [any_invalidLocation] at hall
      simp only [Bool.not_eq_true', Bool.not_eq_false, List.all_eq_true, Bool.and_eq_true]
        at hall
      exact ⟨(isFiniteNumber_iff _).mp (hall location hmem).1,
        (isFiniteNumber_iff _).mp (hall location hmem).2⟩
    · rintro ⟨locations', hl', h2, h50, hstart, hend, hcoords⟩
      rw [hl] at hl'
      cases hl'
      obtain ⟨hs1, hs2⟩ := (isIndexBelow_iff _ _).mpr hstart
      obtain ⟨he1, he2⟩ := (isIndexBelow_iff _ _).mpr hend
      have hany : locations.any invalidLocation = false := by
        rw [any_invalidLocation]
        simp only [Bool.not_eq_false', List.all_eq_true, Bool.and_eq_true]
        intro location hmem
        exact ⟨(isFiniteNumber_iff _).mpr (hcoords location hmem).1,
          (isFiniteNumber_iff _).mpr (hcoords location hmem).2⟩
      rw [if_neg (by omega), if_neg (by omega), hs1, he1, hs2, he2, hany]
      rfl
  · have hne : ∀ items, body.getField "locations" ≠ JsValue.array items :=
      fun items h => harr ⟨items, h⟩
    obtain ⟨h1, h2, h3⟩ := validateRequest_not_array body hne
    refine ⟨?_, by rw [h1, h2]⟩
    rw [h1]
    constructor
    · intro h; cases h
    · intro h; exact absurd h h3

end Validation

section Polyline

theorem toInt32_of_range (x : Int) (h1 : -2147483648 ≤ x) (h2 : x < 2147483648) :
    toInt32 x = x := by
  unfold toInt32
  omega

theorem toInt32_natCast (n : Nat) (h : n < 2147483648) : toInt32 (n : Int) = (n : Int) :=
  toInt32_of_range _ (by omega) (by omega)

theorem jsAnd_natCast (a b : Nat) (ha : a < 2147483648) (hb : b < 2147483648) :
    jsAnd (a : Int) (b : Int) = ((a &&& b : Nat) : Int) := by
  unfold jsAnd
  rw [toInt32_natCast a ha, toInt32_natCast b hb]
  rfl

theorem jsOr_natCast (a b : Nat) (ha : a < 2147483648) (hb : b < 2147483648) :
    jsOr (a : Int) (b : Int) = ((a ||| b : Nat) : Int) := by
  unfold jsOr
  rw [toInt32_natCast a ha, toInt32_natCast b hb]
  rfl

theorem and_31 (b : Nat) : b &&& 31 = b % 32 :=
  Nat.and_pow_two_sub_one_eq_mod b 5

theorem and_1 (b : Nat) : b &&& 1 = b % 2 :=
  Nat.and_pow_two_sub_one_eq_mod b 1

theorem or_eq_add (r g s : Nat) (h : r < 2 ^ s) : r ||| g * 2 ^ s = r + g * 2 ^ s := by
  rw [Nat.or_comm, Nat.mul_comm, ← Nat.mul_add_lt_is_or h, Nat.add_comm]

theorem jsShl_natCast (g s : Nat) (h : g * 2 ^ s < 2147483648) (hs : s < 32 ∨ g = 0) :
    jsShl (g : Int) s = ((g * 2 ^ s : Nat) : Int) := by
  unfold jsShl
  rcases hs with hs | hg
  · have hg : g < 2147483648 := lt_of_le_of_lt (Nat.le_mul_of_pos_right g (by positivity)) h
    rw [toInt32_natCast g hg, Nat.mod_eq_of_lt hs]
    have : (g : Int) * 2 ^ s = ((g * 2 ^ s : Nat) : Int) := by push_cast; rfl
    rw [this, toInt32_natCast _ h]
  · subst hg
    simp [toInt32]

/-- One group of five bits read at the position `shift`: `result` gains the
group at that position. -/
theorem group_step (r g b s : Nat) (hg : g < 32) (hb : b = g ∨ b = g + 32)
    (hr : r < 2 ^ s) (hbound : r + g * 2 ^ s < 2147483648) (hs : s < 32 ∨ g = 0) :
    jsOr (r : Int) (jsShl (jsAnd (b : Int) 31) s) = ((r + g * 2 ^ s : Nat) : Int) := by
  have hb64 : b < 2147483648 := by omega
  have h31 : jsAnd (b : Int) 31 = (g : Int) := by
    have := jsAnd_natCast b 31 hb64 (by decide)
    rw [and_31] at this
    have hmod : b % 32 = g := by omega
    rw [hmod] at this
    exact this
  rw [h31, jsShl_natCast g s (by omega) hs, jsOr_natCast r _ (by omega) (by omega),
    or_eq_add r g s hr]

theorem encodeGroups_lt (v : Nat) (h : v < 32) : encodeGroups v = [v + 63] := by
  rw [encodeGroups, dif_pos h]

theorem encodeGroups_ge (v : Nat) (h : ¬ v < 32) :
    encodeGroups v = ((v % 32 ||| 32) + 63) :: encodeGroups (v / 32) := by
  rw [encodeGroups, dif_neg h]

theorem mod_or_32 (v : Nat) : v % 32 ||| 32 = v % 32 + 32 := by
  have := or_eq_add (v % 32) 1 5 (Nat.mod_lt _ (by decide))
  simpa using this

/-- Reading the groups of `v` from the position `shift` adds `v` at that
position to `result` and stops after the last group. -/
theorem readValue_encodeGroups :
    ∀ (v r s : Nat) (tail : List Nat), r < 2 ^ s → r + v * 2 ^ s < 2147483648 →
      readValue (encodeGroups v ++ tail) s (r : Int)
        = (((r + v * 2 ^ s : Nat) : Int), tail) := by
  intro v
  induction v using Nat.strong_induction_on with
  | _ v ih =>
    intro r s tail hr hbound
    by_cases hv : v < 32
    · rw [encodeGroups_lt v hv, List.singleton_append, readValue]
      have hbyte : ((v + 63 : Nat) : Int) - 63 = (v : Int) := by omega
      have hs : s < 32 ∨ v = 0 := by
        by_cases h0 : v = 0
        · exact Or.inr h0
        · left
          by_contra hge
          have : 2 ^ 32 ≤ 2 ^ s := Nat.pow_le_pow_right (by decide) (by omega)
          have : 2 ^ s ≤ v * 2 ^ s := Nat.le_mul_of_pos_left _ (by omega)
          omega
      simp only [hbyte]
      rw [group_step r v v s hv (Or.inl rfl) hr hbound hs, if_neg (by omega)]
    · rw [encodeGroups_ge v hv, List.cons_append, readValue, mod_or_32]
      have hbyte : ((v % 32 + 32 + 63 : Nat) : Int) - 63 = ((v % 32 + 32 : Nat) : Int) := by
        omega
      have hdiv : 1 ≤ v / 32 := by omega
      have hpow : 2 ^ (s + 5) = 2 ^ s * 32 := by rw [pow_add]; rfl
      have hsplit : v * 2 ^ s = v % 32 * 2 ^ s + v / 32 * 2 ^ (s + 5) := by
        rw [hpow]
        have := Nat.mod_add_div v 32
        calc v * 2 ^ s = (v % 32 + 32 * (v / 32)) * 2 ^ s := by rw [this]
          _ = v % 32 * 2 ^ s + v / 32 * (2 ^ s * 32) := by ring
      have hs : s + 5 < 32 := by
        by_contra hge
        have h1 : 2 ^ 32 ≤ 2 ^ (s + 5) := Nat.pow_le_pow_right (by decide) (by omega)
        have h2 : 2 ^ (s + 5) ≤ v / 32 * 2 ^ (s + 5) := Nat.le_mul_of_pos_left _ (by omega)
        omega
      simp only [hbyte]
      rw [group_step r (v % 32) (v % 32 + 32) s (Nat.mod_lt _ (by decide)) (Or.inr rfl) hr
        (by omega) (Or.inl (by omega)), if_pos (by omega)]
      have hr' : r + v % 32 * 2 ^ s < 2 ^ (s + 5) := by
        rw [hpow]
        have : v % 32 < 32 := Nat.mod_lt _ (by decide)
        nlinarith
      rw [ih (v / 32) (Nat.div_lt_self (by omega) (by decide)) _ (s + 5) tail hr' (by omega)]
      congr 2
      omega

theorem toInt32_negSucc (m : Nat) (h : m < 2147483648) :
    toInt32 (Int.negSucc m) = Int.negSucc m := by
  apply toInt32_of_range
  · rw [Int.negSucc_eq]; omega
  · rw [Int.negSucc_eq]; omega

theorem jsAnd_one (a : Nat) (ha : a < 2147483648) : jsAnd (a : Int) 1 = ((a % 2 : Nat) : Int) := by
  have := jsAnd_natCast a 1 ha (by decide)
  rw [and_1] at this
  exact this

theorem jsSar_natCast (n s : Nat) (h : n < 2147483648) :
    jsSar (n : Int) s = ((n / 2 ^ (s % 32) : Nat) : Int) := by
  unfold jsSar
  rw [toInt32_natCast n h, ← Nat.shiftRight_eq_div_pow]
  rfl

theorem jsSar_negSucc (m s : Nat) (h : m < 2147483648) :
    jsSar (Int.negSucc m) s = Int.negSucc (m / 2 ^ (s % 32)) := by
  unfold jsSar
  rw [toInt32_negSucc m h, ← Nat.shiftRight_eq_div_pow]
  rfl

theorem zigzag_natCast (n : Nat) (h : n < 1073741824) :
    zigzag (n : Int) = ((2 * n : Nat) : Int) := by
  unfold zigzag jsXor
  have hlt : n < 2 ^ (31 % 32) := lt_trans h (by norm_num)
  rw [jsShl_natCast n 1 (by omega) (Or.inl (by decide)), jsSar_natCast n 31 (by omega),
    Nat.div_eq_of_lt hlt, toInt32_natCast (n * 2 ^ 1) (by omega),
    toInt32_natCast 0 (by decide)]
  have hxor : Int.xor ((n * 2 ^ 1 : Nat) : Int) ((0 : Nat) : Int)
      = (((n * 2 ^ 1) ^^^ 0 : Nat) : Int) := rfl
  rw [hxor, Nat.xor_zero]
  congr 1
  omega

theorem zigzag_negSucc (m : Nat) (h : m < 1073741824) :
    zigzag (Int.negSucc m) = ((2 * m + 1 : Nat) : Int) := by
  unfold zigzag jsXor jsShl
  have h2 : Int.negSucc m * 2 ^ (1 % 32) = Int.negSucc (2 * m + 1) := by
    simp only [Int.negSucc_eq]
    push_cast
    norm_num
    ring
  have hlt : m < 2 ^ (31 % 32) := lt_trans h (by norm_num)
  rw [toInt32_negSucc m (by omega), h2, toInt32_negSucc (2 * m + 1) (by omega),
    toInt32_negSucc (2 * m + 1) (by omega),
    jsSar_negSucc m 31 (by omega), Nat.div_eq_of_lt hlt,
    toInt32_negSucc 0 (by decide)]
  have hxor : Int.xor (Int.negSucc (2 * m + 1)) (Int.negSucc 0)
      = (((2 * m + 1) ^^^ 0 : Nat) : Int) := rfl
  rw [hxor, Nat.xor_zero]

theorem decodeDelta_even (n : Nat) (h : n < 1073741824) :
    decodeDelta ((2 * n : Nat) : Int) = (n : Int) := by
  unfold decodeDelta
  rw [jsAnd_one (2 * n) (by omega), jsSar_natCast _ 1 (by omega)]
  have hmod : 2 * n % 2 = 0 := by omega
  rw [hmod, if_neg (by simp)]
  congr 1
  have : 2 ^ (1 % 32) = 2 := rfl
  rw [this]
  omega

theorem decodeDelta_odd (m : Nat) (h : m < 1073741824) :
    decodeDelta ((2 * m + 1 : Nat) : Int) = Int.negSucc m := by
  unfold decodeDelta jsNot
  rw [jsAnd_one (2 * m + 1) (by omega), jsSar_natCast _ 1 (by omega)]
  have hmod : (2 * m + 1) % 2 = 1 := by omega
  rw [hmod, if_pos (by decide)]
  have hdiv : (2 * m + 1) / 2 ^ (1 % 32) = m := by
    have : 2 ^ (1 % 32) = 2 := rfl
    rw [this]
    omega
  rw [hdiv, toInt32_natCast m (by omega)]
  rfl

/-- The zig-zag code of a delta of magnitude at most 36,000,000 is a natural
number below `2 ^ 27`, from which `decodeDelta` gives the delta back. -/
theorem zigzag_roundtrip (d : Int) (h : |d| ≤ 36000000) :
    ∃ v : Nat, zigzag d = (v : Int) ∧ v < 134217728 ∧ decodeDelta (v : Int) = d := by
  rw [abs_le] at h
  cases d with
  | ofNat n =>
    have hn : n < 1073741824 := by
      have : (n : Int) ≤ 36000000 := h.2
      omega
    refine ⟨2 * n, zigzag_natCast n hn, ?_, decodeDelta_even n hn⟩
    have : (n : Int) ≤ 36000000 := h.2
    omega
  | negSucc m =>
    have hm : (m : Int) < 36000000 := by
      have := h.1
      rw [Int.negSucc_eq] at this
      omega
    have hm' : m < 1073741824 := by omega
    exact ⟨2 * m + 1, zigzag_negSucc m hm', by omega, decodeDelta_odd m hm'⟩

theorem readValue_length_le :
    ∀ (l : List Nat) (s : Nat) (r : Int), (readValue l s r).2.length ≤ l.length := by
  intro l
  induction l with
  | nil => intro s r; simp [readValue]
  | cons c rest ih =>
    intro s r
    rw [readValue]
    split
    · exact le_trans (ih _ _) (Nat.le_succ _)
    · exact Nat.le_succ _

theorem readValue_length_lt (c : Nat) (rest : List Nat) (s : Nat) (r : Int) :
    (readValue (c :: rest) s r).2.length ≤ rest.length := by
  rw [readValue]
  split
  · exact readValue_length_le _ _ _
  · exact le_refl _

theorem decodeLoop_nil (fuel : Nat) (lat lng : Int) (cs : List (Coord ℚ)) :
    decodeLoop fuel [] lat lng cs = Outcome.done cs := by
  cases fuel <;> rfl

theorem decodeLoop_succ (fuel : Nat) (l : List Nat) (hl : l ≠ []) (lat lng : Int)
    (cs : List (Coord ℚ)) :
    decodeLoop (fuel + 1) l lat lng cs
      = decodeLoop fuel (readValue (readValue l 0 0).2 0 0).2
          (lat + decodeDelta (readValue l 0 0).1)
          (lng + decodeDelta (readValue (readValue l 0 0).2 0 0).1)
          (cs ++ [⟨((lat + decodeDelta (readValue l 0 0).1 : Int) : ℚ) / 100000,
            ((lng + decodeDelta (readValue (readValue l 0 0).2 0 0).1 : Int) : ℚ) / 100000⟩]) := by
  cases l with
  | nil => exact absurd rfl hl
  | cons c rest => rfl

/-- The loop of `decodePolyline` ends within one iteration per code unit. -/
theorem decodeLoop_terminates :
    ∀ (fuel : Nat) (l : List Nat) (lat lng : Int) (cs : List (Coord ℚ)), l.length ≤ fuel →
      ∃ out, decodeLoop fuel l lat lng cs = Outcome.done out := by
  intro fuel
  induction fuel with
  | zero =>
    intro l lat lng cs h
    have : l = [] := List.length_eq_zero.mp (Nat.le_zero.mp h)
    subst this
    exact ⟨cs, rfl⟩
  | succ fuel ih =>
    intro l lat lng cs h
    cases l with
    | nil => exact ⟨cs, rfl⟩
    | cons c rest =>
      rw [decodeLoop_succ fuel _ (List.cons_ne_nil _ _)]
      apply ih
      have h1 := readValue_length_lt c rest 0 0
      have h2 := readValue_length_le (readValue (c :: rest) 0 0).2 0 0
      rw [List.length_cons] at h
      omega

theorem encodeGroups_ne_nil (v : Nat) : encodeGroups v ≠ [] := by
  by_cases h : v < 32
  · rw [encodeGroups_lt v h]; exact List.cons_ne_nil _ _
  · rw [encodeGroups_ge v h]; exact List.cons_ne_nil _ _

theorem length_encodeFrom :
    ∀ (coords : List (Int × Int)) (prev : Int × Int),
      coords.length ≤ (encodeFrom prev coords).length := by
  intro coords
  induction coords with
  | nil => intro prev; exact Nat.zero_le _
  | cons p rest ih =>
    intro prev
    rw [encodeFrom, List.length_append, List.length_append, List.length_cons]
    have h1 : 0 < (encodeDelta (p.1 - prev.1)).length :=
      List.length_pos.mpr (encodeGroups_ne_nil _)
    have := ih p
    omega

/-- Reading the encoding of one delta gives the delta back and leaves the rest
of the string. -/
theorem readValue_encodeDelta (d : Int) (h : |d| ≤ 36000000) (tail : List Nat) :
    decodeDelta (readValue (encodeDelta d ++ tail) 0 0).1 = d ∧
    (readValue (encodeDelta d ++ tail) 0 0).2 = tail := by
  obtain ⟨v, hz, hv, hd⟩ := zigzag_roundtrip d h
  have henc : encodeDelta d = encodeGroups v := by
    unfold encodeDelta
    rw [hz, Int.toNat_natCast]
  have hread := readValue_encodeGroups v 0 0 tail (by decide) (by omega)
  simp only [Nat.cast_zero, pow_zero, mul_one, zero_add] at hread
  rw [henc, hread]
  exact ⟨hd, rfl⟩

/-- The loop of `decodePolyline` on the encoding of a list of coordinates, from
the coordinate before it, appends the coordinates divided by `1e5`. -/
theorem decodeLoop_encodeFrom :
    ∀ (coords : List (Int × Int)) (prev : Int × Int) (fuel : Nat) (cs : List (Coord ℚ)),
      DeltasWithin 36000000 prev coords → coords.length ≤ fuel →
      decodeLoop fuel (encodeFrom prev coords) prev.1 prev.2 cs
        = Outcome.done (cs ++ coords.map fun p =>
            (⟨(p.1 : ℚ) / 100000, (p.2 : ℚ) / 100000⟩ : Coord ℚ)) := by
  intro coords
  induction coords with
  | nil =>
    intro prev fuel cs _ _
    rw [encodeFrom, decodeLoop_nil]
    simp
  | cons p rest ih =>
    intro prev fuel cs hd hfuel
    obtain ⟨fuel, rfl⟩ : ∃ f, fuel = f + 1 := ⟨fuel - 1, by
      rw [List.length_cons] at hfuel; omega⟩
    obtain ⟨h1, h2, h3⟩ := hd
    have hne : encodeFrom prev (p :: rest) ≠ [] := by
      rw [encodeFrom, List.append_assoc]
      exact List.append_ne_nil_of_left_ne_nil (encodeGroups_ne_nil _) _
    rw [decodeLoop_succ fuel _ hne]
    have hfirst := readValue_encodeDelta (p.1 - prev.1) h1
      (encodeDelta (p.2 - prev.2) ++ encodeFrom p rest)
    have hsecond := readValue_encodeDelta (p.2 - prev.2) h2 (encodeFrom p rest)
    have hlist : encodeFrom prev (p :: rest)
        = encodeDelta (p.1 - prev.1) ++ (encodeDelta (p.2 - prev.2) ++ encodeFrom p rest) := by
      rw [encodeFrom, List.append_assoc]
    rw [hlist, hfirst.1, hfirst.2, hsecond.1, hsecond.2]
    have e1 : prev.1 + (p.1 - prev.1) = p.1 := by ring
    have e2 : prev.2 + (p.2 - prev.2) = p.2 := by ring
    rw [e1, e2, ih p fuel _ h3 (by rw [List.length_cons] at hfuel; omega)]
    simp

/-- C27. `decodePolyline` inverts the standard encoded-polyline format: for
every list of coordinates in units of `1e-5` degrees whose successive deltas
(the first from 0) have magnitude at most 36,000,000, it returns on the encoding
exactly that list, in order, each value divided by `1e5`; and it terminates on
every input string, with `[]` for the empty string. -/
theorem decodePolyline_inverts_encoding :
    (∀ coords : List (Int × Int), DeltasWithin 36000000 (0, 0) coords →
      decodePolyline (encodePolyline coords)
        = Outcome.done (coords.map fun p =>
            (⟨(p.1 : ℚ) / 100000, (p.2 : ℚ) / 100000⟩ : Coord ℚ))) ∧
    (∀ encoded : List Nat, ∃ coordinates, decodePolyline encoded = Outcome.done coordinates) ∧
    decodePolyline [] = Outcome.done [] := by
  refine ⟨?_, ?_, rfl⟩
  · intro coords h
    unfold decodePolyline encodePolyline
    rw [decodeLoop_encodeFrom coords (0, 0) _ [] h (length_encodeFrom coords (0, 0))]
    rfl
  · intro encoded
    exact decodeLoop_terminates _ encoded 0 0 [] (le_refl _)

/-- The three points (38.5, -120.2), (40.7, -120.95), (43.252, -126.453). -/
theorem decodePolyline_inverts_encoding_witness :
    decodePolyline (encodePolyline
        [(3850000, -12020000), (4070000, -12095000), (4325200, -12645300)])
      = Outcome.done
        ([(3850000, -12020000), (4070000, -12095000), (4325200, -12645300)].map fun p =>
          (⟨((p.1 : Int) : ℚ) / 100000, ((p.2 : Int) : ℚ) / 100000⟩ : Coord ℚ)) :=
  decodePolyline_inverts_encoding.1 _ (by decide)

end Polyline

section DeduplicationClaims

set_option maxRecDepth 100000

theorem bitLengthLoop_zero (fuel : Nat) : bitLengthLoop fuel 0 = 0 := by
  cases fuel <;> simp [bitLengthLoop]

/-- With enough fuel the loop counts the bits of `n`. -/
theorem bitLengthLoop_spec :
    ∀ (fuel n : Nat), n ≤ fuel →
      n < 2 ^ bitLengthLoop fuel n ∧ (n ≠ 0 → 2 ^ (bitLengthLoop fuel n - 1) ≤ n) := by
  intro fuel
  induction fuel with
  | zero =>
    intro n hn
    have : n = 0 := by omega
    subst this
    simp [bitLengthLoop]
  | succ fuel ih =>
    intro n hn
    by_cases h0 : n = 0
    · subst h0
      simp [bitLengthLoop]
    · rw [bitLengthLoop, if_neg h0]
      obtain ⟨h1, h2⟩ := ih (n / 2) (by omega)
      refine ⟨?_, fun _ => ?_⟩
      · rw [pow_succ]
        omega
      · rw [Nat.add_sub_cancel]
        by_cases hhalf : n / 2 = 0
        · rw [hhalf, bitLengthLoop_zero]
          simp
          omega
        · have hle := h2 hhalf
          have hpos : 1 ≤ bitLengthLoop fuel (n / 2) := by
            by_contra hcon
            have : bitLengthLoop fuel (n / 2) = 0 := by omega
            rw [this] at h1
            simp at h1
            exact hhalf h1
          obtain ⟨b, hb⟩ : ∃ b, bitLengthLoop fuel (n / 2) = b + 1 :=
            ⟨bitLengthLoop fuel (n / 2) - 1, by omega⟩
          rw [hb] at hle ⊢
          rw [Nat.add_sub_cancel] at hle
          rw [pow_succ]
          omega

theorem bitLength_spec (n : Nat) (h : n ≠ 0) :
    2 ^ (bitLength n - 1) ≤ n ∧ n < 2 ^ bitLength n := by
  obtain ⟨h1, h2⟩ := bitLengthLoop_spec n n (le_refl _)
  exact ⟨h2 h, h1⟩

/-- A mantissa brought to a smaller exponent stands for the same number. -/
theorem toRat_align (x : Double) (e : Int) (he : e ≤ x.exponent) :
    ((x.mantissa * 2 ^ (x.exponent - e).toNat : Int) : ℚ) * (2 : ℚ) ^ e = x.toRat := by
  unfold Double.toRat
  have hn : ((x.exponent - e).toNat : Int) = x.exponent - e := Int.toNat_of_nonneg (by omega)
  have hpow : (2 : ℚ) ^ x.exponent = (2 : ℚ) ^ ((x.exponent - e).toNat : Int) * (2 : ℚ) ^ e := by
    rw [← zpow_add₀ (by norm_num : (2 : ℚ) ≠ 0), hn]
    congr 1
    ring
  rw [hpow, zpow_natCast]
  push_cast
  ring

/-- The operator `<` of the model is the order of the numbers. -/
theorem jsLt_iff (a b : Double) : jsLt a b = true ↔ a.toRat < b.toRat := by
  unfold jsLt
  simp only [decide_eq_true_eq]
  rw [← toRat_align a (min a.exponent b.exponent) (min_le_left _ _),
    ← toRat_align b (min a.exponent b.exponent) (min_le_right _ _)]
  have hpos : (0 : ℚ) < (2 : ℚ) ^ (min a.exponent b.exponent) := by positivity
  rw [mul_lt_mul_right hpos]
  exact Int.cast_lt.symm

theorem toRat_mathAbs (x : Double) : (mathAbs x).toRat = |x.toRat| := by
  unfold mathAbs Double.toRat
  have hpos : (0 : ℚ) < (2 : ℚ) ^ x.exponent := by positivity
  rw [abs_mul, abs_of_pos hpos]
  simp

theorem toRat_one : (⟨1, 0⟩ : Double).toRat = 1 := by
  simp [Double.toRat]

/-- The test of line 438 for one collected route, in terms of the rounded
difference. -/
theorem jsLt_abs_sub_one (a b : Double) :
    jsLt (mathAbs (jsSub a b)) ⟨1, 0⟩ = true ↔ |(jsSub a b).toRat| < 1 := by
  rw [jsLt_iff, toRat_mathAbs, toRat_one]

theorem roundHalfEven_zero (n : Int) : roundHalfEven n 0 = n := by
  simp [roundHalfEven]

/-- Rounding is between the floor and the floor plus one, and is the quotient
when the division is exact. -/
theorem roundHalfEven_cases (n : Int) (k : Nat) :
    (roundHalfEven n k = n / 2 ^ k ∨ roundHalfEven n k = n / 2 ^ k + 1) ∧
    (n % 2 ^ k = 0 → roundHalfEven n k = n / 2 ^ k) := by
  have hpos : (0 : Int) < 2 ^ k := by positivity
  unfold roundHalfEven
  simp only
  refine ⟨?_, ?_⟩
  · split_ifs <;> simp
  · intro h
    rw [h, if_pos (by linarith)]

/-- Rounding does not cross an integer: a bound of `n / 2 ^ k` by an integer
is a bound of the rounded quotient. -/
theorem roundHalfEven_bounds (n : Int) (k : Nat) (L : Int) :
    (L * 2 ^ k ≤ n → L ≤ roundHalfEven n k) ∧ (n ≤ L * 2 ^ k → roundHalfEven n k ≤ L) := by
  have hpos : (0 : Int) < 2 ^ k := by positivity
  obtain ⟨hcase, hexact⟩ := roundHalfEven_cases n k
  have hdiv : n / 2 ^ k * 2 ^ k + n % 2 ^ k = n := Int.ediv_add_emod' n (2 ^ k)
  have hr0 : 0 ≤ n % 2 ^ k := Int.emod_nonneg _ (ne_of_gt hpos)
  have hr1 : n % 2 ^ k < 2 ^ k := Int.emod_lt_of_pos _ hpos
  refine ⟨?_, ?_⟩
  · intro h
    have hq : L ≤ n / 2 ^ k := (Int.le_ediv_iff_mul_le hpos).mpr h
    rcases hcase with hc | hc <;> rw [hc] <;> omega
  · intro h
    by_cases hr : n % 2 ^ k = 0
    · rw [hexact hr]
      rw [hr, add_zero] at hdiv
      rw [← hdiv] at h
      exact le_of_mul_le_mul_right h hpos
    · have hlt : n / 2 ^ k * 2 ^ k < L * 2 ^ k := by omega
      have hq : n / 2 ^ k < L := lt_of_mul_lt_mul_right hlt (le_of_lt hpos)
      rcases hcase with hc | hc <;> rw [hc] <;> omega

/-- Rounding to a double does not take a number of magnitude at least 1 to a
number of magnitude below 1 (1 and -1 are doubles and rounding is monotone). -/
theorem roundToDouble_abs_ge_one (m e : Int) (h : 1 ≤ |(m : ℚ) * (2 : ℚ) ^ e|) :
    1 ≤ |(roundToDouble m e).toRat| := by
  have h2 : (0 : ℚ) < 2 := by norm_num
  have hm0 : m ≠ 0 := by
    rintro rfl
    simp at h
    linarith
  have ha0 : m.natAbs ≠ 0 := Int.natAbs_ne_zero.mpr hm0
  obtain ⟨hlo, hhi⟩ := bitLength_spec m.natAbs ha0
  have hround : roundToDouble m e
      = ⟨roundHalfEven m (bitLength m.natAbs - 53), e + ((bitLength m.natAbs - 53 : Nat) : Int)⟩ :=
    rfl
  rw [hround]
  by_cases hk : bitLength m.natAbs - 53 = 0
  · simp only [hk, roundHalfEven_zero, Double.toRat]
    simpa using h
  · obtain ⟨k, hkdef⟩ : ∃ k, bitLength m.natAbs - 53 = k := ⟨_, rfl⟩
    rw [hkdef] at hk ⊢
    have hlog : bitLength m.natAbs = 52 + k + 1 := by omega
    rw [hlog] at hlo hhi
    rw [Nat.add_sub_cancel] at hlo
    have hlo' : (2 : Int) ^ 52 * 2 ^ k ≤ (m.natAbs : Int) := by
      have : ((2 ^ (52 + k) : Nat) : Int) ≤ (m.natAbs : Int) := Int.ofNat_le.mpr hlo
      rw [pow_add] at this
      exact_mod_cast this
    have hexp : -52 ≤ e + (k : Int) := by
      by_contra hcon
      have hle : e + (k : Int) + 53 ≤ 0 := by omega
      have habs : |(m : ℚ) * (2 : ℚ) ^ e| = (m.natAbs : ℚ) * (2 : ℚ) ^ e := by
        rw [abs_mul, abs_of_pos (show (0 : ℚ) < (2 : ℚ) ^ e by positivity), Nat.cast_natAbs,
          Int.cast_abs]
      have hlt : (m.natAbs : ℚ) < (2 : ℚ) ^ ((52 + k + 1 : Nat) : Int) := by
        rw [zpow_natCast]
        exact_mod_cast hhi
      have hprod : (m.natAbs : ℚ) * (2 : ℚ) ^ e
          < (2 : ℚ) ^ ((52 + k + 1 : Nat) : Int) * (2 : ℚ) ^ e :=
        mul_lt_mul_of_pos_right hlt (by positivity)
      rw [← zpow_add₀ (ne_of_gt h2)] at hprod
      have hone : (2 : ℚ) ^ (((52 + k + 1 : Nat) : Int) + e) ≤ 1 :=
        zpow_le_one_of_nonpos₀ (by norm_num) (by push_cast; omega)
      rw [habs] at h
      linarith
    have hpowge : (1 : ℚ) ≤ (2 : ℚ) ^ (52 : Int) * (2 : ℚ) ^ (e + (k : Int)) := by
      rw [← zpow_add₀ (ne_of_gt h2)]
      exact one_le_zpow₀ (by norm_num) (by omega)
    have hpos : (0 : ℚ) < (2 : ℚ) ^ (e + (k : Int)) := by positivity
    simp only [Double.toRat]
    rcases lt_or_gt_of_ne hm0 with hneg | hpos'
    · have hm : m ≤ -(2 : Int) ^ 52 * 2 ^ k := by
        have : (m.natAbs : Int) = -m := by omega
        rw [this] at hlo'
        linarith
      have hr := (roundHalfEven_bounds m k (-(2 : Int) ^ 52)).2 hm
      have hrq : ((roundHalfEven m k : Int) : ℚ) ≤ -(2 : ℚ) ^ (52 : Int) := by
        have : ((roundHalfEven m k : Int) : ℚ) ≤ ((-(2 : Int) ^ 52 : Int) : ℚ) :=
          Int.cast_le.mpr hr
        rw [zpow_ofNat]
        exact_mod_cast this
      have hval : ((roundHalfEven m k : Int) : ℚ) * (2 : ℚ) ^ (e + (k : Int)) ≤ -1 := by
        have := mul_le_mul_of_nonneg_right hrq (le_of_lt hpos)
        linarith
      rw [abs_of_nonpos (by linarith)]
      linarith
    · have hm : (2 : Int) ^ 52 * 2 ^ k ≤ m := by
        have : (m.natAbs : Int) = m := by omega
        rw [this] at hlo'
        exact hlo'
      have hr := (roundHalfEven_bounds m k ((2 : Int) ^ 52)).1 hm
      have hrq : (2 : ℚ) ^ (52 : Int) ≤ ((roundHalfEven m k : Int) : ℚ) := by
        have : (((2 : Int) ^ 52 : Int) : ℚ) ≤ ((roundHalfEven m k : Int) : ℚ) :=
          Int.cast_le.mpr hr
        rw [zpow_ofNat]
        exact_mod_cast this
      have hval : 1 ≤ ((roundHalfEven m k : Int) : ℚ) * (2 : ℚ) ^ (e + (k : Int)) := by
        have := mul_le_mul_of_nonneg_right hrq (le_of_lt hpos)
        linarith
      rw [abs_of_nonneg (by linarith)]
      exact hval

/-- The exact difference of two doubles, before the rounding of `jsSub`. -/
theorem jsSub_exact (a b : Double) :
    ((a.mantissa * 2 ^ (a.exponent - min a.exponent b.exponent).toNat
        - b.mantissa * 2 ^ (b.exponent - min a.exponent b.exponent).toNat : Int) : ℚ)
      * (2 : ℚ) ^ (min a.exponent b.exponent) = a.toRat - b.toRat := by
  rw [Int.cast_sub, sub_mul, toRat_align a _ (min_le_left _ _),
    toRat_align b _ (min_le_right _ _)]

/-- Two doubles that differ by at least 1 have a rounded difference of
magnitude at least 1. -/
theorem jsSub_abs_ge_one (a b : Double) (h : 1 ≤ |a.toRat - b.toRat|) :
    1 ≤ |(jsSub a b).toRat| := by
  unfold jsSub
  apply roundToDouble_abs_ge_one
  rw [jsSub_exact]
  exact h

theorem isDuplicate_eq_false_iff (allRoutes : List (Route Double)) (newRoute : Route Double) :
    isDuplicate allRoutes newRoute = false ↔
      ∀ r ∈ allRoutes, 1 ≤ |(jsSub r.distance newRoute.distance).toRat| := by
  unfold isDuplicate
  rw [List.any_eq_false]
  constructor
  · intro h r hr
    have := h r hr
    rw [jsLt_abs_sub_one] at this
    exact not_lt.mp this
  · intro h r hr
    rw [jsLt_abs_sub_one]
    exact not_lt.mpr (h r hr)

theorem ne_append_singleton {β : Type} (l : List β) (x : β) : l ≠ l ++ [x] := by
  intro h
  have := congrArg List.length h
  simp at this

/-- C14 as stated fails at the boundary: with one collected route of 10 km, a
variant of 11 km is within 1 km (inclusive) of it, the difference computed is
exactly 1, and the code accepts the variant. -/
theorem variant_at_one_km_accepted :
    (numberOfFixed3 10000).toRat = 10 ∧ (numberOfFixed3 11000).toRat = 11 ∧
    |(10 : ℚ) - 11| ≤ 1 ∧
    isDuplicate [⟨numberOfFixed3 10000, "main"⟩] ⟨numberOfFixed3 11000, "avoiding tolls"⟩
      = false ∧
    (addAvoidRoute [⟨numberOfFixed3 10000, "main"⟩]
        ⟨numberOfFixed3 11000, "avoiding tolls"⟩).map Route.distance
      = [numberOfFixed3 10000, numberOfFixed3 11000] := by
  have h10 : numberOfFixed3 10000 = ⟨5629499534213120, -49⟩ := by decide
  have h11 : numberOfFixed3 11000 = ⟨6192449487634432, -49⟩ := by decide
  refine ⟨?_, ?_, by norm_num, by decide, by decide⟩
  · rw [h10]
    norm_num [Double.toRat]
  · rw [h11]
    norm_num [Double.toRat]

/-- C14, amended. A road-avoidance variant is added to the collected routes
exactly when, for every collected route, the double-precision difference
`Math.abs(r.distance - newRoute.distance)` computed at line 438 is at least 1,
and it is left out exactly when that computed difference is below 1 for some
collected route. A variant whose distance differs from every collected distance
by at least 1 km is always added. -/
theorem variant_accepted_iff (allRoutes : List (Route Double)) (newRoute : Route Double) :
    (addAvoidRoute allRoutes newRoute = allRoutes ++ [newRoute] ↔
      ∀ r ∈ allRoutes, 1 ≤ |(jsSub r.distance newRoute.distance).toRat|) ∧
    (addAvoidRoute allRoutes newRoute = allRoutes ↔
      ∃ r ∈ allRoutes, |(jsSub r.distance newRoute.distance).toRat| < 1) ∧
    ((∀ r ∈ allRoutes, 1 ≤ |r.distance.toRat - newRoute.distance.toRat|) →
      addAvoidRoute allRoutes newRoute = allRoutes ++ [newRoute]) := by
  have hiff := isDuplicate_eq_false_iff allRoutes newRoute
  have hadd : addAvoidRoute allRoutes newRoute = allRoutes ++ [newRoute] ↔
      ∀ r ∈ allRoutes, 1 ≤ |(jsSub r.distance newRoute.distance).toRat| := by
    rw [← hiff]
    unfold addAvoidRoute
    cases hd : isDuplicate allRoutes newRoute with
    | false => simp
    | true =>
      simp only [if_true]
      constructor
      · intro h
        exact absurd h (ne_append_singleton _ _)
      · intro h
        cases h
  refine ⟨hadd, ?_, ?_⟩
  · constructor
    · intro h
      by_contra hcon
      push_neg at hcon
      have := hadd.mpr hcon
      rw [h] at this
      exact ne_append_singleton _ _ this
    · rintro ⟨r, hr, hlt⟩
      have hdup : isDuplicate allRoutes newRoute = true := by
        cases hd : isDuplicate allRoutes newRoute with
        | true => rfl
        | false => exact absurd (hiff.mp hd r hr) (not_le.mpr hlt)
      unfold addAvoidRoute
      rw [hdup]
      rfl
  · intro h
    exact hadd.mpr fun r hr => jsSub_abs_ge_one _ _ (h r hr)

/-- With a route of 7.001 km collected, a variant of 8.001 km is left out: the
two doubles differ by `1 - 2 ^ -50`. -/
theorem variant_accepted_iff_witness :
    addAvoidRoute [⟨numberOfFixed3 7001, "main"⟩] ⟨numberOfFixed3 8001, "avoiding tolls"⟩
      = [⟨numberOfFixed3 7001, "main"⟩] :=
  (variant_accepted_iff [⟨numberOfFixed3 7001, "main"⟩]
    ⟨numberOfFixed3 8001, "avoiding tolls"⟩).2.1.mpr
    ⟨⟨numberOfFixed3 7001, "main"⟩, List.mem_singleton_self _,
      (jsLt_abs_sub_one (numberOfFixed3 7001) (numberOfFixed3 8001)).mp (by decide)⟩

end DeduplicationClaims

end RouteEngine
